import Mathlib

/-!
Verification of the uLisp 4.6 interpreter core (Lisp Badge LE).

The definitions below are a shallow embedding of the C source
(`LispBadgeLE` uLisp 4.6).  Machine integers (`int` is 16 bits on the
AVR128DA48 target) are modelled as `Int`/`Nat` with explicit reductions
modulo 2^16 where the C code can wrap.  The non-local error jumps
(`error`/`error2` + `longjmp`) are modelled with `Except`: an
`Except.error` value corresponds to the recoverable handler jump.
-/

deriving instance DecidableEq for Except

namespace ULisp

/-- Errors raised by the C runtime via `error`/`error2` (a `longjmp` to the
nearest handler).  `invalidDeref` models a wild-pointer dereference that the
C code would perform on an ill-formed state (undefined behaviour in C,
unreachable under the well-formedness hypotheses used below). -/
inductive LErr where
  | noRoom            -- "no room" (out of memory)
  | overflowed        -- "arithmetic overflow"
  | rangeError        -- "Number out of range"
  | unknownVariable   -- "unknown variable"
  | oddArguments      -- "odd number of arguments"
  | illegalFn         -- "illegal function"
  | undefinedVar      -- "undefined"
  | notASymbol        -- "argument is not a symbol"
  | notAList          -- "argument is not a list"
  | notANumber        -- "argument is not an integer"
  | printError        -- "error in print" / "invalid symbol"
  | illegalMacroChar  -- "illegal character after #"
  | unknownCharacter  -- "unknown character"
  | incompleteList    -- "incomplete list"
  | malformedList     -- "malformed list"
  | unsupported       -- reader paths outside this embedding (#. #( #* #nA)
  | noArgument        -- "missing argument"
  | invalidDeref      -- wild dereference (C undefined behaviour)
  | tooFewArgs        -- "too few arguments"
  | tooManyArgs       -- "too many arguments"
  | notProper         -- "argument is not a proper list"
  | dottedPair        -- "can't evaluate a dotted pair"
  | otherForm         -- "can't be used as a function"
  | notValidHere      -- "not valid here"
  | fuelOut           -- recursion-depth bound of the evaluator model exceeded
  | hang              -- a C read loop that never terminates (blank input,
                      -- unterminated string, or comment without a bracket)
  deriving Repr, DecidableEq

/-- `INT_MAX` for the 16-bit `int` of the AVR target. -/
def INT_MAX : Int := 32767

/-- `INT_MIN` for the 16-bit `int` of the AVR target. -/
def INT_MIN : Int := -32768

/-! ### `fn_add` (claim C8)

```c
object *fn_add (object *args, object *env) {
  int result = 0;
  while (args != NULL) {
    int temp = checkinteger(car(args));
    if (temp < 1) { if (INT_MIN - temp > result) error2(overflow); }
    else { if (INT_MAX - temp < result) error2(overflow); }
    result = result + temp;
    args = cdr(args);
  }
  return number(result);
}
```
The argument list is modelled as the list of the integer payloads of the
argument cells (`checkinteger` reads `obj->integer`; every heap number cell
holds a 16-bit value, so arguments range over `[INT_MIN, INT_MAX]`). -/
def fn_add_loop : Int → List Int → Except LErr Int
  | result, [] => .ok result
  | result, temp :: rest =>
    if temp < 1 then
      if INT_MIN - temp > result then .error .overflowed
      else fn_add_loop (result + temp) rest
    else
      if INT_MAX - temp < result then .error .overflowed
      else fn_add_loop (result + temp) rest

/-- The addition builtin `fn_add`, starting from `result = 0`. -/
def fn_add (args : List Int) : Except LErr Int := fn_add_loop 0 args

/-! ### The number-classifying tail of `nextitem` (claim C7)

```c
  int isnumber = (digitvalue(ch)<base);
  while(!issp(ch) && !isbr(ch) && index < bufmax) {
    buffer[index++] = ch;
    int temp = digitvalue(ch);
    result = result * base + temp;        // result is a 16-bit unsigned int
    isnumber = isnumber && (digitvalue(ch)<base);
    ch = gfun();
  }
  ...
  if (isnumber) {
    if (base == 10 && result > ((unsigned int)INT_MAX+(1-sign)/2))
      error2(PSTR("Number out of range"));
    return number(result*sign);
  }
```
-/

/-- `digitvalue` from the C source; `d` is a character code (0..255). -/
def digitvalue (d : Nat) : Nat :=
  if 48 ≤ d ∧ d ≤ 57 then d - 48
  else
    let dl := d ||| 32
    if 97 ≤ dl ∧ dl ≤ 102 then dl - 97 + 10 else 16

/-- The accumulation of `result` over the token: `result = result*base + temp`
performed in a 16-bit `unsigned int`, i.e. modulo 2^16. -/
def atomAccum (base : Nat) : List Nat → Nat → Nat
  | [], acc => acc
  | c :: cs, acc => atomAccum base cs ((acc * base + digitvalue c) % 65536)

/-- Conversion of a 16-bit unsigned value to the (two's complement) signed
`int` it denotes, as performed by returning `result*sign` as an `int`. -/
def toSigned16 (n : Nat) : Int :=
  if n % 65536 < 32768 then ((n % 65536 : Nat) : Int)
  else ((n % 65536 : Nat) : Int) - 65536

/-- The number path at the end of `nextitem`.  `token` is the list of
character codes accumulated into `buffer` after the optional sign
(the maximal run of non-space, non-breaking characters), `negative` records
whether a leading `-` was consumed (`sign = -1`).  Returns `none` when
`isnumber` is false, i.e. when the token goes on to symbol classification.

The C accumulator is a 16-bit `unsigned int`; `result*sign` multiplies in
unsigned arithmetic (`sign = -1` becomes 65535) and the product is then
read back as a signed `int` by `number`.  An empty token leaves `isnumber`
false: `isnumber` is initialised from the terminating character, which is a
space or breaking character and never a valid digit. -/
def nextitemNumber (base : Nat) (negative : Bool) (token : List Nat) :
    Option (Except LErr Int) :=
  let result := atomAccum base token 0
  let isnumber := token ≠ [] ∧ ∀ c ∈ token, digitvalue c < base
  if isnumber then
    some
      (if base = 10 ∧ result > (if negative then 32768 else 32767) then
        .error .rangeError
      else
        .ok (toSigned16 (result * (if negative then 65535 else 1))))
  else none

/-- Mathematical (unwrapped) value of a digit token in the given base. -/
def tokenVal (base : Nat) (token : List Nat) : Nat :=
  token.foldl (fun a c => a * base + digitvalue c) 0

/-- Normalisation of an integer to the signed 16-bit (two's complement)
value denoting the same residue modulo 2^16. -/
def signed16 (x : Int) : Int := (x + 32768) % 65536 - 32768

/-! ### The object arena

A heap `object` is a union of two pointer-sized fields.  The first field
(`car`) either holds a pointer (cons cells and string/long-symbol chain
cells; `NULL` for an empty `car`) or a small even type tag (scalars); the
second field (`cdr`) either holds a pointer or the scalar payload
(`name`/`integer`/`chars`).  `Field` reifies this union: pointers are arena
indices. The C code distinguishes the two cases by value (`obj->type`):
`NULL` reads as `ZZERO` and a real cell address reads as `>= PAIR`, while
scalar tags are the values 2..14, so the discrimination is faithful for
well-formed heaps.  The mark bit is physically the low bit of the `car`
word (cell addresses are 4-aligned and the tags are even, so the bit is
free); it is modelled as a separate `mark` flag. -/
inductive Field where
  | null : Field
  | ptr : Nat → Field
  | val : Nat → Field
  deriving Repr, DecidableEq

/-- One cell of the `Workspace` arena. -/
structure Cell where
  car : Field
  cdr : Field
  mark : Bool
  deriving Repr, DecidableEq

/-- Type tags from `enum type`. -/
def SYMBOL : Nat := 2
def CODE : Nat := 4
def NUMBER : Nat := 6
def STREAM : Nat := 8
def CHARACTER : Nat := 10
def ARRAY : Nat := 12
def STRING : Nat := 14
def PAIR : Nat := 16

/-- Pointer read of a field (`NULL` and scalar payloads give no pointer;
for well-formed heaps a `val` payload is never dereferenced). -/
def fieldPtr : Field → Option Nat
  | .ptr i => some i
  | _ => none

/-- Pointer written into a field (`NULL` for the null pointer). -/
def ptrToField : Option Nat → Field
  | none => .null
  | some i => .ptr i

/-- `marked(x)`: the mark bit of cell `i` (false off the arena). -/
def isMarked (cs : List Cell) (i : Nat) : Bool :=
  match cs[i]? with
  | some c => c.mark
  | none => false

/-- `mark(x)`: set the mark bit of cell `i`. -/
def setMark (cs : List Cell) (i : Nat) : List Cell :=
  match cs[i]? with
  | some c => cs.set i { c with mark := true }
  | none => cs

/-- `longsymbolp(x)` reads the low two bits of the `name` (= `cdr`) field;
a chain pointer is 4-aligned (or `NULL`), a short `symbol_t` produced by
`twist` always has nonzero low bits. -/
def longnamefield : Field → Bool
  | .val n => n % 4 = 0
  | _ => true

/-- The marking loop for string / long-symbol chains:
`obj = cdr(obj); while (obj != NULL) { arg = car(obj); mark(obj); obj = arg; }`.
The walk is bounded by fuel; a null-terminated chain of a well-formed heap
finishes within `cs.length` steps. -/
def markChain (cs : List Cell) : Nat → Option Nat → List Cell
  | _, none => cs
  | 0, some _ => cs
  | fuel + 1, some j =>
    match cs[j]? with
    | none => cs
    | some c => markChain (setMark cs j) fuel (fieldPtr c.car)

/-- Number of unmarked cells (used as the recursion measure / fuel bound of
the depth-first marking). -/
def unmarkedCount (cs : List Cell) : Nat :=
  (cs.filter fun c => !c.mark).length

/-- Fuel-indexed `markobject`.  Mirrors the C routine:

```c
void markobject (object *obj) {
  MARK:
  if (obj == NULL) return;
  if (marked(obj)) return;
  object* arg = car(obj);
  unsigned int type = obj->type;
  mark(obj);
  if (type >= PAIR || type == ZZERO) { markobject(arg); obj = cdr(obj); goto MARK; }
  if (type == ARRAY) { obj = cdr(obj); goto MARK; }
  if ((type == STRING) || (type == SYMBOL && longsymbolp(obj))) {
    obj = cdr(obj);
    while (obj != NULL) { arg = car(obj); mark(obj); obj = arg; }
  }
}
```

Each recursive call is preceded by marking a previously unmarked cell, so
fuel `unmarkedCount cs + 1` always suffices. -/
def markFuel : Nat → List Cell → Option Nat → List Cell
  | _, cs, none => cs
  | 0, cs, some _ => cs
  | fuel + 1, cs, some i =>
    match cs[i]? with
    | none => cs
    | some c =>
      if c.mark then cs
      else
        let cs1 := setMark cs i
        match c.car with
        | .val t =>
          if t = ARRAY then markFuel fuel cs1 (fieldPtr c.cdr)
          else if t = STRING ∨ (t = SYMBOL ∧ longnamefield c.cdr) then
            markChain cs1 cs1.length (fieldPtr c.cdr)
          else cs1
        | _ => markFuel fuel (markFuel fuel cs1 (fieldPtr c.car)) (fieldPtr c.cdr)

/-- `markobject`, with sufficient fuel. -/
def markobject (cs : List Cell) (o : Option Nat) : List Cell :=
  markFuel (unmarkedCount cs + 1) cs o

/-- The mutable allocator state: the arena plus the `Freelist` head pointer
and the `Freespace` counter. -/
structure WState where
  cells : List Cell
  freelist : Option Nat
  freespace : Nat
  deriving Repr, DecidableEq

/-- `myfree(obj)`: clear `car`, chain the cell onto the free list head and
bump the counter (clearing `car` also clears the mark bit, which lives in
the `car` word). -/
def myfree (ws : WState) (i : Nat) : WState :=
  { cells := ws.cells.set i { car := .null, cdr := ptrToField ws.freelist, mark := false }
    freelist := some i
    freespace := ws.freespace + 1 }

/-- `myalloc()`: error (`error2("no room")`, a recoverable handler jump) when
`Freespace == 0`, otherwise pop the free-list head.  The `.invalid` results
model the wild dereference `cdr(NULL)` the C code would perform on a state
violating the free-list invariant. -/
def myalloc (ws : WState) : Except LErr (Nat × WState) :=
  if ws.freespace = 0 then .error .noRoom
  else
    match ws.freelist with
    | none => .error .invalidDeref
    | some h =>
      match ws.cells[h]? with
      | none => .error .invalidDeref
      | some c =>
        .ok (h, { ws with freelist := fieldPtr c.cdr, freespace := ws.freespace - 1 })

/-- One iteration of the sweep loop body:
`if (!marked(obj)) myfree(obj); else unmark(obj);`. -/
def sweepCell (ws : WState) (i : Nat) : WState :=
  match ws.cells[i]? with
  | none => ws
  | some c =>
    if !c.mark then myfree ws i
    else { ws with cells := ws.cells.set i { c with mark := false } }

/-- `sweepAux k` runs the sweep body on indices `k-1, k-2, ..., 0`
(the C loop runs `i` from `WORKSPACESIZE-1` down to `0`). -/
def sweepAux : Nat → WState → WState
  | 0, ws => ws
  | k + 1, ws => sweepAux k (sweepCell ws k)

/-- `sweep()`: reset `Freelist`/`Freespace`, then scan the whole arena. -/
def sweep (ws : WState) : WState :=
  sweepAux ws.cells.length { ws with freelist := none, freespace := 0 }

/-- `gc(form, env)`: mark from the five roots
`tee, GlobalEnv, GCStack, form, env`, then sweep. -/
def gc (tee genv gcstack form env : Option Nat) (ws : WState) : WState :=
  sweep { ws with
    cells := markobject (markobject (markobject (markobject
              (markobject ws.cells tee) genv) gcstack) form) env }

/-- `initworkspace()` pushes every arena cell onto the (initially empty) free
list, from index `WORKSPACESIZE-1` down to `0`; the loop body coincides with
`myfree`. -/
def initAux : Nat → WState → WState
  | 0, ws => ws
  | k + 1, ws => initAux k (myfree ws k)

/-- `initworkspace` starting from an arbitrary initial arena content. -/
def initworkspace (cs0 : List Cell) : WState :=
  initAux cs0.length { cells := cs0, freelist := none, freespace := 0 }

/-- `FreelistIs cs o L`: starting at pointer `o`, following `cdr` links
spells exactly the index list `L` and ends at `NULL`. -/
def FreelistIs (cs : List Cell) : Option Nat → List Nat → Prop
  | o, [] => o = none
  | o, j :: L => o = some j ∧ ∃ c, cs[j]? = some c ∧ FreelistIs cs (fieldPtr c.cdr) L

/-- The free-list invariant (claim C9): the `Freespace` counter equals the
number of cells on the `Freelist` chain. -/
def FreeInv (ws : WState) : Prop :=
  ∃ L, FreelistIs ws.cells ws.freelist L ∧ ws.freespace = L.length

/-! ### Reachability and heap well-formedness (claims C1, C2)

The mark phase is related to an independent notion of reachability: `succs`
lists the cells into which `markobject` recurses from a given cell, and
`Reach` is the reflexive-transitive closure. -/

/-- Whether the `car` word reads as a pointer (`type >= PAIR || type == ZZERO`
in the C discrimination): the cell is traversed as a cons. -/
def pairCar : Field → Bool
  | .val _ => false
  | _ => true

/-- The (zero- or one-element) list of pointers in a field. -/
def ptrList (f : Field) : List Nat :=
  match fieldPtr f with
  | some j => [j]
  | none => []

/-- STRING cells and long SYMBOL cells: their children are the chain of
cells hanging off `cdr` linked by `car`. -/
def isStringHead (c : Cell) : Bool :=
  c.car = .val STRING || (c.car = .val SYMBOL && longnamefield c.cdr)

/-- The cells visited by the chain walk
`obj = start; while (obj != NULL) { obj = car(obj); }`, fuel-bounded. -/
def chainListN (cs : List Cell) : Nat → Option Nat → List Nat
  | _, none => []
  | 0, some _ => []
  | fuel + 1, some j =>
    match cs[j]? with
    | none => []
    | some c => j :: chainListN cs fuel (fieldPtr c.car)

/-- Well-formedness of a chain: every link exists, has a pointer-shaped
`car` and a payload-shaped `cdr`, and the walk reaches `NULL` within the
given fuel.  (A null-terminated chain never revisits a cell, so fuel
`cs.length` covers every terminating chain.) -/
def chainOk (cs : List Cell) : Nat → Option Nat → Bool
  | _, none => true
  | 0, some _ => false
  | fuel + 1, some j =>
    match cs[j]? with
    | none => false
    | some c =>
      match c.car, c.cdr with
      | .val _, _ => false
      | _, .val _ => chainOk cs fuel (fieldPtr c.car)
      | _, _ => false

/-- GC successors of cell `i`, mirroring the traversal rules of
`markobject`: conses recurse into both fields, arrays into `cdr`, strings
and long symbols bulk-mark their chain, other scalars have no children. -/
def succs (cs : List Cell) (i : Nat) : List Nat :=
  match cs[i]? with
  | none => []
  | some c =>
    if pairCar c.car then ptrList c.car ++ ptrList c.cdr
    else if c.car = .val ARRAY then ptrList c.cdr
    else if isStringHead c then chainListN cs cs.length (fieldPtr c.cdr)
    else []

/-- One GC edge. -/
def Edge (cs : List Cell) (i j : Nat) : Prop := j ∈ succs cs i

/-- Reachability from a root cell following GC edges. -/
def Reach (cs : List Cell) (r i : Nat) : Prop := Relation.ReflTransGen (Edge cs) r i

/-- Reachability from a list of optional roots. -/
def RootsReach (cs : List Cell) (roots : List (Option Nat)) (i : Nat) : Prop :=
  ∃ r, some r ∈ roots ∧ Reach cs r i

/-- A pointer field stays inside the arena. -/
def fieldOk (n : Nat) : Field → Bool
  | .ptr j => j < n
  | _ => true

/-- A scalar type tag is one of the legal even tags from `enum type`. -/
def tagOk : Field → Bool
  | .val t => t = SYMBOL || t = CODE || t = NUMBER || t = STREAM ||
      t = CHARACTER || t = ARRAY || t = STRING
  | _ => true

/-- Heap well-formedness for the GC theorems: every pointer field is in
range, every scalar type tag is one of the legal tags, and every string /
long-symbol head carries a well-formed chain.  (On heaps violating these
conditions the C routines dereference wild pointers or fail to terminate.) -/
def heapWF (cs : List Cell) : Prop :=
  (∀ c ∈ cs, fieldOk cs.length c.car ∧ fieldOk cs.length c.cdr) ∧
  (∀ c ∈ cs, tagOk c.car = true) ∧
  (∀ c ∈ cs, isStringHead c = true → chainOk cs cs.length (fieldPtr c.cdr) = true)


/-- No mark bit is set (true whenever the mutator runs: marks exist only
inside `gc`/`compactimage`). -/
def allUnmarked (cs : List Cell) : Prop := ∀ c ∈ cs, c.mark = false

/-- A root pointer is null or in range. -/
def rootOk (n : Nat) : Option Nat → Prop
  | none => True
  | some r => r < n

instance (n : Nat) (o : Option Nat) : Decidable (rootOk n o) :=
  match o with
  | none => isTrue trivial
  | some r => Nat.decLt r n

instance (cs : List Cell) : Decidable (allUnmarked cs) := by
  unfold allUnmarked
  infer_instance

instance (cs : List Cell) : Decidable (heapWF cs) := by
  unfold heapWF
  infer_instance

/-- Fields (car, cdr) of the cell at an index, ignoring the mark bit. -/
def fieldsAt (cs : List Cell) (i : Nat) : Option (Field × Field) :=
  (cs[i]?).map fun c => (c.car, c.cdr)

/-- Two heaps with identical fields everywhere (they may differ in mark
bits only). -/
def SameFields (cs cs' : List Cell) : Prop :=
  cs'.length = cs.length ∧ ∀ i, fieldsAt cs' i = fieldsAt cs i

/-- Closure of the marked set under GC edges, except at a set `P` of cells
whose successors are still being processed (the recursion's pending stack).
With `P` empty this says the marked set is closed under reachability. -/
def ClosedExcept (cs : List Cell) (P : Nat → Prop) : Prop :=
  ∀ i, isMarked cs i = true → ¬ P i → ∀ j, j ∈ succs cs i → isMarked cs j = true

/-! ### `compactimage` and `movepointer` (claim C2) -/

/-- The cell-shape test of `movepointer`'s first loop:
`type >= ARRAY || type == ZZERO || (type == SYMBOL && longsymbolp(obj))`
where `type = (obj->type) & ~MARKBIT`.  A pointer `car` reads as an
address `>= PAIR >= ARRAY` and a `NULL` `car` reads as `ZZERO`, so the
condition selects exactly the cells whose fields the collector treats as
pointers: conses and chain cells (`pairCar`), array heads, string heads
and long-symbol heads. -/
def moveFix (c : Cell) : Bool :=
  pairCar c.car || c.car = .val ARRAY || c.car = .val STRING ||
    (c.car = .val SYMBOL && longnamefield c.cdr)

/-- Rewriting of one field by `movepointer`'s first loop: a field equal
to the pointer `frm` becomes the pointer `to`.  (The `car` comparison in
C is against `from | MARKBIT` because the scanned cell is marked and the
mark bit lives in its `car` word; the mark bit is modelled separately, so
both field comparisons are plain pointer equality here.) -/
def fixField (frm tgt : Nat) (f : Field) : Field :=
  if f = .ptr frm then .ptr tgt else f

/-- First loop of `movepointer(from, to)`: every marked cell of a
pointer-bearing shape has a `car` equal to `from` rewritten to `to` and a
`cdr` equal to `from` rewritten to `to`.  Each iteration reads and writes
only the scanned cell, so the in-place C loop is a map.  (In C a 2-byte
character payload in the `cdr` word of a string chain cell could compare
equal to the address `from`; payloads are `.val`s here and never equal a
`.ptr`, see `movepointer2`.) -/
def movepointer1 (frm tgt : Nat) (cs : List Cell) : List Cell :=
  cs.map fun c =>
    if c.mark && moveFix c then
      { c with car := fixField frm tgt c.car, cdr := fixField frm tgt c.cdr }
    else c

/-- The chain walk of `movepointer`'s second loop:
`while (obj != NULL) { if (cdr(obj) == to) cdr(obj) = from; obj = car(obj) & ~MARKBIT; }`,
fuel-bounded like the other chain walks. -/
def movepointer2Chain (frm tgt : Nat) : Nat → Option Nat → List Cell → List Cell
  | _, none, cs => cs
  | 0, some _, cs => cs
  | fuel + 1, some j, cs =>
    match cs[j]? with
    | none => cs
    | some c =>
      movepointer2Chain frm tgt fuel (fieldPtr c.car)
        (if c.cdr = .ptr tgt then cs.set j { c with cdr := .ptr frm } else cs)

/-- Second loop of `movepointer` ("fix strings and long symbols"): walk
the chain of every marked string / long-symbol head and rewrite a chain
`cdr` equal to `to` back to `from`.  In C this undoes first-loop rewrites
of character payloads that aliased the address `from`; chain `cdr`s are
`.val` payloads here, which never compare equal to a `.ptr`, so on
well-formed heaps the walk changes nothing (proved as `movepointer2_id`);
it is kept for faithfulness to the C routine. -/
def movepointer2 (frm tgt : Nat) (cs : List Cell) : List Cell :=
  (List.range cs.length).foldl (fun acc i =>
    match acc[i]? with
    | none => acc
    | some c =>
      if c.mark && isStringHead c then
        movepointer2Chain frm tgt acc.length (fieldPtr c.cdr) acc
      else acc) cs

/-- `movepointer(from, to)`: both loops. -/
def movepointer (frm tgt : Nat) (cs : List Cell) : List Cell :=
  movepointer2 frm tgt (movepointer1 frm tgt cs)

/-- Renaming of all pointers of a field by `π`. -/
def mapPtr (π : Nat → Nat) : Field → Field
  | .ptr j => .ptr (π j)
  | f => f

/-- Renaming of one cell under a relocation map `π`: the pointer fields
of pointer-bearing cells (the `moveFix` shapes, exactly the fields
`movepointer` rewrites) are renamed; scalar payload cells are untouched.
Only `car`/`cdr` are read; the mark bit is passed through. -/
def renameCell (π : Nat → Nat) (c : Cell) : Cell :=
  if moveFix c then { c with car := mapPtr π c.car, cdr := mapPtr π c.cdr }
  else c

/-- `while (marked(firstfree)) firstfree++`, fuel-bounded.  (For a fully
marked arena the C scan would run past the arena end reading out of
bounds; the model stops at the boundary, where `marked` reads false.) -/
def nextFreeAux (cs : List Cell) : Nat → Nat → Nat
  | 0, k => k
  | f + 1, k => if isMarked cs k then nextFreeAux cs f (k + 1) else k

/-- The first unmarked index at or after `k` (or the arena size). -/
def nextFree (cs : List Cell) (k : Nat) : Nat :=
  nextFreeAux cs (cs.length - k) k

/-- The mutable state seen by `compactimage`: the arena plus the three
pointer variables the loop rewrites (`GlobalEnv`, `GCStack` and the
by-reference argument `*arg`). -/
structure CompactSt where
  cells : List Cell
  genv : Option Nat
  gcstack : Option Nat
  arg : Option Nat
  deriving Repr, DecidableEq

/-- The body of one marked iteration of the compaction loop:
`car(firstfree) = car(obj); cdr(firstfree) = cdr(obj);` (the copied `car`
word carries `obj`'s set mark bit, so the destination becomes marked),
`unmark(obj); movepointer(obj, firstfree);` and the three root fixups
comparing against `obj`'s old address. -/
def compactMove (st : CompactSt) (o ff : Nat) : CompactSt :=
  match st.cells[o]? with
  | none => st
  | some c =>
    let cs1 := (st.cells.set ff { car := c.car, cdr := c.cdr, mark := true }).set
      o { c with mark := false }
    { cells := movepointer o ff cs1
      genv := if st.genv = some o then some ff else st.genv
      gcstack := if st.gcstack = some o then some ff else st.gcstack
      arg := if st.arg = some o then some ff else st.arg }

/-- The compaction loop, `obj` descending from `WORKSPACESIZE-1` while
`firstfree < obj`: a marked `obj` is copied down to `firstfree`,
`firstfree` re-advanced over marked cells, and `obj` decremented.
Returns the final `firstfree` (the value `compactimage` returns as
`firstfree - Workspace`) and the final state. -/
def compactAux : Nat → Nat → CompactSt → Nat × CompactSt
  | 0, ff, st => (ff, st)
  | o + 1, ff, st =>
    if ff < o + 1 then
      if isMarked st.cells (o + 1) then
        let st' := compactMove st (o + 1) ff
        compactAux o (nextFree st'.cells ff) st'
      else compactAux o ff st
    else (ff, st)

/-- The result of `compactimage`: the returned count, the post-`sweep`
arena with its rebuilt free list, and the final values of the three
rewritten pointer variables. -/
structure CResult where
  count : Nat
  heap : WState
  genv : Option Nat
  gcstack : Option Nat
  arg : Option Nat
  deriving Repr, DecidableEq

/-- `compactimage(arg)`: mark from `tee`, `GlobalEnv` and `GCStack` (the
argument is *not* marked), slide the marked cells down, then `sweep`. -/
def compactimage (tee : Option Nat) (st : CompactSt) : CResult :=
  let cs := markobject (markobject (markobject st.cells tee) st.genv) st.gcstack
  let r := compactAux (cs.length - 1) (nextFree cs 0) { st with cells := cs }
  { count := r.1
    heap := sweep { cells := r.2.cells, freelist := none, freespace := 0 }
    genv := r.2.genv
    gcstack := r.2.gcstack
    arg := r.2.arg }

/-- Number of marked cells of an arena. -/
def markedCount (cs : List Cell) : Nat := cs.countP (·.mark)

/-- The marked set is closed under GC edges (holds after a mark phase on
a well-formed heap, since marked = reachable and reachability is closed). -/
def MarkedClosed (cs : List Cell) : Prop :=
  ∀ i, isMarked cs i = true → ∀ j, j ∈ succs cs i → isMarked cs j = true

/-- How one of the rewritten pointer variables relates to its initial
value under the relocation map `π` of the marked (= live) cells: a null
pointer stays null, a pointer to a marked cell is relocated by `π`, and a
pointer to an unmarked cell is left alone (it dangles after compaction). -/
def rootMapped (cs0 : List Cell) (π : Nat → Nat) (r0 r : Option Nat) : Prop :=
  (r0 = none → r = none) ∧
  (∀ x, r0 = some x →
    (isMarked cs0 x = true → r = some (π x)) ∧
    (isMarked cs0 x = false → r = some x))

/-- The loop invariant of `compactAux` over the post-mark heap `cs0` and
pre-loop root values (`st0`): `π` relocates every initially marked cell
to a live slot holding its `π`-renamed fields, injectively; the currently
marked cells are exactly the `π`-images; the marked-cell count is
preserved; every already-moved cell sits below `firstfree`; `[0, ff)` is
all marked, `ff` itself (if in range) and everything above `obj` is
unmarked; and the three pointer variables track `π`. -/
def CompactInv (cs0 : List Cell) (st0 : CompactSt) (π : Nat → Nat)
    (obj ff : Nat) (st : CompactSt) : Prop :=
  st.cells.length = cs0.length ∧
  (∀ i, isMarked cs0 i = true → π i < cs0.length ∧
    ∃ c, cs0[i]? = some c ∧ st.cells[π i]? = some (renameCell π c)) ∧
  (∀ i j, isMarked cs0 i = true → isMarked cs0 j = true → π i = π j → i = j) ∧
  (∀ k, isMarked st.cells k = true ↔ ∃ i, isMarked cs0 i = true ∧ π i = k) ∧
  markedCount st.cells = markedCount cs0 ∧
  (∀ i, isMarked cs0 i = true → π i ≠ i → π i < ff) ∧
  (∀ j, j < ff → isMarked st.cells j = true) ∧
  (ff < st.cells.length → isMarked st.cells ff = false) ∧
  ff ≤ st.cells.length ∧
  (∀ j, obj < j → isMarked st.cells j = false) ∧
  rootMapped cs0 π st0.genv st.genv ∧
  rootMapped cs0 π st0.gcstack st.gcstack ∧
  rootMapped cs0 π st0.arg st.arg

/-- A concrete two-cell arena: a number cell and a second number cell
(no references between them). -/
def twoNums : List Cell :=
  [⟨.val NUMBER, .val 5, false⟩, ⟨.val NUMBER, .val 7, false⟩]

/-- A concrete two-cell arena: a number cell and a cons whose `car`
points at it. -/
def numAndCons : List Cell :=
  [⟨.val NUMBER, .val 5, false⟩, ⟨.ptr 0, .null, false⟩]

/-! ### `eq` (claim C10) -/

/-- `symbolp(x)` for a non-null cell: `x->type == SYMBOL`. -/
def symbolpC (c : Cell) : Bool := c.car = .val SYMBOL

/-- `integerp(x)` for a non-null cell: `x->type == NUMBER`. -/
def integerpC (c : Cell) : Bool := c.car = .val NUMBER

/-- `characterp(x)` for a non-null cell: `x->type == CHARACTER`. -/
def characterpC (c : Cell) : Bool := c.car = .val CHARACTER

/-- `eq(arg1, arg2)`:

```c
boolean eq (object *arg1, object *arg2) {
  if (arg1 == arg2) return true;                    // Same object
  if ((arg1 == nil) || (arg2 == nil)) return false; // Not both values
  if (arg1->cdr != arg2->cdr) return false;         // Different values
  if (symbolp(arg1) && symbolp(arg2)) return true;  // Same symbol
  if (integerp(arg1) && integerp(arg2)) return true;// Same integer
  if (characterp(arg1) && characterp(arg2)) return true; // Same character
  return false;
}
```

The raw-word comparison `arg1->cdr != arg2->cdr` is modelled by equality of
`Field` values: a numeric payload coinciding with a pointer bit pattern
could only make the C comparison succeed where the model's fails when the
two cells have different types, in which case both return false anyway. -/
def eqObj (cs : List Cell) (a b : Option Nat) : Bool :=
  if a = b then true
  else
    match a, b with
    | none, _ => false
    | _, none => false
    | some i, some j =>
      match cs[i]?, cs[j]? with
      | some c1, some c2 =>
        if c1.cdr ≠ c2.cdr then false
        else if symbolpC c1 ∧ symbolpC c2 then true
        else if integerpC c1 ∧ integerpC c2 then true
        else if characterpC c1 ∧ characterpC c2 then true
        else false
      | _, _ => false

/-! ### The evaluator fragment (claims C5 and C6)

A shallow embedding of `eval` (v.lisp) restricted to the language fragment
exercised by the claims: self-evaluating scalars, symbol lookup, `let`,
`let*`, `lambda`, `closure` application, and the builtins `quote`, `defun`,
`setq` and `progn`.  Builtins outside this fragment evaluate to the model
error `unsupported`.  The stack-overflow check, garbage collection, escape
polling and tracing in `eval` do not affect the value computed (no function
is ever traced here) and are omitted. -/

/-- Lisp values for the evaluator model.  A binding pair `(var . value)` is
mutated in place by `sp_setq` (`cdr(pair) = arg`) and by `sp_defun`, so
every pair that enters an environment is represented as a reference
`.vpair id` into a store of mutable pairs (`ESt.pairs`); the conses of the
modelled programs are otherwise immutable and are represented
structurally. -/
inductive V where
  | vnil
  | vnum (n : Int)
  | vchar (c : Nat)
  | vstr (s : List Nat)
  | vsym (name : Nat)
  | vpair (id : Nat)
  | vcons (a d : V)
  deriving Repr, DecidableEq

/-- The mutable interpreter state seen by the modelled fragment: the store
of binding pairs (each `(name, value)`) and the variable `GlobalEnv`. -/
structure ESt where
  pairs : List (Nat × V)
  genv : V
  deriving Repr, DecidableEq

/-- Allocate a fresh binding pair `cons(var, value)` in the store. -/
def newPair (st : ESt) (name : Nat) (v : V) : Nat × ESt :=
  (st.pairs.length, ⟨st.pairs ++ [(name, v)], st.genv⟩)

/-- `cdr(pair) = v`: overwrite a binding pair's value in place. -/
def setPairCdr (st : ESt) (id : Nat) (v : V) : ESt :=
  match st.pairs[id]? with
  | some (nm, _) => ⟨st.pairs.set id (nm, v), st.genv⟩
  | none => st

/-- `cdr(pair)` for a binding pair reference. -/
def pairValue (st : ESt) (id : Nat) : V :=
  match st.pairs[id]? with
  | some (_, v) => v
  | none => .vnil

/-- `twist(x)`: `(x<<2) | ((x & 0xC000)>>14)` on the 16-bit `symbol_t`. -/
def twist (x : Nat) : Nat := ((x <<< 2) ||| ((x &&& 0xC000) >>> 14)) % 65536

/-- `untwist(x)`: `(x>>2 & 0x3FFF) | ((x & 0x03)<<14)`. -/
def untwist (x : Nat) : Nat := ((x >>> 2) &&& 0x3FFF) ||| ((x &&& 0x3) <<< 14)

/-- `#define BUILTINS 64000`. -/
def BUILTINS : Nat := 64000

/-- `sym(x)`: the name of builtin `x`, `twist(x + BUILTINS)`. -/
def sym (b : Nat) : Nat := twist (b + BUILTINS)

/-- `builtinp(name)`: `untwist(name) >= BUILTINS`. -/
def builtinp (name : Nat) : Bool := BUILTINS ≤ untwist name

/-- `#define PACKEDS 17600`. -/
def PACKEDS : Nat := 17600

/-- Indices in `enum builtins` (v.lisp): `NIL, TEE, NOTHING, OPTIONAL,
FEATURES, ..., AMPREST, LAMBDA, LET, LETSTAR, CLOSURE, PSTAR, QUOTE,
DEFUN, ...` and, from the rows of `lookup_table`, `SETQ = 35`,
`PROGN = 55`. -/
def NOTHING : Nat := 2

/-- `OPTIONAL` in `enum builtins`. -/
def OPTIONAL : Nat := 3

/-- `FEATURES` in `enum builtins`. -/
def FEATURES : Nat := 4

/-- `AMPREST` (`&rest`) in `enum builtins`. -/
def AMPREST : Nat := 9

/-- `LAMBDA` in `enum builtins`. -/
def LAMBDA : Nat := 10

/-- `LET` in `enum builtins`. -/
def LET : Nat := 11

/-- `LETSTAR` in `enum builtins`. -/
def LETSTAR : Nat := 12

/-- `CLOSURE` in `enum builtins`. -/
def CLOSURE : Nat := 13

/-- `QUOTE` in `enum builtins`. -/
def QUOTE : Nat := 15

/-- `DEFUN` in `enum builtins`. -/
def DEFUN : Nat := 16

/-- `SETQ` (row 35 of `lookup_table`). -/
def SETQ : Nat := 35

/-- `PROGN` (row 55 of `lookup_table`). -/
def PROGN : Nat := 55

/-- `listp(x)`: `x == NULL || consp(x)`. -/
def listpV : V → Bool
  | .vnil => true
  | .vcons _ _ => true
  | _ => false

/-- `consp(x)`. -/
def conspV : V → Bool
  | .vcons _ _ => true
  | _ => false

/-- `isbuiltin(obj, n)`: `symbolp(obj) && obj->name == sym(n)`. -/
def isbuiltinV (v : V) (b : Nat) : Bool :=
  match v with
  | .vsym n => n = sym b
  | _ => false

/-- `colonp(name)` is true only for a long symbol whose first packed
character is `':'`.  Every symbol of the modelled programs is a builtin or
an interned symbol whose printed name does not start with a colon, so
`colonp` returns false on all of them. -/
def colonpM (_ : Nat) : Bool := false

/-- `value(n, env)`: scan the association list for the first non-nil pair
whose variable has name `n`, returning the pair (its store reference).
Entries that are not pair references never occur in a modelled environment
(a `nil` frame marker is skipped exactly as `pair != NULL` skips it). -/
def valueLook (st : ESt) (n : Nat) : V → Option Nat
  | .vcons p rest =>
    match p with
    | .vpair id =>
      match st.pairs[id]? with
      | some (nm, _) => if nm = n then some id else valueLook st n rest
      | none => valueLook st n rest
    | _ => valueLook st n rest
  | _ => none

/-- `findpair(var, env)`: look the variable up in `env`, then in
`GlobalEnv`.  (`findpair` reads `var->name` without a symbol check; a
non-symbol variable is outside the model.) -/
def findpairM (st : ESt) (var : V) (env : V) : Option Nat :=
  match var with
  | .vsym name =>
    match valueLook st name env with
    | some id => some id
    | none => valueLook st name st.genv
  | _ => none

/-- The inner loop of `closure`'s Dropframe:
`while (*env != NULL && car(*env) != NULL) pop(*env);`. -/
def popFrame : V → V
  | .vcons .vnil rest => .vcons .vnil rest
  | .vcons _ rest => popFrame rest
  | e => e

/-- Dropframe (`closure`, v.lisp): on a tail call with a frame marker on
top, pop the marker and the frame below it; otherwise push a `nil`
marker. -/
def dropframe (env : V) : V :=
  match env with
  | .vcons .vnil rest => popFrame rest
  | e => .vcons .vnil e

/-- Push the closure's saved environment pair by pair:
`while (consp(state)) { push(first(state), *env); state = cdr(state); }`.
The pair references are pushed as they are — the binding cells themselves
are shared with every other environment that contains them. -/
def pushState : V → V → V
  | .vcons p rest, env => pushState rest (.vcons p env)
  | _, env => env

/-- The environment copy made by the `LAMBDA` case of `eval`: push every
non-nil entry of `env` onto `envcopy` (reversing the chain and dropping
the frame markers, sharing the binding-pair references). -/
def envCopy : V → V → V
  | .vcons p rest, acc => envCopy rest (if p = .vnil then acc else .vcons p acc)
  | _, acc => acc

/-- The entries (binding pairs and `nil` frame markers) of an environment
chain, as a Lean list. -/
def envEntries : V → List V
  | .vcons p rest => p :: envEntries rest
  | _ => []

/-- The parameter-binding loop of `closure` (v.lisp).  An optional
parameter with a default-value form would recursively call `eval`; the
modelled programs declare none, so that branch maps to `unsupported`.  A
non-symbol after `&rest`, or a non-list parameter "list", makes the C code
dereference through a non-pair object (`invalidDeref`). -/
def bindParams (st : ESt) (params args env : V) (optional : Bool) :
    Except LErr (V × ESt) :=
  match params with
  | .vnil => if args = .vnil then .ok (env, st) else .error .tooManyArgs
  | .vcons var prest =>
    if isbuiltinV var OPTIONAL then bindParams st prest args env true
    else if conspV var then .error .unsupported
    else
      match var with
      | .vsym vname =>
        if vname = sym AMPREST then
          match prest with
          | .vcons (.vsym rname) prest2 =>
            let a := newPair st rname args
            bindParams a.2 prest2 .vnil (.vcons (.vpair a.1) env) optional
          | _ => .error .invalidDeref
        else
          match args with
          | .vcons a arest =>
            let p := newPair st vname a
            bindParams p.2 prest arest (.vcons (.vpair p.1) env) optional
          | .vnil =>
            if optional then
              let p := newPair st vname .vnil
              bindParams p.2 prest .vnil (.vcons (.vpair p.1) env) optional
            else .error .tooFewArgs
          | _ => .error .invalidDeref
      | _ => .error .notASymbol
  | _ => .error .invalidDeref

/-- The `minmax` bytes of the builtins reachable in the modelled fragment,
from the rows of `lookup_table`: entries 0-9 have `0000`, entries 10-13
(`lambda`, `let`, `let*`, `closure`) have `0017`, entry 14 (`*p*`) has
`0007`, `quote` has `0311`, `defun` and `setq` have `0327`, `progn` has
`0107` (octal).  Builtins outside the fragment give `none`, which the
evaluator model maps to `unsupported`. -/
def getminmaxM (b : Nat) : Option Nat :=
  if b ≤ 9 then some 0
  else if b ≤ 13 then some 15
  else if b = 14 then some 7
  else if b = QUOTE then some 201
  else if b = DEFUN then some 215
  else if b = SETQ then some 215
  else if b = PROGN then some 71
  else none

/-- `checkminmax(name, nargs)` given the builtin's minmax byte:
`min = (minmax>>3) & 7`, `max = minmax & 7`, with `max = 7` meaning
unbounded. -/
def checkminmaxM (minmax nargs : Nat) : Except LErr Unit :=
  if nargs < (minmax >>> 3) &&& 7 then .error .tooFewArgs
  else if (minmax &&& 7) ≠ 7 ∧ (minmax &&& 7) < nargs then .error .tooManyArgs
  else .ok ()

/-- `listlength(list)`, raising "not a proper list" on a dotted tail. -/
def listlengthM : V → Except LErr Nat
  | .vnil => .ok 0
  | .vcons _ d => (listlengthM d).map (· + 1)
  | _ => .error .notProper

/-- `checkargs(args)`: `checkminmax(Context, listlength(args))`. -/
def checkargsM (minmax : Nat) (args : V) : Except LErr Unit :=
  match listlengthM args with
  | .ok n => checkminmaxM minmax n
  | .error e => .error e

/-- `sp_defun`: check the variable is a symbol, build
`cons(bsymbol(LAMBDA), cdr(args))` — the *unevaluated* lambda form — and
store it under the variable in `GlobalEnv`, overwriting an existing
binding pair in place. -/
def sp_defunM (st : ESt) (args : V) : Except LErr (V × ESt) :=
  match args with
  | .vcons var rest =>
    match var with
    | .vsym name =>
      let val := V.vcons (.vsym (sym LAMBDA)) rest
      match valueLook st name st.genv with
      | some id => .ok (var, setPairCdr st id val)
      | none =>
        let p := newPair st name val
        .ok (var, ⟨p.2.pairs, .vcons (.vpair p.1) p.2.genv⟩)
    | _ => .error .notASymbol
  | _ => .error .invalidDeref

mutual

/-- `eval(form, env)` (v.lisp), restricted to the modelled fragment.
`fuel` bounds the recursion depth (the C code instead checks the hardware
stack and can loop forever); `tc` is the local `TC` flag carried across
the `goto EVAL` iterations (a fresh C `eval` call starts with `TC = 0`). -/
def evalV (fuel tc : Nat) (form env : V) (st : ESt) : Except LErr (V × ESt) :=
  match fuel with
  | 0 => .error .fuelOut
  | fuel + 1 =>
    match form with
    | .vnil => .ok (.vnil, st)
    | .vnum n => .ok (.vnum n, st)
    | .vchar c => .ok (.vchar c, st)
    | .vstr s => .ok (.vstr s, st)
    | .vpair _ => .error .invalidDeref
    | .vsym name =>
      if colonpM name then .ok (.vsym name, st)
      else
        match valueLook st name env with
        | some id => .ok (pairValue st id, st)
        | none =>
          match valueLook st name st.genv with
          | some id => .ok (pairValue st id, st)
          | none =>
            if builtinp name then
              if untwist name - BUILTINS = FEATURES then .error .unsupported
              else .ok (.vsym name, st)
            else .error .undefinedVar
    | .vcons function args =>
      if function = .vnil then .error .illegalFn
      else if listpV args then
        match function with
        | .vsym fname =>
          if builtinp fname then
            let name := untwist fname - BUILTINS
            if name = LET ∨ name = LETSTAR then
              match args with
              | .vcons assigns forms =>
                if listpV assigns then
                  match letLoop fuel name assigns env env st with
                  | .ok (newenv, st1) =>
                    match tf_prognM fuel forms newenv st1 with
                    | .ok (form1, st2) => evalV fuel tc form1 newenv st2
                    | .error e => .error e
                  | .error e => .error e
                else .error .notAList
              | _ => .error .noArgument
            else if name = LAMBDA then
              if env = .vnil then .ok (.vcons function args, st)
              else .ok (.vcons (.vsym (sym CLOSURE))
                          (.vcons (envCopy env .vnil) args), st)
            else
              match getminmaxM name with
              | none => .error .unsupported
              | some mm =>
                if mm >>> 6 = 3 then
                  match checkargsM mm args with
                  | .error e => .error e
                  | .ok _ =>
                    if name = QUOTE then
                      match args with
                      | .vcons a _ => .ok (a, st)
                      | _ => .error .invalidDeref
                    else if name = DEFUN then sp_defunM st args
                    else if name = SETQ then sp_setqM fuel st args env .vnil
                    else .error .unsupported
                else if mm >>> 6 = 1 then
                  match checkargsM mm args with
                  | .error e => .error e
                  | .ok _ =>
                    if name = PROGN then
                      match tf_prognM fuel args env st with
                      | .ok (form1, st1) => evalV fuel 1 form1 env st1
                      | .error e => .error e
                    else .error .unsupported
                else if mm >>> 6 = 0 then .error .otherForm
                else applyPath fuel tc (.vcons function args) env st
          else applyPath fuel tc (.vcons function args) env st
        | _ => applyPath fuel tc (.vcons function args) env st
      else .error .dottedPair
  termination_by structural fuel

/-- The argument-evaluation and application path of `eval` (reached when
the head is not a special/tail builtin): evaluate the head and every
argument (fresh `eval` calls, `TC = 0`), then apply a builtin function, a
lambda, or a closure.  The modelled fragment contains no `FUNCTIONS`-class
builtins, so a builtin symbol that survives `checkminmax` here is outside
the fragment, except the fragment's own handlers reached through an
evaluated head. -/
def applyPath (fuel tc : Nat) (form env : V) (st : ESt) : Except LErr (V × ESt) :=
  match fuel with
  | 0 => .error .fuelOut
  | fuel + 1 =>
    match form with
    | .vcons fname rest =>
      match evalV fuel 0 fname env st with
      | .error e => .error e
      | .ok (function, st1) =>
        match evlisM fuel rest env st1 with
        | .error e => .error e
        | .ok (args, st2) =>
          match function with
          | .vsym gname =>
            if builtinp gname then
              let bname := untwist gname - BUILTINS
              match getminmaxM bname with
              | none => .error .unsupported
              | some mm =>
                match checkargsM mm args with
                | .error e => .error e
                | .ok _ =>
                  if bname = QUOTE then
                    match args with
                    | .vcons a _ => .ok (a, st2)
                    | _ => .error .invalidDeref
                  else if bname = DEFUN then sp_defunM st2 args
                  else if bname = SETQ then sp_setqM fuel st2 args env .vnil
                  else if bname = PROGN then tf_prognM fuel args env st2
                  else .error .unsupported
            else .error .notValidHere
          | .vcons fh ftail =>
            if isbuiltinV fh LAMBDA then
              match closureM fuel tc (.vcons fh ftail) args env st2 with
              | .ok (form1, env1, st3) => evalV fuel 1 form1 env1 st3
              | .error e => .error e
            else if isbuiltinV fh CLOSURE then
              match closureM fuel tc ftail args env st2 with
              | .ok (form1, env1, st3) => evalV fuel 1 form1 env1 st3
              | .error e => .error e
            else .error .illegalFn
          | _ => .error .illegalFn
    | _ => .error .invalidDeref
  termination_by structural fuel

/-- The parameter-evaluation loop of `eval`: evaluate each argument and
collect the results in order. -/
def evlisM (fuel : Nat) (forms env : V) (st : ESt) : Except LErr (V × ESt) :=
  match fuel with
  | 0 => .error .fuelOut
  | fuel + 1 =>
    match forms with
    | .vnil => .ok (.vnil, st)
    | .vcons a rest =>
      match evalV fuel 0 a env st with
      | .error e => .error e
      | .ok (v, st1) =>
        match evlisM fuel rest env st1 with
        | .error e => .error e
        | .ok (vs, st2) => .ok (.vcons v vs, st2)
    | _ => .error .invalidDeref
  termination_by structural fuel

/-- `tf_progn(args, env)`: evaluate every form but the last and return the
last form *unevaluated* (the caller jumps back to `EVAL` on it — the tail
position).  The `RETURNFLAG` test never fires in the fragment (no
`return` builtin). -/
def tf_prognM (fuel : Nat) (args env : V) (st : ESt) : Except LErr (V × ESt) :=
  match fuel with
  | 0 => .error .fuelOut
  | fuel + 1 =>
    match args with
    | .vnil => .ok (.vnil, st)
    | .vcons a rest =>
      match rest with
      | .vnil => .ok (a, st)
      | .vcons _ _ =>
        match evalV fuel 0 a env st with
        | .error e => .error e
        | .ok (_, st1) => tf_prognM fuel rest env st1
      | _ => .error .invalidDeref
    | _ => .error .invalidDeref
  termination_by structural fuel

/-- The binding loop of the `let`/`let*` case inside `eval`: every
initialiser is evaluated in `env` — the environment *outside* the form for
`let` (`env` is only replaced by `newenv` after the loop), the environment
accumulated so far for `let*` (`if (name == LETSTAR) env = newenv;` inside
the loop).  A binding with a non-symbol variable position is outside the
model. -/
def letLoop (fuel name : Nat) (assigns env newenv : V) (st : ESt) :
    Except LErr (V × ESt) :=
  match fuel with
  | 0 => .error .fuelOut
  | fuel + 1 =>
    match assigns with
    | .vnil => .ok (newenv, st)
    | .vcons assign arest =>
      match
        (match assign with
         | .vsym anm => Except.ok (anm, V.vnil, st)
         | .vcons (.vsym anm) .vnil => .ok (anm, .vnil, st)
         | .vcons (.vsym anm) (.vcons ini _) =>
           match evalV fuel 0 ini env st with
           | .error e => .error e
           | .ok (v, st1) => .ok (anm, v, st1)
         | .vcons (.vsym _) _ => .error .invalidDeref
         | _ => .error .unsupported) with
      | .error e => .error e
      | .ok (anm, v, st1) =>
        let p := newPair st1 anm v
        let newenv1 := V.vcons (.vpair p.1) newenv
        letLoop fuel name arest (if name = LETSTAR then newenv1 else env)
          newenv1 p.2
    | _ => .error .invalidDeref
  termination_by structural fuel

/-- `sp_setq`: for each `var value` pair, find the binding pair (the local
environment first, then `GlobalEnv`), evaluate the value, and overwrite
the pair's cdr in place; `acc` carries the last value assigned (the
result, initially `nil`). -/
def sp_setqM (fuel : Nat) (st : ESt) (args env acc : V) :
    Except LErr (V × ESt) :=
  match fuel with
  | 0 => .error .fuelOut
  | fuel + 1 =>
    match args with
    | .vnil => .ok (acc, st)
    | .vcons var rest =>
      if rest = .vnil then .error .oddArguments
      else
        match findpairM st var env with
        | none => .error .unknownVariable
        | some id =>
          match rest with
          | .vcons expr rest2 =>
            match evalV fuel 0 expr env st with
            | .error e => .error e
            | .ok (v, st1) => sp_setqM fuel (setPairCdr st1 id v) rest2 env v
          | _ => .error .invalidDeref
    | _ => .error .invalidDeref
  termination_by structural fuel

/-- `closure(tc, name, function, args, &env)` (v.lisp): on entry
`function` is `cons(state, cons(params, body))` — the saved environment
(for a closure) or the `lambda` symbol (for a bare lambda) in `state`.
Drop the caller's frame on a tail call, push the saved state pairs
(shared, not copied), bind the parameters, push the tail-call frame
marker, and hand the body to the implicit progn; the caller receives the
next form together with the updated environment. -/
def closureM (fuel tc : Nat) (function args env : V) (st : ESt) :
    Except LErr (V × V × ESt) :=
  match fuel with
  | 0 => .error .fuelOut
  | fuel + 1 =>
    match function with
    | .vcons state fr =>
      match fr with
      | .vcons params body =>
        if listpV params then
          let env1 := if tc ≠ 0 then dropframe env else env
          let env2 := pushState state env1
          match bindParams st params args env2 false with
          | .error e => .error e
          | .ok (env3, st1) =>
            let env4 := if tc ≠ 0 then V.vcons .vnil env3 else env3
            match tf_prognM fuel body env4 st1 with
            | .ok (form1, st2) => .ok (form1, env4, st2)
            | .error e => .error e
        else .error .notAList
      | _ => .error .invalidDeref
    | _ => .error .invalidDeref
  termination_by structural fuel

end

/-- List-building helper for writing the modelled programs. -/
def vlist : List V → V
  | [] => .vnil
  | a :: r => .vcons a (vlist r)

/-- The symbol `x` as the reader interns it:
`twist(pack40("x")) = twist(34 * 1600) = 20995`. -/
def xSym : V := .vsym 20995

/-- The symbol `y`: `twist(pack40("y")) = twist(35 * 1600) = 27395`. -/
def ySym : V := .vsym 27395

/-- The symbol `get-x`: a five-character symbol is interned as a long
symbol whose 16-bit name field is the (4-byte aligned) pointer to its
character chain; any 4-aligned value distinct from the other names and
below the builtin range stands for it. -/
def getxSym : V := .vsym 1000

/-- `(let ((x 1)) (let ((x 2)) x))`. -/
def letEx1 : V :=
  vlist [.vsym (sym LET), vlist [vlist [xSym, .vnum 1]],
    vlist [.vsym (sym LET), vlist [vlist [xSym, .vnum 2]], xSym]]

/-- `(let* ((x 1) (y x)) y)`. -/
def letEx2 : V :=
  vlist [.vsym (sym LETSTAR), vlist [vlist [xSym, .vnum 1], vlist [ySym, xSym]],
    ySym]

/-- `(let ((x 5)) (let ((x 1) (y x)) y))` — the inner `let` binds
simultaneously, so `y`'s initialiser sees the outer `x`. -/
def letEx3 : V :=
  vlist [.vsym (sym LET), vlist [vlist [xSym, .vnum 5]],
    vlist [.vsym (sym LET), vlist [vlist [xSym, .vnum 1], vlist [ySym, xSym]],
      ySym]]

/-- `(let ((x 5)) (let* ((x 1) (y x)) y))` — the inner `let*` binds
sequentially, so `y`'s initialiser sees the new `x`. -/
def letEx4 : V :=
  vlist [.vsym (sym LET), vlist [vlist [xSym, .vnum 5]],
    vlist [.vsym (sym LETSTAR),
      vlist [vlist [xSym, .vnum 1], vlist [ySym, xSym]], ySym]]

/-- `(let ((x 1)) (defun get-x () x) (setq x 2) (get-x))`. -/
def closureEx : V :=
  vlist [.vsym (sym LET), vlist [vlist [xSym, .vnum 1]],
    vlist [.vsym (sym DEFUN), getxSym, .vnil, xSym],
    vlist [.vsym (sym SETQ), xSym, .vnum 2],
    vlist [getxSym]]

/-! ### The printer and the reader (claim C3)

A tree-level embedding of `printobject` (v.lisp) in readable mode
(`PRINTREADABLY` set) and of `read`/`readrest`/`nextitem`.  Text is a
`List Nat` of byte codes.  The input stream is `gstr` reading from a
string: it serves the one-character `LastChar` push-back first (modelled
by prepending the character back onto the input) and returns `'\n'`
forever once the string is exhausted; it never returns `-1` and never
returns a NUL byte.  Reader macros that re-enter the reader or build
arrays (`#'`, `#|`, `#.`, `#(`, `#*`, `#nA`) are outside the modelled
fragment and map to the `unsupported` model error. -/

/-- S-expression trees for the printer/reader model.  A symbol is either
`short` — a 16-bit name field that is a builtin (`untwist ≥ BUILTINS`) or
a packed radix-40 name — or `longsym`, whose name field points to a
character chain holding the listed bytes.  A string holds its byte
sequence (the 2-bytes-per-cell chain flattened). -/
inductive SymName where
  | short (name : Nat)
  | longsym (cs : List Nat)
  deriving Repr, DecidableEq

/-- See `SymName`.  `snil` is the `NULL` object (printed `nil`). -/
inductive SObj where
  | snil
  | num (n : Int)
  | chr (c : Nat)
  | str (cs : List Nat)
  | sym (s : SymName)
  | scons (a d : SObj)
  deriving Repr, DecidableEq

/-- `issp(x)`: space, newline, return or tab. -/
def issp (c : Nat) : Bool := c = 32 ∨ c = 10 ∨ c = 13 ∨ c = 9

/-- `isbr(x)`: `)`, `(`, `"` or `#`. -/
def isbr (c : Nat) : Bool := c = 41 ∨ c = 40 ∨ c = 34 ∨ c = 35

/-- `toradix40(ch)`: -1 marks an invalid radix-40 character. -/
def toradix40 (ch : Nat) : Int :=
  if ch = 0 then 0
  else if 48 ≤ ch ∧ ch ≤ 57 then (ch : Int) - 48 + 1
  else if ch = 45 then 37
  else if ch = 42 then 38
  else if ch = 36 then 39
  else
    let c := ch ||| 0x20
    if 97 ≤ c ∧ c ≤ 122 then (c : Int) - 97 + 11 else -1

/-- `fromradix40(n)`: 0 for a digit outside 1..39. -/
def fromradix40 (n : Nat) : Nat :=
  if 1 ≤ n ∧ n ≤ 10 then 48 + n - 1
  else if 11 ≤ n ∧ n ≤ 36 then 97 + n - 11
  else if n = 37 then 45
  else if n = 38 then 42
  else if n = 39 then 36
  else 0

/-- `pack40(buffer)` on the NUL-terminated token: the cursor `j` stops at
the terminator, so positions past the token's end read as 0 (tokens
contain no interior NUL).  Callers guard with `valid40`, under which every
`toradix40` value is non-negative. -/
def pack40 (cs : List Nat) : Nat :=
  ((toradix40 (cs.getD 0 0) * 40 + toradix40 (cs.getD 1 0)) * 40
    + toradix40 (cs.getD 2 0)).toNat

/-- `valid40(buffer)`: first character a letter (radix-40 value ≥ 11),
remaining characters any radix-40 character, up to 3 before the NUL. -/
def valid40 (cs : List Nat) : Bool :=
  let c0 := cs.getD 0 0
  let c1 := cs.getD 1 0
  let c2 := cs.getD 2 0
  if toradix40 c0 < 11 then false
  else if c0 = 0 then true
  else if toradix40 c1 < 0 then false
  else if c1 = 0 then true
  else if toradix40 c2 < 0 then false
  else true

/-- The bytes of a string literal. -/
def strBytes (s : String) : List Nat := s.data.map Char.toNat

/-- The builtin name strings, row by row: the 248 rows of `lookup_table`
(v.lisp) followed by the 8 rows of `lookup_table2`
(ulisp-extensions.ino). -/
def builtinNames : List String :=
  ["nil", "t", "nothing", "&optional", "*features*", ":initial-element",
   ":element-type", ":test", "bit", "&rest", "lambda", "let", "let*",
   "closure", "*p*", "quote", "defun", "defvar", "defcode", "eq", "car",
   "first", "cdr", "rest", "nth", "aref", "char", "string", "pinmode",
   "digitalwrite", "analogread", "analogreference", "register", "format",
   "or", "setq", "loop", "push", "pop", "incf", "decf", "setf", "dolist",
   "dotimes", "do", "do*", "trace", "untrace", "for-millis", "time",
   "with-output-to-string", "with-serial", "with-i2c", "with-spi",
   "with-sd-card", "progn", "if", "cond", "when", "unless", "case", "and",
   "not", "null", "cons", "atom", "listp", "consp", "symbolp", "arrayp",
   "boundp", "keywordp", "set", "streamp", "equal", "caar", "cadr",
   "second", "cdar", "cddr", "caaar", "caadr", "cadar", "caddr", "third",
   "cdaar", "cdadr", "cddar", "cdddr", "length", "array-dimensions",
   "list", "copy-list", "make-array", "reverse", "assoc", "member",
   "apply", "funcall", "append", "mapc", "mapl", "mapcar", "mapcan",
   "maplist", "mapcon", "+", "-", "*", "/", "truncate", "mod", "1+", "1-",
   "abs", "random", "max", "min", "/=", "=", "<", "<=", ">", ">=", "plusp",
   "minusp", "zerop", "oddp", "evenp", "integerp", "numberp", "char-code",
   "code-char", "characterp", "stringp", "string=", "string<", "string>",
   "string/=", "string<=", "string>=", "sort", "concatenate", "subseq",
   "search", "read-from-string", "princ-to-string", "prin1-to-string",
   "logand", "logior", "logxor", "lognot", "ash", "logbitp", "eval",
   "return", "globals", "locals", "makunbound", "break", "read", "prin1",
   "print", "princ", "terpri", "read-byte", "read-line", "write-byte",
   "write-string", "write-line", "restart-i2c", "gc", "room", "save-image",
   "load-image", "cls", "digitalread", "analogreadresolution",
   "analogwrite", "dacreference", "delay", "millis", "sleep", "note",
   "edit", "pprint", "pprintall", "require", "list-library", "?",
   "documentation", "apropos", "apropos-list", "unwind-protect",
   "ignore-errors", "error", "draw-pixel", "draw-line", "draw-rect",
   "fill-rect", "draw-circle", "fill-circle", "draw-triangle",
   "fill-triangle", "glyph-pixel", "fill-screen", "get-pixel", "draw-char",
   "set-cursor", "plot", "plot3d", "check-key", "keyboard", ":shift-key",
   ":meta-key", ":led-builtin", ":high", ":low", ":input", ":input-pullup",
   ":output", ":default", ":vdd", ":internal1v024", ":internal2v048",
   ":internal4v096", ":internal2v5", ":external", ":adc-dac0",
   ":adc-temperature", ":porta-dir", ":porta-out", ":porta-in",
   ":portb-dir", ":portb-out", ":portb-in", ":portc-dir", ":portc-out",
   ":portc-in", ":portd-dir", ":portd-out", ":portd-in", ":porte-dir",
   ":porte-out", ":porte-in", ":portf-dir", ":portf-out", ":portf-in",
   "read-char", "with-kb-raw", "plot-char", "buf-init", "buf-string",
   "buf-char", "buf-insert", "buf-delete"]

/-- The builtin names as byte lists. -/
def builtinNamesB : List (List Nat) := builtinNames.map strBytes

/-- `tolower` as used by `strcasecmp` on ASCII bytes. -/
def lowerB (c : Nat) : Nat := if 65 ≤ c ∧ c ≤ 90 then c + 32 else c

/-- `strcasecmp(a, b) == 0`. -/
def eqCaseB (a b : List Nat) : Bool := decide (a.map lowerB = b.map lowerB)

/-- `lookupbuiltin(buffer)`: scan both tables in order, case-insensitively;
`none` stands for `ENDFUNCTIONS`. -/
def lookupbuiltinM (cs : List Nat) : Option Nat :=
  builtinNamesB.findIdx? (fun nm => eqCaseB cs nm)

/-- The `ControlCodes` table: names of the characters 0..32. -/
def controlCodes : List (List Nat) :=
  (["Null", "SOH", "STX", "ETX", "EOT", "ENQ", "ACK", "Bell", "Backspace",
    "Tab", "Newline", "VT", "Page", "Return", "SO", "SI", "DLE", "DC1",
    "DC2", "DC3", "DC4", "NAK", "SYN", "ETB", "CAN", "EM", "SUB", "Escape",
    "FS", "GS", "RS", "US", "Space"] : List String).map strBytes

/-- First matching index in `ControlCodes` (case-insensitive), the
character code it names. -/
def controlIdx (token : List Nat) : Option Nat :=
  controlCodes.findIdx? (fun nm => eqCaseB token nm)

/-! #### The printer (readable mode) -/

/-- The divisor sequence `d = p; d > 0; d = d/base` of `pintbase`,
precomputed: `p = 0x8000` for base 2, `0x1000` for base 16, `10000`
otherwise. -/
def pbDivs (base : Nat) : List Nat :=
  if base = 2 then
    [32768, 16384, 8192, 4096, 2048, 1024, 512, 256, 128, 64, 32, 16, 8,
     4, 2, 1]
  else if base = 16 then [4096, 256, 16, 1]
  else [10000, 1000, 100, 10, 1]

/-- The digit-emission loop of `pintbase`: leading zeros are suppressed
until the first nonzero digit (or the last divisor `d == 1`); `lead` is
set as soon as a digit is emitted (when no digit is emitted `lead` was
already false). -/
def pbLoop : List Nat → Nat → Bool → List Nat
  | [], _, _ => []
  | d :: ds, i, lead =>
    let j := i / d
    let emit : Bool := decide (j ≠ 0) || lead || decide (d = 1)
    (if emit then [if j < 10 then j + 48 else j + 87] else [])
      ++ pbLoop ds (i - j * d) emit

/-- `pintbase(i, base)`. -/
def pintbaseM (i base : Nat) : List Nat := pbLoop (pbDivs base) i false

/-- `pint(i)`: optional minus sign, then the decimal digits of the
magnitude (`j = -i` computed in 16-bit unsigned arithmetic, so `-32768`
prints its full magnitude `32768`). -/
def pintM (n : Int) : List Nat :=
  (if n < 0 then [45] else []) ++ pintbaseM (n.natAbs % 65536) 10

/-- `pcharacter(c)` in readable mode: `#\` then the `ControlCodes` name
for codes ≤ 32, the character itself below 127, the decimal code
otherwise. -/
def pcharacterM (c : Nat) : List Nat :=
  35 :: 92 ::
    (if c ≤ 32 then controlCodes.getD c []
     else if c < 127 then [c]
     else pintM (c : Int))

/-- `plispstr(name)` in readable mode: emit each chain byte, preceding `"`
and `\` with a backslash and skipping NUL padding bytes. -/
def plispstrM (cs : List Nat) : List Nat :=
  cs.flatMap fun c =>
    (if c = 34 ∨ c = 92 then [92] else []) ++ (if c = 0 then [] else [c])

/-- The digit loop of `pradix40`: stops at the first zero digit. -/
def pr40Loop : List Nat → Nat → List Nat
  | [], _ => []
  | d :: ds, x =>
    let j := x / d
    let c := fromradix40 j
    if c = 0 then [] else c :: pr40Loop ds (x - j * d)

/-- `pradix40(name)`: decode `untwist(name)` digit by digit. -/
def pradix40M (name : Nat) : List Nat := pr40Loop [1600, 40, 1] (untwist name)

/-- `psymbol(name)`: long names print their chain (with readable-mode
escaping); otherwise `untwist(name)` below `PACKEDS` is an "invalid
symbol" error, a value in the builtin range prints the table name, and a
packed value prints its radix-40 decoding.  (`pbuiltin` on an index past
the tables would read wild program memory; the model prints nothing.) -/
def psymbolM : SymName → Except LErr (List Nat)
  | .longsym cs => .ok (plispstrM cs)
  | .short name =>
    let value := untwist name
    if value < PACKEDS then .error .printError
    else if BUILTINS ≤ value then .ok (builtinNamesB.getD (value - BUILTINS) [])
    else .ok (pradix40M name)

/-- The non-list cases of `printobject(form)` in readable mode: `nil`,
numbers, symbols (the symbol `nothing` prints as empty text), characters
and strings.  Both callers handle conses before consulting this. -/
def printAtom1 : SObj → Except LErr (List Nat)
  | .snil => .ok (strBytes "nil")
  | .num n => .ok (pintM n)
  | .sym (.short name) =>
    if name = sym NOTHING then .ok [] else psymbolM (.short name)
  | .sym (.longsym cs) => psymbolM (.longsym cs)
  | .chr c => .ok (pcharacterM c)
  | .str cs => .ok (34 :: (plispstrM cs ++ [34]))
  | .scons _ _ => .error .printError

mutual

/-- `printobject(form)` in readable mode.  Streams, arrays and code
objects do not occur in `SObj`; a list headed by the `closure` symbol
prints `<closure>`. -/
def printObjM (x : SObj) : Except LErr (List Nat) :=
  match x with
  | .scons a d =>
    if a = .sym (.short (sym CLOSURE)) then .ok (strBytes "<closure>")
    else
      match printObjM a with
      | .error e => .error e
      | .ok pa =>
        match plistTailM d with
        | .error e => .error e
        | .ok pd => .ok (40 :: (pa ++ pd))
  | x => printAtom1 x
  termination_by structural x

/-- The tail loop of `plist`: a space before each further element while
the tail is a list, then ` . tail` for a dotted (atom) tail, then `)`.
(Only elements go through `printobject`; the spine cells themselves are
not re-checked for a `closure` head.) -/
def plistTailM (d : SObj) : Except LErr (List Nat) :=
  match d with
  | .snil => .ok [41]
  | .scons a d2 =>
    match printObjM a with
    | .error e => .error e
    | .ok pa =>
      match plistTailM d2 with
      | .error e => .error e
      | .ok pd => .ok (32 :: (pa ++ pd))
  | t =>
    match printAtom1 t with
    | .error e => .error e
    | .ok pt => .ok (32 :: 46 :: 32 :: (pt ++ [41]))
  termination_by structural d

end

/-! #### The reader -/

/-- Tokens returned by `nextitem`: an object or one of the markers
`KET` `)`, `BRA` `(`, `QUO` `'`, `DOT` `.`. -/
inductive RItem where
  | obj (x : SObj)
  | ket
  | bra
  | quo
  | dot
  deriving Repr, DecidableEq

/-- One `gstr()` call: the next input byte, or `'\n'` forever at the end
of the string. -/
def pull : List Nat → Nat × List Nat
  | [] => (10, [])
  | c :: r => (c, r)

/-- `ch = gfun(); while (issp(ch)) ch = gfun();` — `none` when the input
is blank (the C loop then reads `'\n'` forever and never exits). -/
def skipSpaces : List Nat → Option (Nat × List Nat)
  | [] => none
  | c :: r => if issp c then skipSpaces r else some (c, r)

/-- The `;` comment loop: consume up to and including the next `(`
(`none`: no bracket ever arrives and the C loop spins). -/
def skipComment : List Nat → Option (List Nat)
  | [] => none
  | c :: r => if c = 40 then some r else skipComment r

/-- `readstring('"', true, gfun)`: collect bytes until the closing quote,
taking the byte after a backslash literally; `none` when the quote never
arrives (the C loop keeps consuming `'\n'`). -/
def readstrScan : List Nat → Option (List Nat × List Nat)
  | [] => none
  | c :: r =>
    if c = 34 then some ([], r)
    else if c = 92 then
      match r with
      | [] => none
      | d :: r2 => (readstrScan r2).map fun p => (d :: p.1, p.2)
    else (readstrScan r).map fun p => (c :: p.1, p.2)

/-- The token loop of `nextitem`: collect characters while not a space or
breaking character and the buffer (capacity `bufmax = 21`) has room,
accumulating `result` in a 16-bit unsigned and `isnumber`; a breaking
terminator is pushed back (`LastChar`), a space terminator is consumed,
and the character that overflows a full buffer is consumed and dropped.
Returns (token, result, isnumber, remaining input). -/
def tokLoop (ch : Nat) (input buf : List Nat) (idx result : Nat)
    (isnum : Bool) (base : Nat) : List Nat × Nat × Bool × List Nat :=
  if issp ch then (buf.reverse, result, isnum, input)
  else if isbr ch then (buf.reverse, result, isnum, ch :: input)
  else if 21 ≤ idx then (buf.reverse, result, isnum, input)
  else
    let result1 := (result * base + digitvalue ch) % 65536
    let isnum1 := isnum && decide (digitvalue ch < base)
    match input with
    | [] => ((ch :: buf).reverse, result1, isnum1, [])
    | c :: r => tokLoop c r (ch :: buf) (idx + 1) result1 isnum1 base

/-- The `base == 0` postprocessing: a single character stands for itself,
then the `ControlCodes` names, then a three-character token read as a
decimal code (`int` arithmetic truncated to `uint8_t`). -/
def charToken (token : List Nat) (rest : List Nat) :
    Except LErr (RItem × List Nat) :=
  match token with
  | [c] => .ok (.obj (.chr c), rest)
  | _ =>
    match controlIdx token with
    | some c => .ok (.obj (.chr c), rest)
    | none =>
      match token with
      | [a, b, c] =>
        .ok (.obj (.chr ((((a : Int) * 10 + b) * 10 + c - 5328) % 256).toNat),
          rest)
      | _ => .error .unknownCharacter

/-- The classification after the token loop: a number (with the base-10
range check), a character (`base == 0`), or a symbol — a builtin (index
`NIL` reads as the object `nil`), an interned packed symbol for a valid
radix-40 token of up to 3 characters, or a long symbol. -/
def postToken (base : Nat) (negative : Bool) (token : List Nat)
    (result : Nat) (isnumber : Bool) (rest : List Nat) :
    Except LErr (RItem × List Nat) :=
  if isnumber then
    if base = 10 ∧ result > (if negative then 32768 else 32767) then
      .error .rangeError
    else
      .ok (.obj (.num (toSigned16 (result * (if negative then 65535 else 1)))),
        rest)
  else if base = 0 then charToken token rest
  else
    match lookupbuiltinM token with
    | some 0 => .ok (.obj .snil, rest)
    | some b => .ok (.obj (.sym (.short (sym b))), rest)
    | none =>
      if token.length ≤ 3 ∧ valid40 token then
        .ok (.obj (.sym (.short (twist (pack40 token)))), rest)
      else .ok (.obj (.sym (.longsym token)), rest)

/-- Run the token loop from the current character and classify. -/
def finishToken (base : Nat) (negative : Bool) (buf : List Nat) (idx : Nat)
    (ch : Nat) (rest : List Nat) : Except LErr (RItem × List Nat) :=
  let r := tokLoop ch rest buf idx 0 (decide (digitvalue ch < base)) base
  postToken base negative r.1 r.2.1 r.2.2.1 r.2.2.2

/-- `nextitem(gfun)` (v.lisp).  The `;` comment consumes up to a `(` and
yields `BRA`; `+`/`-` start a signed token; `#` handles `#\`-characters
and the `#B`/`#O`/`#X` bases, while the reader macros that re-enter the
reader (`#'`, `#|`, `#.`, `#(`, `#*`, `#nA`) are outside the fragment. -/
def nextitemM (input : List Nat) : Except LErr (RItem × List Nat) :=
  match skipSpaces input with
  | none => .error .hang
  | some (ch, rest) =>
    if ch = 59 then
      match skipComment rest with
      | none => .error .hang
      | some rest1 => .ok (.bra, rest1)
    else if ch = 41 then .ok (.ket, rest)
    else if ch = 40 then .ok (.bra, rest)
    else if ch = 39 then .ok (.quo, rest)
    else if ch = 46 then .ok (.dot, rest)
    else if ch = 34 then
      match readstrScan rest with
      | none => .error .hang
      | some (cs, rest1) => .ok (.obj (.str cs), rest1)
    else if ch = 43 ∨ ch = 45 then
      let p := pull rest
      finishToken 10 (ch = 45) [ch] 1 p.1 p.2
    else if ch = 35 then
      let p1 := pull rest
      let ch1 := p1.1
      if ch1 = 92 then
        let p2 := pull p1.2
        if issp p2.1 ∨ isbr p2.1 then .ok (.obj (.chr p2.1), p2.2)
        else finishToken 0 false [] 0 p2.1 p2.2
      else if ch1 &&& 0xDF = 66 then
        let p2 := pull p1.2
        finishToken 2 false [] 0 p2.1 p2.2
      else if ch1 &&& 0xDF = 79 then
        let p2 := pull p1.2
        finishToken 8 false [] 0 p2.1 p2.2
      else if ch1 &&& 0xDF = 88 then
        let p2 := pull p1.2
        finishToken 16 false [] 0 p2.1 p2.2
      else if ch1 = 39 ∨ ch1 = 124 ∨ ch1 = 46 ∨ ch1 = 40 ∨ ch1 = 42 then
        .error .unsupported
      else if 49 ≤ ch1 ∧ ch1 ≤ 57 then
        let p2 := pull p1.2
        if p2.1 &&& 0xDF = 65 then .error .unsupported
        else .error .illegalMacroChar
      else .error .illegalMacroChar
    else finishToken 10 false [] 0 ch rest

mutual

/-- `read(gfun)` (v.lisp): `)` is an "incomplete list" error, `(` reads a
list, a stray `.` reads the next object, `'x` becomes `(quote x)`. -/
def readM (fuel : Nat) (input : List Nat) : Except LErr (SObj × List Nat) :=
  match fuel with
  | 0 => .error .fuelOut
  | fuel + 1 =>
    match nextitemM input with
    | .error e => .error e
    | .ok (item, rest) =>
      match item with
      | .ket => .error .incompleteList
      | .bra => readrestM fuel true rest
      | .dot => readM fuel rest
      | .quo =>
        match readM fuel rest with
        | .error e => .error e
        | .ok (x, rest1) =>
          .ok (.scons (.sym (.short (sym QUOTE))) (.scons x .snil), rest1)
      | .obj x => .ok (x, rest)
  termination_by structural fuel

/-- `readrest(gfun)` (v.lisp), as a cons recursion: each parsed item is
consed onto the rest of the list; `)` ends the list; after ` . ` the next
object becomes the tail and the remainder must read as the empty list
(`malformed list` otherwise).  `first` tracks `tail == NULL`: a dot
before any element makes the C code write through a null `tail`. -/
def readrestM (fuel : Nat) (first : Bool) (input : List Nat) :
    Except LErr (SObj × List Nat) :=
  match fuel with
  | 0 => .error .fuelOut
  | fuel + 1 =>
    match nextitemM input with
    | .error e => .error e
    | .ok (item, rest) =>
      match item with
      | .ket => .ok (.snil, rest)
      | .bra =>
        match readrestM fuel true rest with
        | .error e => .error e
        | .ok (sub, rest1) =>
          match readrestM fuel false rest1 with
          | .error e => .error e
          | .ok (tl, rest2) => .ok (.scons sub tl, rest2)
      | .quo =>
        match readM fuel rest with
        | .error e => .error e
        | .ok (q, rest1) =>
          match readrestM fuel false rest1 with
          | .error e => .error e
          | .ok (tl, rest2) =>
            .ok (.scons (.scons (.sym (.short (sym QUOTE))) (.scons q .snil)) tl,
              rest2)
      | .dot =>
        if first then .error .invalidDeref
        else
          match readM fuel rest with
          | .error e => .error e
          | .ok (x, rest1) =>
            match readrestM fuel true rest1 with
            | .error e => .error e
            | .ok (r2, rest2) =>
              if r2 = .snil then .ok (x, rest2) else .error .malformedList
      | .obj v =>
        match readrestM fuel false rest with
        | .error e => .error e
        | .ok (tl, rest1) => .ok (.scons v tl, rest1)
  termination_by structural fuel

end

/-! #### Readable objects

The well-formedness predicate under which print-then-read is the
identity; it captures exactly the objects of the claim's kinds that the
system can hold: 16-bit numbers, byte characters, strings of nonzero
bytes, and symbols interned by the reader — whose printed names are
nonempty self-delimiting tokens of at most `bufmax = 21` characters that
re-read to the same name — excluding the two deliberate print
asymmetries, the symbol `nothing` (prints as empty text) and a list whose
head is the `closure` symbol (prints `<closure>`). -/

/-- Token characters survive the token loop: not a space, not a breaking
character, a nonzero byte. -/
def tokenOkChar (c : Nat) : Bool :=
  !issp c && !isbr c && decide (c ≠ 0) && decide (c ≤ 255)

/-- The token start must not trigger a comment, quote or dot item. -/
def firstCharOk (c : Nat) : Bool :=
  decide (c ≠ 59) && decide (c ≠ 39) && decide (c ≠ 46)

/-- Whether the token loop would classify the token as a number in
base 10 (sign prefix allowed; `isnumber` for a bare sign is initialised
from the delimiter, never a digit). -/
def parsesAsNumberTok (cs : List Nat) : Bool :=
  match cs with
  | [] => false
  | c :: rest =>
    if c = 43 ∨ c = 45 then
      !rest.isEmpty && rest.all fun x => decide (digitvalue x < 10)
    else cs.all fun x => decide (digitvalue x < 10)

/-- A printed symbol name that re-reads as one token naming a symbol. -/
def symTokenOk (cs : List Nat) : Bool :=
  !cs.isEmpty && decide (cs.length ≤ 21) && cs.all tokenOkChar &&
    firstCharOk (cs.headD 0) && !parsesAsNumberTok cs

/-- Readability of a symbol: a builtin (other than `nil`, whose name
re-reads as the object `nil`, and `nothing`, which prints as empty text)
whose table name is the first case-insensitive match for itself; a packed
name that re-encodes from its own radix-40 decoding and collides with no
builtin; or a long symbol whose bytes form a token, contain no backslash
(the printer escapes it), do not make a valid packed token, and collide
with no builtin. -/
def symReadable : SymName → Bool
  | .longsym cs =>
    symTokenOk cs && cs.all (fun c => decide (c ≠ 92)) &&
      !(decide (cs.length ≤ 3) && valid40 cs) && decide (lookupbuiltinM cs = none)
  | .short name =>
    let v := untwist name
    if BUILTINS ≤ v then
      let b := v - BUILTINS
      decide (sym b = name) && decide (b ≠ 0) && decide (b ≠ NOTHING) &&
        decide (b < builtinNamesB.length) &&
        decide (lookupbuiltinM (builtinNamesB.getD b []) = some b) &&
        symTokenOk (builtinNamesB.getD b [])
    else if PACKEDS ≤ v then
      decide (name < 65536) &&
        decide (twist (pack40 (pradix40M name)) = name) &&
        valid40 (pradix40M name) && decide ((pradix40M name).length ≤ 3) &&
        decide (lookupbuiltinM (pradix40M name) = none) &&
        symTokenOk (pradix40M name)
    else false

/-- Input that may legitimately follow a printed atom: either exhausted
(the virtual `'\n'` of `gstr` then delimits the token) or starting with a
space or breaking character. -/
def delimB : List Nat → Bool
  | [] => true
  | c :: _ => issp c || isbr c

/-- What remains after a token's terminator is handled: a space
terminator is consumed, a breaking terminator is pushed back
(`LastChar`), the virtual newline of exhausted input vanishes. -/
def dropDelim : List Nat → List Nat
  | [] => []
  | c :: r => if issp c then r else c :: r

/-- Node count of an `SObj`, the fuel measure for the reader. -/
def sizeS : SObj → Nat
  | .scons a d => sizeS a + sizeS d + 1
  | _ => 1

/-- Readability of the non-list objects: 16-bit numbers, byte characters,
strings of nonzero bytes, readable symbols. -/
def RAtom : SObj → Bool
  | .snil => true
  | .num n => decide (-32768 ≤ n) && decide (n ≤ 32767)
  | .chr c => decide (c ≤ 255)
  | .str cs => cs.all fun c => decide (1 ≤ c) && decide (c ≤ 255)
  | .sym s => symReadable s
  | .scons _ _ => false

mutual

/-- Readability in object (element) position: the object is printed by
`printobject`, so a `closure`-headed list is excluded here. -/
def RObj : SObj → Bool
  | .scons a d =>
    decide (a ≠ .sym (.short (sym CLOSURE))) && RObj a && RTail d
  | x => RAtom x
  termination_by structural x => x

/-- Readability in list-tail position: the spine is printed by `plist`'s
loop, which prints elements through `printobject` but does not re-check
the spine cells themselves for a `closure` head. -/
def RTail : SObj → Bool
  | .snil => true
  | .scons a d => RObj a && RTail d
  | t => RAtom t
  termination_by structural x => x

end

end ULisp

/-! ## Theorems -/

namespace ULisp

/-! ### Claim C8: `fn_add` overflow behaviour -/

theorem fn_add_loop_ok (args : List Int) : ∀ result : Int,
    (∀ k, k ≤ args.length →
      INT_MIN ≤ result + (args.take k).sum ∧ result + (args.take k).sum ≤ INT_MAX) →
    fn_add_loop result args = .ok (result + args.sum) := by
  induction args with
  | nil => intro result _; simp [fn_add_loop]
  | cons temp rest ih =>
    intro result h
    have h1 := h 1 (by simp)
    simp only [List.take_succ_cons, List.take_zero, List.sum_cons, List.sum_nil,
      add_zero] at h1
    have hrec : fn_add_loop (result + temp) rest = .ok (result + temp + rest.sum) := by
      apply ih
      intro k hk
      have := h (k + 1) (by simpa using Nat.succ_le_succ hk)
      simpa [List.take_succ_cons, add_assoc] using this
    simp only [INT_MIN, INT_MAX] at h1
    rw [fn_add_loop]
    by_cases hts : temp < 1
    · rw [if_pos hts, if_neg (by simp only [INT_MIN]; omega), hrec]
      simp [add_assoc]
    · rw [if_neg hts, if_neg (by simp only [INT_MAX]; omega), hrec]
      simp [add_assoc]

/-- Claim C8: for two in-range integer arguments whose exact sum lies outside
the representable signed 16-bit range, `fn_add` raises the arithmetic
overflow error (it never returns a wrapped result); and for any argument
list all of whose running sums stay in range, it returns the exact sum. -/
theorem fn_add_spec :
    (∀ a b : Int, INT_MIN ≤ a → a ≤ INT_MAX → INT_MIN ≤ b → b ≤ INT_MAX →
      (INT_MAX < a + b ∨ a + b < INT_MIN) →
      fn_add [a, b] = .error .overflowed) ∧
    (∀ args : List Int,
      (∀ k, k ≤ args.length →
        INT_MIN ≤ (args.take k).sum ∧ (args.take k).sum ≤ INT_MAX) →
      fn_add args = .ok args.sum) := by
  constructor
  · intro a b ha1 ha2 hb1 hb2 hover
    simp only [INT_MIN, INT_MAX] at ha1 ha2 hb1 hb2 hover
    rw [fn_add, fn_add_loop]
    by_cases has : a < 1
    · rw [if_pos has, if_neg (by simp only [INT_MIN]; omega), fn_add_loop]
      by_cases hbs : b < 1
      · rw [if_pos hbs, if_pos (by simp only [INT_MIN]; omega)]
      · rw [if_neg hbs, if_pos (by simp only [INT_MAX]; omega)]
    · rw [if_neg has, if_neg (by simp only [INT_MAX]; omega), fn_add_loop]
      by_cases hbs : b < 1
      · rw [if_pos hbs, if_pos (by simp only [INT_MIN]; omega)]
      · rw [if_neg hbs, if_pos (by simp only [INT_MAX]; omega)]
  · intro args h
    have := fn_add_loop_ok args 0 (by simpa using h)
    simpa [fn_add] using this

theorem fn_add_spec_witness :
    fn_add [20000, 20000] = .error .overflowed ∧ fn_add [1, 2, 3] = .ok 6 :=
  ⟨fn_add_spec.1 20000 20000 (by decide) (by decide) (by decide) (by decide)
      (Or.inl (by decide)),
    by
      have h := fn_add_spec.2 [1, 2, 3] (by decide)
      simpa using h⟩

/-! ### Claim C7: reader number tokens -/

theorem foldl_digit_mod (base M : Nat) (cs : List Nat) :
    ∀ x y : Nat, x % M = y % M →
      (cs.foldl (fun a c => a * base + digitvalue c) x) % M =
      (cs.foldl (fun a c => a * base + digitvalue c) y) % M := by
  induction cs with
  | nil => intro x y h; simpa using h
  | cons c cs ih =>
    intro x y h
    simp only [List.foldl_cons]
    exact ih _ _ (Nat.ModEq.add_right _ (Nat.ModEq.mul_right _ h))

theorem atomAccum_eq (base : Nat) (token : List Nat) :
    ∀ acc : Nat, acc < 65536 →
      atomAccum base token acc =
        (token.foldl (fun a c => a * base + digitvalue c) acc) % 65536 := by
  induction token with
  | nil => intro acc hacc; simp [atomAccum, Nat.mod_eq_of_lt hacc]
  | cons c cs ih =>
    intro acc _
    simp only [atomAccum, List.foldl_cons]
    rw [ih _ (Nat.mod_lt _ (by norm_num))]
    exact foldl_digit_mod base 65536 cs _ _ (Nat.mod_mod_of_dvd _ dvd_rfl)

theorem foldl_digit_ofDigits (base : Nat) (token : List Nat) :
    ∀ acc : Nat,
      token.foldl (fun a c => a * base + digitvalue c) acc =
        acc * base ^ token.length +
          Nat.ofDigits base ((token.map digitvalue).reverse) := by
  induction token with
  | nil => intro acc; simp [Nat.ofDigits]
  | cons c cs ih =>
    intro acc
    simp only [List.foldl_cons, List.map_cons, List.reverse_cons, List.length_cons]
    rw [ih, Nat.ofDigits_append, Nat.ofDigits_singleton]
    simp only [List.length_reverse, List.length_map]
    ring

theorem toSigned16_congr (x y : Nat) (h : x % 65536 = y % 65536) :
    toSigned16 x = toSigned16 y := by
  simp only [toSigned16, h]

theorem toSigned16_cast (v : Nat) (negative : Bool) :
    toSigned16 ((v % 65536) * (if negative then 65535 else 1)) =
      signed16 ((if negative then -1 else 1) * (v : Int)) := by
  cases negative
  · simp only [Bool.false_eq_true, if_false, mul_one, one_mul]
    simp only [toSigned16, signed16]
    split <;> omega
  · simp only [if_true]
    rw [toSigned16_congr (v % 65536 * 65535) (v * 65535)
        (Nat.ModEq.mul_right _ (Nat.mod_mod_of_dvd v dvd_rfl))]
    simp only [toSigned16, signed16]
    split <;> omega

/-- Claim C7 (amended): for a nonempty all-valid-digit token, the reader
returns the token's numeral value reduced modulo 2^16 to a signed 16-bit
integer with the sign applied; the range error is raised only in base 10,
and exactly when the accumulator value (the numeral modulo 2^16) exceeds
32767 (32768 after a leading minus).  In particular values are exact and
in-range numerals never error in base 10, but out-of-range numerals wrap
silently in bases 2/8/16, and in base 10 whenever wrapping brings the
accumulator at or below the threshold. -/
theorem nextitemNumber_spec (base : Nat) (negative : Bool) (token : List Nat)
    (hne : token ≠ [])
    (hdig : ∀ c ∈ token, digitvalue c < base) :
    nextitemNumber base negative token =
      some
        (if base = 10 ∧
            Nat.ofDigits base ((token.map digitvalue).reverse) % 65536 >
              (if negative then 32768 else 32767) then
          .error .rangeError
        else
          .ok (signed16 ((if negative then -1 else 1) *
            ((Nat.ofDigits base ((token.map digitvalue).reverse) : Nat) : Int)))) := by
  have hacc : atomAccum base token 0 =
      Nat.ofDigits base ((token.map digitvalue).reverse) % 65536 := by
    rw [atomAccum_eq base token 0 (by norm_num), foldl_digit_ofDigits]
    simp
  simp only [nextitemNumber]
  rw [if_pos ⟨hne, hdig⟩, hacc, toSigned16_cast]

theorem nextitemNumber_spec_witness :
    nextitemNumber 10 false [51, 50, 55, 54, 55] = some (.ok 32767) := by
  have h := nextitemNumber_spec 10 false [51, 50, 55, 54, 55] (by decide) (by decide)
  rw [h]
  decide

/-- Claim C7 counterexample: the decimal token `65546` denotes 65546, which
overflows the signed 16-bit range, but the reader raises no range error and
returns the wrapped number 10; likewise the hex token `ffff` (after `#X`)
denotes 65535 and silently yields -1 (no overflow check exists for bases
2/8/16). -/
theorem nextitemNumber_counterexample :
    (Nat.ofDigits 10 (([54, 53, 53, 52, 54].map digitvalue).reverse) : Nat) = 65546 ∧
    INT_MAX < (65546 : Int) ∧
    nextitemNumber 10 false [54, 53, 53, 52, 54] = some (.ok 10) ∧
    (Nat.ofDigits 16 (([102, 102, 102, 102].map digitvalue).reverse) : Nat) = 65535 ∧
    INT_MAX < (65535 : Int) ∧
    nextitemNumber 16 false [102, 102, 102, 102] = some (.ok (-1)) := by
  refine ⟨by decide, by decide, by decide, by decide, by decide, by decide⟩

/-! ### Claim C10: `eq` compares scalars by payload, conses and strings by identity -/

/-- Claim C10: `eq` returns true for two distinct number cells holding the
same integer, two distinct character cells holding the same code, and two
distinct symbol cells holding the same `name` field; it returns false for
two distinct cons cells and for two distinct string headers regardless of
their contents. -/
theorem eq_spec (cs : List Cell) (i j : Nat) (hij : i ≠ j) :
    (∀ n, cs[i]? = some ⟨.val NUMBER, .val n, false⟩ →
       cs[j]? = some ⟨.val NUMBER, .val n, false⟩ →
       eqObj cs (some i) (some j) = true) ∧
    (∀ code, cs[i]? = some ⟨.val CHARACTER, .val code, false⟩ →
       cs[j]? = some ⟨.val CHARACTER, .val code, false⟩ →
       eqObj cs (some i) (some j) = true) ∧
    (∀ f, cs[i]? = some ⟨.val SYMBOL, f, false⟩ →
       cs[j]? = some ⟨.val SYMBOL, f, false⟩ →
       eqObj cs (some i) (some j) = true) ∧
    (∀ c1 c2, cs[i]? = some c1 → cs[j]? = some c2 →
       (c1.car = .null ∨ ∃ p, c1.car = .ptr p) →
       (c2.car = .null ∨ ∃ p, c2.car = .ptr p) →
       eqObj cs (some i) (some j) = false) ∧
    (∀ c1 c2, cs[i]? = some c1 → cs[j]? = some c2 →
       c1.car = .val STRING → c2.car = .val STRING →
       eqObj cs (some i) (some j) = false) := by
  have hne : ¬ (some i = some j) := by simpa using hij
  refine ⟨?_, ?_, ?_, ?_, ?_⟩
  · intro n h1 h2
    simp [eqObj, hne, h1, h2, symbolpC, integerpC, characterpC, NUMBER, SYMBOL]
  · intro code h1 h2
    simp [eqObj, hne, h1, h2, symbolpC, integerpC, characterpC, CHARACTER, NUMBER, SYMBOL]
  · intro f h1 h2
    simp [eqObj, hne, h1, h2, symbolpC, SYMBOL]
  · intro c1 c2 h1 h2 hp1 hp2
    have hs1 : symbolpC c1 = false := by
      rcases hp1 with h | ⟨p, h⟩ <;> simp [symbolpC, h]
    have hi1 : integerpC c1 = false := by
      rcases hp1 with h | ⟨p, h⟩ <;> simp [integerpC, h]
    have hc1 : characterpC c1 = false := by
      rcases hp1 with h | ⟨p, h⟩ <;> simp [characterpC, h]
    simp [eqObj, hne, h1, h2, hs1, hi1, hc1]
  · intro c1 c2 h1 h2 hp1 hp2
    simp [eqObj, hne, h1, h2, symbolpC, integerpC, characterpC, hp1,
      SYMBOL, NUMBER, CHARACTER, STRING]

theorem eq_spec_witness :
    (eqObj [⟨.val NUMBER, .val 5, false⟩, ⟨.val NUMBER, .val 5, false⟩,
            ⟨.null, .ptr 0, false⟩, ⟨.null, .ptr 0, false⟩,
            ⟨.val STRING, .ptr 6, false⟩, ⟨.val STRING, .ptr 6, false⟩]
       (some 0) (some 1) = true) ∧
    (eqObj [⟨.val NUMBER, .val 5, false⟩, ⟨.val NUMBER, .val 5, false⟩,
            ⟨.null, .ptr 0, false⟩, ⟨.null, .ptr 0, false⟩,
            ⟨.val STRING, .ptr 6, false⟩, ⟨.val STRING, .ptr 6, false⟩]
       (some 2) (some 3) = false) ∧
    (eqObj [⟨.val NUMBER, .val 5, false⟩, ⟨.val NUMBER, .val 5, false⟩,
            ⟨.null, .ptr 0, false⟩, ⟨.null, .ptr 0, false⟩,
            ⟨.val STRING, .ptr 6, false⟩, ⟨.val STRING, .ptr 6, false⟩]
       (some 4) (some 5) = false) := by
  refine ⟨(eq_spec _ 0 1 (by decide)).1 5 (by decide) (by decide),
    ((eq_spec _ 2 3 (by decide)).2.2.2.1 ⟨.null, .ptr 0, false⟩ ⟨.null, .ptr 0, false⟩
      (by decide) (by decide) (Or.inl rfl) (Or.inl rfl)),
    ((eq_spec _ 4 5 (by decide)).2.2.2.2 ⟨.val STRING, .ptr 6, false⟩
      ⟨.val STRING, .ptr 6, false⟩ (by decide) (by decide) rfl rfl)⟩

/-! ### Free-list chain lemmas (claims C4, C9, C1) -/

theorem fieldPtr_ptrToField (o : Option Nat) : fieldPtr (ptrToField o) = o := by
  cases o <;> rfl

/-- Writing a cell off the chain leaves the chain intact. -/
theorem FreelistIs_set (cs : List Cell) (L : List Nat) (i : Nat) (c : Cell) :
    ∀ o, FreelistIs cs o L → i ∉ L → FreelistIs (cs.set i c) o L := by
  induction L with
  | nil => intro o h _; exact h
  | cons j L ih =>
    intro o h hi
    obtain ⟨ho, cj, hcj, hrest⟩ := h
    refine ⟨ho, cj, ?_, ih _ hrest (fun hmem => hi (List.mem_cons_of_mem _ hmem))⟩
    have hij : i ≠ j := by
      intro hij; subst hij; exact hi (List.mem_cons_self _ _)
    rw [List.getElem?_set_ne hij]
    exact hcj

/-- Characterisation of `initAux`: pushing cells `k-1 .. 0` prepends
`[0, 1, ..., k-1]` to the chain and adds `k` to the counter. -/
theorem initAux_spec : ∀ (k : Nat) (ws : WState) (L : List Nat),
    k ≤ ws.cells.length →
    FreelistIs ws.cells ws.freelist L →
    (∀ j ∈ L, k ≤ j) →
    FreelistIs (initAux k ws).cells (initAux k ws).freelist (List.range k ++ L) ∧
      (initAux k ws).freespace = ws.freespace + k ∧
      (initAux k ws).cells.length = ws.cells.length := by
  intro k
  induction k with
  | zero => intro ws L _ h _; simpa [initAux] using h
  | succ k ih =>
    intro ws L hk h hge
    have hkus : k ∉ L := fun hm => by have := hge k hm; omega
    have hfree : FreelistIs (myfree ws k).cells (myfree ws k).freelist (k :: L) := by
      refine ⟨rfl, ⟨.null, ptrToField ws.freelist, false⟩, ?_, ?_⟩
      · exact List.getElem?_set_eq_of_lt _ (by omega)
      · rw [fieldPtr_ptrToField]
        exact FreelistIs_set _ _ _ _ _ h hkus
    have := ih (myfree ws k) (k :: L) (by simp [myfree]; omega) hfree
      (by intro j hj; rcases List.mem_cons.1 hj with rfl | hj
          · omega
          · have := hge j hj; omega)
    simp only [initAux]
    refine ⟨?_, ?_, ?_⟩
    · have heq : List.range (k + 1) ++ L = List.range k ++ (k :: L) := by
        rw [List.range_succ]; simp
      rw [heq]; exact this.1
    · rw [this.2.1]; simp [myfree]; omega
    · rw [this.2.2]; simp [myfree]

/-- Unfolding of the sweep body at a valid index. -/
theorem sweepCell_eq (ws : WState) (i : Nat) (c : Cell) (h : ws.cells[i]? = some c) :
    sweepCell ws i =
      if c.mark = true then
        { ws with cells := ws.cells.set i { c with mark := false } }
      else myfree ws i := by
  unfold sweepCell
  rw [h]
  by_cases hm : c.mark <;> simp [hm]

/-- Characterisation of `sweepAux k`: cells at indices `≥ k` are untouched;
below `k`, marked cells keep their fields and lose the mark bit, unmarked
cells are freed and appear on the chain (in ascending index order). -/
theorem sweepAux_spec : ∀ (k : Nat) (ws : WState) (L : List Nat),
    k ≤ ws.cells.length →
    FreelistIs ws.cells ws.freelist L →
    (∀ j ∈ L, k ≤ j) →
    (sweepAux k ws).cells.length = ws.cells.length ∧
      FreelistIs (sweepAux k ws).cells (sweepAux k ws).freelist
        (((List.range k).filter (fun i => !isMarked ws.cells i)) ++ L) ∧
      (sweepAux k ws).freespace = ws.freespace +
        (((List.range k).filter (fun i => !isMarked ws.cells i))).length ∧
      (∀ i, k ≤ i → (sweepAux k ws).cells[i]? = ws.cells[i]?) ∧
      (∀ i c, i < k → ws.cells[i]? = some c → c.mark = true →
        (sweepAux k ws).cells[i]? = some { c with mark := false }) ∧
      (∀ i c, i < k → ws.cells[i]? = some c → c.mark = false →
        ∃ f, (sweepAux k ws).cells[i]? = some ⟨.null, f, false⟩) := by
  intro k
  induction k with
  | zero =>
    intro ws L _ h _
    exact ⟨rfl, by simpa [sweepAux] using h, by simp [sweepAux], fun i _ => rfl,
      fun i c hi _ _ => absurd hi (by omega), fun i c hi _ _ => absurd hi (by omega)⟩
  | succ k ih =>
    intro ws L hk h hge
    have hkus : k ∉ L := fun hm => by have := hge k hm; omega
    have hklt : k < ws.cells.length := by omega
    obtain ⟨ck, hck⟩ : ∃ c, ws.cells[k]? = some c :=
      ⟨ws.cells[k], List.getElem?_eq_getElem hklt⟩
    have hmk : isMarked ws.cells k = ck.mark := by unfold isMarked; rw [hck]
    have hsc : sweepAux (k + 1) ws = sweepAux k (sweepCell ws k) := rfl
    have hlen1 : (sweepCell ws k).cells.length = ws.cells.length := by
      rw [sweepCell_eq ws k ck hck]
      split <;> simp [myfree]
    have hsame1 : ∀ i, i ≠ k → (sweepCell ws k).cells[i]? = ws.cells[i]? := by
      intro i hik
      rw [sweepCell_eq ws k ck hck]
      split <;> simp [myfree, List.getElem?_set_ne (Ne.symm hik)]
    have hfilter : (List.range k).filter (fun i => !isMarked (sweepCell ws k).cells i) =
        (List.range k).filter (fun i => !isMarked ws.cells i) := by
      apply List.filter_congr
      intro i hi
      have hlt : i < k := List.mem_range.1 hi
      unfold isMarked
      rw [hsame1 i (by omega)]
    have hrange : (List.range (k+1)).filter (fun i => !isMarked ws.cells i) =
        ((List.range k).filter (fun i => !isMarked ws.cells i)) ++
          (if ck.mark then [] else [k]) := by
      by_cases hmm : ck.mark <;>
        simp [List.range_succ, List.filter_append, hmk, hmm]
    by_cases hm : ck.mark = true
    · -- marked: unmark in place; chain and counter unchanged
      have hws1eq : sweepCell ws k =
          { ws with cells := ws.cells.set k { ck with mark := false } } := by
        rw [sweepCell_eq ws k ck hck, if_pos hm]
      have hfl1 : FreelistIs (sweepCell ws k).cells (sweepCell ws k).freelist L := by
        rw [hws1eq]
        exact FreelistIs_set _ _ _ _ _ h hkus
      obtain ⟨ihlen, ihfl, ihfs, ihhi, ihmk, ihum⟩ :=
        ih (sweepCell ws k) L (by rw [hlen1]; omega) hfl1
          (fun j hj => by have := hge j hj; omega)
      rw [hsc]
      refine ⟨ihlen.trans hlen1, ?_, ?_, ?_, ?_, ?_⟩
      · rw [hrange, hm]
        simpa [hfilter] using ihfl
      · rw [hrange, hm]
        have : (sweepCell ws k).freespace = ws.freespace := by rw [hws1eq]
        simpa [hfilter, this] using ihfs
      · intro i hi
        rw [ihhi i (by omega), hsame1 i (by omega)]
      · intro i c hi hc hcm
        rcases Nat.lt_succ_iff_lt_or_eq.1 hi with hi | rfl
        · exact ihmk i c hi (by rw [hsame1 i (by omega)]; exact hc) hcm
        · rw [hck] at hc
          cases hc
          rw [ihhi i (le_refl _), hws1eq]
          exact List.getElem?_set_eq_of_lt _ hklt
      · intro i c hi hc hcm
        rcases Nat.lt_succ_iff_lt_or_eq.1 hi with hi | rfl
        · exact ihum i c hi (by rw [hsame1 i (by omega)]; exact hc) hcm
        · rw [hck] at hc
          cases hc
          rw [hcm] at hm
          exact absurd hm (by simp)
    · -- unmarked: the cell is freed and pushed onto the chain
      have hmf : ck.mark = false := by simpa using hm
      have hws1eq : sweepCell ws k = myfree ws k := by
        rw [sweepCell_eq ws k ck hck, if_neg (by simp [hmf])]
      have hfl1 : FreelistIs (sweepCell ws k).cells (sweepCell ws k).freelist (k :: L) := by
        rw [hws1eq]
        refine ⟨rfl, ⟨.null, ptrToField ws.freelist, false⟩, ?_, ?_⟩
        · exact List.getElem?_set_eq_of_lt _ hklt
        · rw [fieldPtr_ptrToField]
          exact FreelistIs_set _ _ _ _ _ h hkus
      obtain ⟨ihlen, ihfl, ihfs, ihhi, ihmk, ihum⟩ :=
        ih (sweepCell ws k) (k :: L) (by rw [hlen1]; omega) hfl1
          (by intro j hj
              rcases List.mem_cons.1 hj with rfl | hj
              · omega
              · have := hge j hj; omega)
      rw [hsc]
      refine ⟨ihlen.trans hlen1, ?_, ?_, ?_, ?_, ?_⟩
      · rw [hrange, if_neg (by simp [hmf])]
        simpa [hfilter] using ihfl
      · rw [hrange, if_neg (by simp [hmf])]
        have : (sweepCell ws k).freespace = ws.freespace + 1 := by rw [hws1eq]; rfl
        rw [ihfs, hfilter, this]
        simp
        omega
      · intro i hi
        rw [ihhi i (by omega), hsame1 i (by omega)]
      · intro i c hi hc hcm
        rcases Nat.lt_succ_iff_lt_or_eq.1 hi with hi | rfl
        · exact ihmk i c hi (by rw [hsame1 i (by omega)]; exact hc) hcm
        · rw [hck] at hc
          cases hc
          rw [hcm] at hmf
          exact absurd hmf (by simp)
      · intro i c hi hc hcm
        rcases Nat.lt_succ_iff_lt_or_eq.1 hi with hi | rfl
        · exact ihum i c hi (by rw [hsame1 i (by omega)]; exact hc) hcm
        · refine ⟨ptrToField ws.freelist, ?_⟩
          rw [ihhi i (le_refl _), hws1eq]
          exact List.getElem?_set_eq_of_lt _ hklt

/-- Unfolding of `myalloc` on a state with a nonempty free list. -/
theorem myalloc_eq (ws : WState) (hd : Nat) (c : Cell) (hfs : ¬ ws.freespace = 0)
    (hfl : ws.freelist = some hd) (hc : ws.cells[hd]? = some c) :
    myalloc ws = .ok (hd,
      { ws with freelist := fieldPtr c.cdr, freespace := ws.freespace - 1 }) := by
  simp [myalloc, hfs, hfl, hc]

/-! ### Claim C9: `Freespace` equals the length of the `Freelist` chain -/

/-- Claim C9: the invariant `Freespace = number of cells on the Freelist
chain` is established by `initworkspace` and preserved by `myalloc`,
`myfree` (freeing a cell not already on the list) and `sweep`; under it,
`myalloc`'s `Freespace == 0` test is equivalent to the free list being
empty. -/
theorem freespace_invariant :
    (∀ cs0 : List Cell, FreeInv (initworkspace cs0) ∧
      (initworkspace cs0).freespace = cs0.length) ∧
    (∀ ws i ws', FreeInv ws → myalloc ws = .ok (i, ws') → FreeInv ws') ∧
    (∀ ws i L, FreelistIs ws.cells ws.freelist L → ws.freespace = L.length →
      i ∉ L → i < ws.cells.length → FreeInv (myfree ws i)) ∧
    (∀ ws : WState, FreeInv (sweep ws)) ∧
    (∀ ws : WState, FreeInv ws → (ws.freespace = 0 ↔ ws.freelist = none)) := by
  refine ⟨?_, ?_, ?_, ?_, ?_⟩
  · intro cs0
    have h := initAux_spec cs0.length
      { cells := cs0, freelist := none, freespace := 0 } [] (le_refl _) rfl
      (by intro j hj; cases hj)
    refine ⟨⟨List.range cs0.length ++ [], h.1, ?_⟩, ?_⟩
    · show (initAux cs0.length { cells := cs0, freelist := none, freespace := 0 }).freespace = _
      rw [h.2.1]; simp
    · show (initAux cs0.length { cells := cs0, freelist := none, freespace := 0 }).freespace = _
      rw [h.2.1]; simp
  · intro ws i ws' hinv halloc
    obtain ⟨L, hL, hfs⟩ := hinv
    cases L with
    | nil =>
      have h0 : ws.freespace = 0 := by rw [hfs]; rfl
      rw [myalloc, if_pos h0] at halloc
      cases halloc
    | cons hd L' =>
      obtain ⟨hfl, c, hc, hrest⟩ := hL
      rw [myalloc_eq ws hd c (by rw [hfs]; simp) hfl hc] at halloc
      cases halloc
      exact ⟨L', hrest, by rw [hfs]; simp⟩
  · intro ws i L hL hfs hiL hilen
    refine ⟨i :: L, ⟨rfl, ⟨.null, ptrToField ws.freelist, false⟩, ?_, ?_⟩, ?_⟩
    · exact List.getElem?_set_eq_of_lt _ hilen
    · rw [fieldPtr_ptrToField]
      exact FreelistIs_set _ _ _ _ _ hL hiL
    · simp [myfree, hfs]
  · intro ws
    have h := sweepAux_spec ws.cells.length
      { ws with freelist := none, freespace := 0 } [] (le_refl _) rfl
      (by intro j hj; cases hj)
    exact ⟨_, by simpa [sweep] using h.2.1, by simpa [sweep] using h.2.2.1⟩
  · intro ws ⟨L, hL, hfs⟩
    cases L with
    | nil => simpa [hfs] using hL
    | cons hd L' =>
      rw [hfs, hL.1]
      simp

theorem freespace_invariant_witness :
    (FreeInv (initworkspace [⟨.val NUMBER, .val 1, false⟩, ⟨.null, .null, false⟩]) ∧
      (initworkspace [⟨.val NUMBER, .val 1, false⟩, ⟨.null, .null, false⟩]).freespace = 2) ∧
    FreeInv (sweep ⟨[⟨.val NUMBER, .val 1, true⟩, ⟨.null, .null, false⟩], none, 0⟩) ∧
    ((⟨[⟨.null, .null, false⟩], some 0, 1⟩ : WState).freespace = 0 ↔
      (⟨[⟨.null, .null, false⟩], some 0, 1⟩ : WState).freelist = none) :=
  ⟨freespace_invariant.1 [⟨.val NUMBER, .val 1, false⟩, ⟨.null, .null, false⟩],
   freespace_invariant.2.2.2.1 ⟨[⟨.val NUMBER, .val 1, true⟩, ⟨.null, .null, false⟩], none, 0⟩,
   freespace_invariant.2.2.2.2 ⟨[⟨.null, .null, false⟩], some 0, 1⟩
     ⟨[0], ⟨rfl, ⟨.null, .null, false⟩, rfl, rfl⟩, rfl⟩⟩

/-! ### Claim C4: `myalloc` / `myfree` contracts -/

/-- Claim C4: under the free-list invariant, `myalloc` raises the recoverable
out-of-memory error (`error2("no room")`, a handler jump) if and only if the
free list is empty; otherwise it removes and returns the free-list head,
leaving the arena contents unchanged and decrementing `Freespace` by one.
`myfree` clears the `car` field of its argument cell, points its `cdr` at
the old free-list head, makes the cell the new head and increments
`Freespace`, in every state. -/
theorem myalloc_myfree_spec :
    (∀ ws : WState, FreeInv ws →
      (myalloc ws = .error .noRoom ↔ ws.freelist = none)) ∧
    (∀ ws hd L, FreelistIs ws.cells ws.freelist (hd :: L) →
      ws.freespace = (hd :: L).length →
      ∃ c, ws.cells[hd]? = some c ∧
        myalloc ws = .ok (hd,
          { cells := ws.cells, freelist := fieldPtr c.cdr,
            freespace := ws.freespace - 1 })) ∧
    (∀ ws i, myfree ws i =
      { cells := ws.cells.set i ⟨.null, ptrToField ws.freelist, false⟩,
        freelist := some i, freespace := ws.freespace + 1 }) := by
  refine ⟨?_, ?_, fun ws i => rfl⟩
  · intro ws ⟨L, hL, hfs⟩
    cases L with
    | nil =>
      have h0 : ws.freespace = 0 := by rw [hfs]; rfl
      rw [myalloc, if_pos h0, hL]
      simp
    | cons hd L' =>
      obtain ⟨hfl, c, hc, hrest⟩ := hL
      rw [myalloc_eq ws hd c (by rw [hfs]; simp) hfl hc]
      simp [hfl]
  · intro ws hd L hL hfs
    obtain ⟨hfl, c, hc, hrest⟩ := hL
    refine ⟨c, hc, ?_⟩
    rw [myalloc_eq ws hd c (by rw [hfs]; simp) hfl hc]

theorem myalloc_myfree_spec_witness :
    (myalloc ⟨[⟨.null, .null, false⟩], some 0, 1⟩ = .error .noRoom ↔
      (⟨[⟨.null, .null, false⟩], some 0, 1⟩ : WState).freelist = none) ∧
    myalloc ⟨[⟨.null, .null, false⟩], some 0, 1⟩ =
      .ok (0, ⟨[⟨.null, .null, false⟩], none, 0⟩) ∧
    myfree ⟨[⟨.val NUMBER, .val 7, false⟩], none, 0⟩ 0 =
      ⟨[⟨.null, .null, false⟩], some 0, 1⟩ := by
  refine ⟨myalloc_myfree_spec.1 ⟨[⟨.null, .null, false⟩], some 0, 1⟩
      ⟨[0], ⟨rfl, ⟨.null, .null, false⟩, rfl, rfl⟩, rfl⟩, ?_, ?_⟩
  · obtain ⟨c, hc, heq⟩ := myalloc_myfree_spec.2.1 ⟨[⟨.null, .null, false⟩], some 0, 1⟩
      0 [] ⟨rfl, ⟨.null, .null, false⟩, rfl, rfl⟩ rfl
    have hcv : c = (⟨.null, .null, false⟩ : Cell) := by
      have h2 : some c = some (⟨.null, .null, false⟩ : Cell) := by
        rw [← hc]; rfl
      exact Option.some_inj.mp h2
    rw [heq, hcv]
    rfl
  · rw [myalloc_myfree_spec.2.2 ⟨[⟨.val NUMBER, .val 7, false⟩], none, 0⟩ 0]
    rfl

/-! ### Mark-phase lemmas (claim C1) -/

theorem lt_of_getElem?_eq_some {cs : List Cell} {i : Nat} {c : Cell}
    (h : cs[i]? = some c) : i < cs.length := by
  by_contra hh
  rw [List.getElem?_eq_none (by omega)] at h
  cases h

theorem mem_of_getElem?_eq_some {cs : List Cell} {i : Nat} {c : Cell}
    (h : cs[i]? = some c) : c ∈ cs := by
  have hlt := lt_of_getElem?_eq_some h
  have hc : cs[i] = c := by
    have h2 := List.getElem?_eq_getElem hlt
    rw [h] at h2
    exact (Option.some_inj.mp h2).symm
  exact hc ▸ List.getElem_mem hlt

theorem setMark_length (cs : List Cell) (i : Nat) :
    (setMark cs i).length = cs.length := by
  unfold setMark
  cases h : cs[i]? <;> simp

theorem fieldsAt_setMark (cs : List Cell) (i j : Nat) :
    fieldsAt (setMark cs i) j = fieldsAt cs j := by
  unfold setMark
  cases h : cs[i]? with
  | none => rfl
  | some c =>
    unfold fieldsAt
    by_cases hij : i = j
    · subst hij
      rw [List.getElem?_set_eq_of_lt _ (lt_of_getElem?_eq_some h), h]
      rfl
    · rw [List.getElem?_set_ne hij]

theorem isMarked_setMark (cs : List Cell) (i j : Nat) :
    isMarked (setMark cs i) j = true ↔
      isMarked cs j = true ∨ (j = i ∧ i < cs.length) := by
  unfold setMark
  cases h : cs[i]? with
  | none =>
    have hge : ¬ i < cs.length := fun hlt => by
      rw [List.getElem?_eq_getElem hlt] at h; cases h
    simp [hge]
  | some c =>
    have hlt := lt_of_getElem?_eq_some h
    unfold isMarked
    by_cases hij : j = i
    · subst hij
      rw [List.getElem?_set_eq_of_lt _ hlt]
      simp [hlt]
    · rw [List.getElem?_set_ne (Ne.symm hij)]
      simp [hij]

theorem sameFields_refl (cs : List Cell) : SameFields cs cs := ⟨rfl, fun _ => rfl⟩

theorem sameFields_trans {a b c : List Cell} (h1 : SameFields a b)
    (h2 : SameFields b c) : SameFields a c :=
  ⟨h2.1.trans h1.1, fun i => (h2.2 i).trans (h1.2 i)⟩

theorem sameFields_setMark (cs : List Cell) (i : Nat) :
    SameFields cs (setMark cs i) :=
  ⟨setMark_length cs i, fun j => fieldsAt_setMark cs i j⟩

/-! Unfolding equations for the fueled marking functions (the `match` on a
constructor scrutinee is reduced once and for all here). -/

theorem markChain_none (fuel : Nat) (cs : List Cell) : markChain cs fuel none = cs := by
  cases fuel <;> rfl

theorem markChain_oor (fuel : Nat) (cs : List Cell) (j : Nat) (h : cs[j]? = none) :
    markChain cs (fuel + 1) (some j) = cs := by
  simp [markChain, h]

theorem markChain_some (fuel : Nat) (cs : List Cell) (j : Nat) (c : Cell)
    (h : cs[j]? = some c) :
    markChain cs (fuel + 1) (some j) = markChain (setMark cs j) fuel (fieldPtr c.car) := by
  simp [markChain, h]

theorem markFuel_none (fuel : Nat) (cs : List Cell) : markFuel fuel cs none = cs := by
  cases fuel <;> rfl

theorem markFuel_oor (fuel : Nat) (cs : List Cell) (i : Nat) (h : cs[i]? = none) :
    markFuel (fuel + 1) cs (some i) = cs := by
  simp [markFuel, h]

theorem markFuel_marked (fuel : Nat) (cs : List Cell) (i : Nat) (c : Cell)
    (h : cs[i]? = some c) (hm : c.mark = true) :
    markFuel (fuel + 1) cs (some i) = cs := by
  simp [markFuel, h, hm]

theorem markFuel_cons (fuel : Nat) (cs : List Cell) (i : Nat) (c : Cell)
    (h : cs[i]? = some c) (hm : c.mark = false) (hp : pairCar c.car = true) :
    markFuel (fuel + 1) cs (some i) =
      markFuel fuel (markFuel fuel (setMark cs i) (fieldPtr c.car)) (fieldPtr c.cdr) := by
  cases hcar : c.car with
  | val t => rw [hcar] at hp; cases hp
  | null => simp [markFuel, h, hm, hcar]
  | ptr p => simp [markFuel, h, hm, hcar]

theorem markFuel_array (fuel : Nat) (cs : List Cell) (i : Nat) (c : Cell)
    (h : cs[i]? = some c) (hm : c.mark = false) (hcar : c.car = .val ARRAY) :
    markFuel (fuel + 1) cs (some i) = markFuel fuel (setMark cs i) (fieldPtr c.cdr) := by
  simp [markFuel, h, hm, hcar, ARRAY]

theorem markFuel_string (fuel : Nat) (cs : List Cell) (i : Nat) (c : Cell) (t : Nat)
    (h : cs[i]? = some c) (hm : c.mark = false) (hcar : c.car = .val t)
    (hs : t = STRING ∨ (t = SYMBOL ∧ longnamefield c.cdr = true)) :
    markFuel (fuel + 1) cs (some i) =
      markChain (setMark cs i) (setMark cs i).length (fieldPtr c.cdr) := by
  have hna : ¬ t = ARRAY := by
    rcases hs with rfl | ⟨rfl, _⟩ <;> simp [STRING, SYMBOL, ARRAY]
  simp only [markFuel, h, hm, hcar, Bool.false_eq_true, if_false]
  rw [if_neg hna, if_pos hs]

theorem markFuel_scalar (fuel : Nat) (cs : List Cell) (i : Nat) (c : Cell) (t : Nat)
    (h : cs[i]? = some c) (hm : c.mark = false) (hcar : c.car = .val t)
    (hna : ¬ t = ARRAY)
    (hs : ¬ (t = STRING ∨ (t = SYMBOL ∧ longnamefield c.cdr = true))) :
    markFuel (fuel + 1) cs (some i) = setMark cs i := by
  simp only [markFuel, h, hm, hcar, Bool.false_eq_true, if_false]
  rw [if_neg hna, if_neg hs]

theorem sameFields_markChain : ∀ (fuel : Nat) (cs : List Cell) (o : Option Nat),
    SameFields cs (markChain cs fuel o) := by
  intro fuel
  induction fuel with
  | zero =>
    intro cs o
    cases o <;> exact sameFields_refl cs
  | succ fuel ih =>
    intro cs o
    cases o with
    | none => exact sameFields_refl cs
    | some j =>
      cases h : cs[j]? with
      | none => rw [markChain_oor fuel cs j h]; exact sameFields_refl cs
      | some c =>
        rw [markChain_some fuel cs j c h]
        exact sameFields_trans (sameFields_setMark cs j) (ih _ _)

theorem sameFields_markFuel : ∀ (fuel : Nat) (cs : List Cell) (o : Option Nat),
    SameFields cs (markFuel fuel cs o) := by
  intro fuel
  induction fuel with
  | zero =>
    intro cs o
    cases o <;> exact sameFields_refl cs
  | succ fuel ih =>
    intro cs o
    cases o with
    | none => exact sameFields_refl cs
    | some i =>
      cases h : cs[i]? with
      | none => rw [markFuel_oor fuel cs i h]; exact sameFields_refl cs
      | some c =>
        by_cases hm : c.mark = true
        · rw [markFuel_marked fuel cs i c h hm]; exact sameFields_refl cs
        · have hm' : c.mark = false := by simpa using hm
          cases hcar : c.car with
          | val t =>
            by_cases h1 : t = ARRAY
            · subst h1
              rw [markFuel_array fuel cs i c h hm' hcar]
              exact sameFields_trans (sameFields_setMark cs i) (ih _ _)
            · by_cases h2 : t = STRING ∨ (t = SYMBOL ∧ longnamefield c.cdr = true)
              · rw [markFuel_string fuel cs i c t h hm' hcar h2]
                exact sameFields_trans (sameFields_setMark cs i) (sameFields_markChain _ _ _)
              · rw [markFuel_scalar fuel cs i c t h hm' hcar h1 h2]
                exact sameFields_setMark cs i
          | null =>
            rw [markFuel_cons fuel cs i c h hm' (by rw [hcar]; rfl)]
            exact sameFields_trans (sameFields_setMark cs i)
              (sameFields_trans (ih _ _) (ih _ _))
          | ptr p =>
            rw [markFuel_cons fuel cs i c h hm' (by rw [hcar]; rfl)]
            exact sameFields_trans (sameFields_setMark cs i)
              (sameFields_trans (ih _ _) (ih _ _))

theorem unmarkedCount_set_le (cs : List Cell) :
    ∀ (i : Nat) (c' : Cell), c'.mark = true →
      unmarkedCount (cs.set i c') ≤ unmarkedCount cs := by
  induction cs with
  | nil => intro i c' _; simp [unmarkedCount]
  | cons hd tl ih =>
    intro i c' hm
    cases i with
    | zero =>
      simp only [List.set_cons_zero, unmarkedCount, List.filter_cons, hm]
      by_cases hh : hd.mark <;> simp [hh]
    | succ i =>
      simp only [List.set_cons_succ, unmarkedCount, List.filter_cons]
      have := ih i c' hm
      unfold unmarkedCount at this
      by_cases hh : hd.mark <;> simp [hh] <;> omega

theorem unmarkedCount_set_mark (cs : List Cell) :
    ∀ (i : Nat) (c : Cell), cs[i]? = some c → c.mark = false →
      unmarkedCount (cs.set i { c with mark := true }) + 1 = unmarkedCount cs := by
  induction cs with
  | nil => intro i c h _; cases h
  | cons hd tl ih =>
    intro i c h hm
    cases i with
    | zero =>
      simp only [List.getElem?_cons_zero] at h
      cases h
      simp [unmarkedCount, List.filter_cons, hm]
    | succ i =>
      simp only [List.getElem?_cons_succ] at h
      have := ih i c h hm
      unfold unmarkedCount at this
      simp only [List.set_cons_succ, unmarkedCount, List.filter_cons]
      by_cases hh : hd.mark <;> simp [hh] <;> omega

theorem unmarkedCount_setMark_le (cs : List Cell) (i : Nat) :
    unmarkedCount (setMark cs i) ≤ unmarkedCount cs := by
  unfold setMark
  cases h : cs[i]? with
  | none => exact le_refl _
  | some c => exact unmarkedCount_set_le cs i _ rfl

theorem unmarkedCount_setMark_succ (cs : List Cell) (i : Nat) (c : Cell)
    (h : cs[i]? = some c) (hm : c.mark = false) :
    unmarkedCount (setMark cs i) + 1 = unmarkedCount cs := by
  unfold setMark
  rw [h]
  exact unmarkedCount_set_mark cs i c h hm

theorem unmarkedCount_markChain_le : ∀ (fuel : Nat) (cs : List Cell) (o : Option Nat),
    unmarkedCount (markChain cs fuel o) ≤ unmarkedCount cs := by
  intro fuel
  induction fuel with
  | zero => intro cs o; cases o <;> simp [markChain_none, markChain]
  | succ fuel ih =>
    intro cs o
    cases o with
    | none => rw [markChain_none]
    | some j =>
      cases h : cs[j]? with
      | none => rw [markChain_oor fuel cs j h]
      | some c =>
        rw [markChain_some fuel cs j c h]
        exact le_trans (ih _ _) (unmarkedCount_setMark_le cs j)

theorem unmarkedCount_markFuel_le : ∀ (fuel : Nat) (cs : List Cell) (o : Option Nat),
    unmarkedCount (markFuel fuel cs o) ≤ unmarkedCount cs := by
  intro fuel
  induction fuel with
  | zero => intro cs o; cases o <;> simp [markFuel_none, markFuel]
  | succ fuel ih =>
    intro cs o
    cases o with
    | none => rw [markFuel_none]
    | some i =>
      cases h : cs[i]? with
      | none => rw [markFuel_oor fuel cs i h]
      | some c =>
        by_cases hm : c.mark = true
        · rw [markFuel_marked fuel cs i c h hm]
        · have hm' : c.mark = false := by simpa using hm
          cases hcar : c.car with
          | val t =>
            by_cases h1 : t = ARRAY
            · subst h1
              rw [markFuel_array fuel cs i c h hm' hcar]
              exact le_trans (ih _ _) (unmarkedCount_setMark_le cs i)
            · by_cases h2 : t = STRING ∨ (t = SYMBOL ∧ longnamefield c.cdr = true)
              · rw [markFuel_string fuel cs i c t h hm' hcar h2]
                exact le_trans (unmarkedCount_markChain_le _ _ _)
                  (unmarkedCount_setMark_le cs i)
              · rw [markFuel_scalar fuel cs i c t h hm' hcar h1 h2]
                exact unmarkedCount_setMark_le cs i
          | null =>
            rw [markFuel_cons fuel cs i c h hm' (by rw [hcar]; rfl)]
            exact le_trans (ih _ _) (le_trans (ih _ _) (unmarkedCount_setMark_le cs i))
          | ptr p =>
            rw [markFuel_cons fuel cs i c h hm' (by rw [hcar]; rfl)]
            exact le_trans (ih _ _) (le_trans (ih _ _) (unmarkedCount_setMark_le cs i))

theorem isMarked_markChain_mono : ∀ (fuel : Nat) (cs : List Cell) (o : Option Nat)
    (x : Nat), isMarked cs x = true → isMarked (markChain cs fuel o) x = true := by
  intro fuel
  induction fuel with
  | zero => intro cs o x hx; cases o <;> simpa [markChain_none, markChain] using hx
  | succ fuel ih =>
    intro cs o x hx
    cases o with
    | none => rwa [markChain_none]
    | some j =>
      cases h : cs[j]? with
      | none => rwa [markChain_oor fuel cs j h]
      | some c =>
        rw [markChain_some fuel cs j c h]
        exact ih _ _ _ ((isMarked_setMark cs j x).2 (Or.inl hx))

theorem isMarked_markFuel_mono : ∀ (fuel : Nat) (cs : List Cell) (o : Option Nat)
    (x : Nat), isMarked cs x = true → isMarked (markFuel fuel cs o) x = true := by
  intro fuel
  induction fuel with
  | zero => intro cs o x hx; cases o <;> simpa [markFuel_none, markFuel] using hx
  | succ fuel ih =>
    intro cs o x hx
    cases o with
    | none => rwa [markFuel_none]
    | some i =>
      cases h : cs[i]? with
      | none => rwa [markFuel_oor fuel cs i h]
      | some c =>
        by_cases hm : c.mark = true
        · rwa [markFuel_marked fuel cs i c h hm]
        · have hm' : c.mark = false := by simpa using hm
          have hx1 : isMarked (setMark cs i) x = true :=
            (isMarked_setMark cs i x).2 (Or.inl hx)
          cases hcar : c.car with
          | val t =>
            by_cases h1 : t = ARRAY
            · subst h1
              rw [markFuel_array fuel cs i c h hm' hcar]
              exact ih _ _ _ hx1
            · by_cases h2 : t = STRING ∨ (t = SYMBOL ∧ longnamefield c.cdr = true)
              · rw [markFuel_string fuel cs i c t h hm' hcar h2]
                exact isMarked_markChain_mono _ _ _ _ hx1
              · rw [markFuel_scalar fuel cs i c t h hm' hcar h1 h2]
                exact hx1
          | null =>
            rw [markFuel_cons fuel cs i c h hm' (by rw [hcar]; rfl)]
            exact ih _ _ _ (ih _ _ _ hx1)
          | ptr p =>
            rw [markFuel_cons fuel cs i c h hm' (by rw [hcar]; rfl)]
            exact ih _ _ _ (ih _ _ _ hx1)

theorem chainListN_nil (fuel : Nat) (cs : List Cell) : chainListN cs fuel none = [] := by
  cases fuel <;> rfl

theorem chainListN_oor (fuel : Nat) (cs : List Cell) (j : Nat) (h : cs[j]? = none) :
    chainListN cs (fuel + 1) (some j) = [] := by
  simp [chainListN, h]

theorem chainListN_some (fuel : Nat) (cs : List Cell) (j : Nat) (c : Cell)
    (h : cs[j]? = some c) :
    chainListN cs (fuel + 1) (some j) = j :: chainListN cs fuel (fieldPtr c.car) := by
  simp [chainListN, h]

theorem fieldsAt_some_of_some {cs' cs : List Cell} {j : Nat} {c : Cell}
    (hf : fieldsAt cs' j = fieldsAt cs j) (h : cs[j]? = some c) :
    ∃ c', cs'[j]? = some c' ∧ c'.car = c.car ∧ c'.cdr = c.cdr := by
  unfold fieldsAt at hf
  rw [h] at hf
  cases h' : cs'[j]? with
  | none => rw [h'] at hf; cases hf
  | some c' =>
    rw [h'] at hf
    simp at hf
    exact ⟨c', rfl, hf.1, hf.2⟩

theorem fieldsAt_none_of_none {cs' cs : List Cell} {j : Nat}
    (hf : fieldsAt cs' j = fieldsAt cs j) (h : cs[j]? = none) : cs'[j]? = none := by
  unfold fieldsAt at hf
  rw [h] at hf
  cases h' : cs'[j]? with
  | none => rfl
  | some c' => rw [h'] at hf; cases hf

theorem chainListN_congr : ∀ (fuel : Nat) (cs cs' : List Cell),
    (∀ i, fieldsAt cs' i = fieldsAt cs i) →
    ∀ o, chainListN cs' fuel o = chainListN cs fuel o := by
  intro fuel
  induction fuel with
  | zero => intro cs cs' _ o; cases o <;> rfl
  | succ fuel ih =>
    intro cs cs' hf o
    cases o with
    | none => rfl
    | some j =>
      cases h : cs[j]? with
      | none =>
        rw [chainListN_oor fuel cs j h, chainListN_oor fuel cs' j (fieldsAt_none_of_none (hf j) h)]
      | some c =>
        obtain ⟨c', hc', hcar, hcdr⟩ := fieldsAt_some_of_some (hf j) h
        rw [chainListN_some fuel cs j c h, chainListN_some fuel cs' j c' hc', hcar,
          ih cs cs' hf]

theorem chainOk_congr : ∀ (fuel : Nat) (cs cs' : List Cell),
    (∀ i, fieldsAt cs' i = fieldsAt cs i) →
    ∀ o, chainOk cs' fuel o = chainOk cs fuel o := by
  intro fuel
  induction fuel with
  | zero => intro cs cs' _ o; cases o <;> rfl
  | succ fuel ih =>
    intro cs cs' hf o
    cases o with
    | none => rfl
    | some j =>
      cases h : cs[j]? with
      | none => simp [chainOk, h, fieldsAt_none_of_none (hf j) h]
      | some c =>
        obtain ⟨c', hc', hcar, hcdr⟩ := fieldsAt_some_of_some (hf j) h
        simp only [chainOk, h, hc', hcar, hcdr]
        cases c.car <;> cases c.cdr <;> simp [ih cs cs' hf]

theorem isMarked_markChain_iff : ∀ (fuel : Nat) (cs : List Cell) (o : Option Nat)
    (x : Nat), isMarked (markChain cs fuel o) x = true ↔
      isMarked cs x = true ∨ x ∈ chainListN cs fuel o := by
  intro fuel
  induction fuel with
  | zero =>
    intro cs o x
    cases o <;> simp [markChain_none, markChain, chainListN_nil, chainListN]
  | succ fuel ih =>
    intro cs o x
    cases o with
    | none => simp [markChain_none, chainListN_nil]
    | some j =>
      cases h : cs[j]? with
      | none => simp [markChain_oor fuel cs j h, chainListN_oor fuel cs j h]
      | some c =>
        rw [markChain_some fuel cs j c h, chainListN_some fuel cs j c h, ih]
        rw [chainListN_congr fuel cs (setMark cs j) (fun i => fieldsAt_setMark cs j i)]
        rw [isMarked_setMark]
        have hjlt : j < cs.length := lt_of_getElem?_eq_some h
        constructor
        · rintro ((hx | ⟨rfl, _⟩) | hx)
          · exact Or.inl hx
          · exact Or.inr (List.mem_cons_self _ _)
          · exact Or.inr (List.mem_cons_of_mem _ hx)
        · rintro (hx | hx)
          · exact Or.inl (Or.inl hx)
          · rcases List.mem_cons.1 hx with rfl | hx
            · exact Or.inl (Or.inr ⟨rfl, hjlt⟩)
            · exact Or.inr hx

theorem succs_congr {cs cs' : List Cell} (h : SameFields cs cs') (i : Nat) :
    succs cs' i = succs cs i := by
  unfold succs
  cases hc : cs[i]? with
  | none => simp only [fieldsAt_none_of_none (h.2 i) hc, hc]
  | some c =>
    obtain ⟨c', hc', hcar, hcdr⟩ := fieldsAt_some_of_some (h.2 i) hc
    simp only [hc, hc']
    simp only [hcar, hcdr, isStringHead, h.1]
    rw [chainListN_congr cs.length cs cs' h.2]

theorem heapWF_congr {cs cs' : List Cell} (h : SameFields cs cs')
    (hwf : heapWF cs) : heapWF cs' := by
  obtain ⟨hptr, htag, hchain⟩ := hwf
  have hmem : ∀ c' ∈ cs', ∃ c ∈ cs, c.car = c'.car ∧ c.cdr = c'.cdr := by
    intro c' hcmem
    obtain ⟨i, hi, hci⟩ := List.getElem_of_mem hcmem
    have hget : cs'[i]? = some c' := by
      rw [List.getElem?_eq_getElem hi, hci]
    have hf := (h.2 i).symm
    obtain ⟨c, hc, hcar, hcdr⟩ := fieldsAt_some_of_some hf hget
    exact ⟨c, mem_of_getElem?_eq_some hc, hcar, hcdr⟩
  refine ⟨?_, ?_, ?_⟩
  · intro c' hc'
    obtain ⟨c, hc, hcar, hcdr⟩ := hmem c' hc'
    rw [h.1, ← hcar, ← hcdr]
    exact hptr c hc
  · intro c' hc'
    obtain ⟨c, hc, hcar, hcdr⟩ := hmem c' hc'
    rw [← hcar]
    exact htag c hc
  · intro c' hc' hsh
    obtain ⟨c, hc, hcar, hcdr⟩ := hmem c' hc'
    have hsh' : isStringHead c = true := by
      unfold isStringHead at hsh ⊢
      rw [hcar, hcdr]
      exact hsh
    have := hchain c hc hsh'
    rw [h.1, chainOk_congr cs.length cs cs' h.2, ← hcdr]
    exact this

theorem chainOk_some_iff (fuel : Nat) (cs : List Cell) (j : Nat) :
    chainOk cs (fuel + 1) (some j) = true ↔
      ∃ c, cs[j]? = some c ∧ pairCar c.car = true ∧ (∃ v, c.cdr = .val v) ∧
        chainOk cs fuel (fieldPtr c.car) = true := by
  cases h : cs[j]? with
  | none => simp [chainOk, h]
  | some c =>
    simp only [chainOk, h]
    cases hcar : c.car <;> cases hcdr : c.cdr <;>
      simp [pairCar, Option.some_inj, hcar, hcdr]

theorem chainListN_mem_self (fuel : Nat) (cs : List Cell) (p : Nat)
    (h : chainOk cs fuel (some p) = true) : p ∈ chainListN cs fuel (some p) := by
  cases fuel with
  | zero => cases h
  | succ fuel =>
    obtain ⟨c, hc, _, _, _⟩ := (chainOk_some_iff fuel cs p).1 h
    rw [chainListN_some fuel cs p c hc]
    exact List.mem_cons_self _ _

/-- Along a well-formed chain, every member's cell exists, is cons-shaped
with a payload `cdr`, and its `car` link stays inside the chain. -/
theorem chainOk_mem : ∀ (fuel : Nat) (cs : List Cell) (o : Option Nat),
    chainOk cs fuel o = true →
    ∀ j ∈ chainListN cs fuel o,
      ∃ c, cs[j]? = some c ∧ pairCar c.car = true ∧ (∃ v, c.cdr = .val v) ∧
        (∀ p, c.car = .ptr p → p ∈ chainListN cs fuel o) := by
  intro fuel
  induction fuel with
  | zero =>
    intro cs o h j hj
    cases o with
    | none => cases hj
    | some j0 => cases h
  | succ fuel ih =>
    intro cs o h j hj
    cases o with
    | none => rw [chainListN_nil] at hj; cases hj
    | some j0 =>
      obtain ⟨c, hc, hpc, hv, hrest⟩ := (chainOk_some_iff fuel cs j0).1 h
      rw [chainListN_some fuel cs j0 c hc] at hj ⊢
      rcases List.mem_cons.1 hj with rfl | hj
      · refine ⟨c, hc, hpc, hv, ?_⟩
        intro p hp
        rw [hp] at hrest ⊢
        exact List.mem_cons_of_mem _ (chainListN_mem_self fuel cs p hrest)
      · obtain ⟨cj, hcj, hpcj, hvj, hlink⟩ := ih cs (fieldPtr c.car) hrest j hj
        exact ⟨cj, hcj, hpcj, hvj, fun p hp =>
          List.mem_cons_of_mem _ (hlink p hp)⟩

theorem markFuel_zero (cs : List Cell) (o : Option Nat) : markFuel 0 cs o = cs := by
  cases o <;> rfl

theorem succs_some (cs : List Cell) (i : Nat) (c : Cell) (h : cs[i]? = some c) :
    succs cs i =
      if pairCar c.car = true then ptrList c.car ++ ptrList c.cdr
      else if c.car = .val ARRAY then ptrList c.cdr
      else if isStringHead c = true then chainListN cs cs.length (fieldPtr c.cdr)
      else [] := by
  simp [succs, h]

theorem reach_congr {cs cs' : List Cell} (h : SameFields cs cs') (r x : Nat) :
    Reach cs' r x ↔ Reach cs r x := by
  have he : Edge cs' = Edge cs := by
    funext a b
    unfold Edge
    rw [succs_congr h]
  unfold Reach
  rw [he]

/-- Soundness of the marking pass: a cell marked by `markFuel` was already
marked or is reachable from the root. -/
theorem markFuel_sound : ∀ (fuel : Nat) (cs : List Cell) (o : Option Nat) (x : Nat),
    isMarked (markFuel fuel cs o) x = true →
    isMarked cs x = true ∨ ∃ r, o = some r ∧ Reach cs r x := by
  intro fuel
  induction fuel with
  | zero =>
    intro cs o x hx
    rw [markFuel_zero] at hx
    exact Or.inl hx
  | succ fuel ih =>
    intro cs o x hx
    cases o with
    | none => rw [markFuel_none] at hx; exact Or.inl hx
    | some i =>
      cases h : cs[i]? with
      | none => rw [markFuel_oor fuel cs i h] at hx; exact Or.inl hx
      | some c =>
        by_cases hm : c.mark = true
        · rw [markFuel_marked fuel cs i c h hm] at hx; exact Or.inl hx
        · have hm' : c.mark = false := by simpa using hm
          have hsf1 : SameFields cs (setMark cs i) := sameFields_setMark cs i
          have hmarked1 : ∀ y, isMarked (setMark cs i) y = true →
              isMarked cs y = true ∨ ∃ r, some i = some r ∧ Reach cs r y := by
            intro y hy
            rcases (isMarked_setMark cs i y).1 hy with hy | ⟨rfl, _⟩
            · exact Or.inl hy
            · exact Or.inr ⟨y, rfl, Relation.ReflTransGen.refl⟩
          cases hcar : c.car with
          | val t =>
            by_cases h1 : t = ARRAY
            · subst h1
              rw [markFuel_array fuel cs i c h hm' hcar] at hx
              rcases ih _ _ _ hx with hx | ⟨r, hr, hreach⟩
              · exact hmarked1 x hx
              · refine Or.inr ⟨i, rfl, Relation.ReflTransGen.head ?_
                  ((reach_congr hsf1 r x).1 hreach)⟩
                unfold Edge
                rw [succs_some cs i c h, hcar]
                have : fieldPtr c.cdr = some r := hr
                simp [pairCar, ARRAY, ptrList, this]
            · by_cases h2 : t = STRING ∨ (t = SYMBOL ∧ longnamefield c.cdr = true)
              · rw [markFuel_string fuel cs i c t h hm' hcar h2] at hx
                rcases (isMarked_markChain_iff _ _ _ _).1 hx with hx | hx
                · exact hmarked1 x hx
                · refine Or.inr ⟨i, rfl, Relation.ReflTransGen.single ?_⟩
                  unfold Edge
                  rw [succs_some cs i c h, hcar]
                  have hpc : pairCar (Field.val t) = false := rfl
                  have hsh : isStringHead c = true := by
                    unfold isStringHead
                    rw [hcar]
                    rcases h2 with rfl | ⟨rfl, hl⟩
                    · simp [STRING, SYMBOL]
                    · simp [hl]
                  have hna : ¬ (Field.val t = Field.val ARRAY) := by
                    simpa using h1
                  rw [if_neg (by simp [pairCar]), if_neg hna, if_pos hsh]
                  rw [chainListN_congr _ cs (setMark cs i) (fun z => fieldsAt_setMark cs i z)]
                    at hx
                  rw [setMark_length] at hx
                  exact hx
              · rw [markFuel_scalar fuel cs i c t h hm' hcar h1 h2] at hx
                exact hmarked1 x hx
          | null =>
            rw [markFuel_cons fuel cs i c h hm' (by rw [hcar]; rfl)] at hx
            have hsf2 : SameFields cs (markFuel fuel (setMark cs i) (fieldPtr c.car)) :=
              sameFields_trans hsf1 (sameFields_markFuel _ _ _)
            rcases ih _ _ _ hx with hx | ⟨r, hr, hreach⟩
            · rcases ih _ _ _ hx with hx | ⟨r, hr, hreach⟩
              · exact hmarked1 x hx
              · rw [hcar] at hr; simp [fieldPtr] at hr
            · refine Or.inr ⟨i, rfl, Relation.ReflTransGen.head ?_
                ((reach_congr hsf2 r x).1 hreach)⟩
              unfold Edge
              rw [succs_some cs i c h, hcar]
              have : fieldPtr c.cdr = some r := hr
              simp [pairCar, ptrList, this]
          | ptr p =>
            rw [markFuel_cons fuel cs i c h hm' (by rw [hcar]; rfl)] at hx
            have hsf2 : SameFields cs (markFuel fuel (setMark cs i) (fieldPtr c.car)) :=
              sameFields_trans hsf1 (sameFields_markFuel _ _ _)
            rcases ih _ _ _ hx with hx | ⟨r, hr, hreach⟩
            · rcases ih _ _ _ hx with hx | ⟨r, hr, hreach⟩
              · exact hmarked1 x hx
              · rw [hcar] at hr
                simp only [fieldPtr, Option.some_inj] at hr
                subst hr
                refine Or.inr ⟨i, rfl, Relation.ReflTransGen.head ?_
                  ((reach_congr hsf1 p x).1 hreach)⟩
                unfold Edge
                rw [succs_some cs i c h, hcar]
                simp [pairCar, ptrList, fieldPtr]
            · refine Or.inr ⟨i, rfl, Relation.ReflTransGen.head ?_
                ((reach_congr hsf2 r x).1 hreach)⟩
              unfold Edge
              rw [succs_some cs i c h, hcar]
              have : fieldPtr c.cdr = some r := hr
              simp [pairCar, ptrList, this]

theorem mem_ptrList {f : Field} {j : Nat} : j ∈ ptrList f ↔ fieldPtr f = some j := by
  unfold ptrList
  cases hf : fieldPtr f <;> simp [eq_comm]

theorem fieldPtr_eq_some {f : Field} {j : Nat} (h : fieldPtr f = some j) :
    f = .ptr j := by
  cases f with
  | ptr p =>
    simp only [fieldPtr, Option.some_inj] at h
    rw [h]
  | null => simp [fieldPtr] at h
  | val v => simp [fieldPtr] at h

theorem fieldOk_lt {n : Nat} {f : Field} {j : Nat} (h1 : fieldOk n f = true)
    (h2 : fieldPtr f = some j) : j < n := by
  rw [fieldPtr_eq_some h2] at h1
  simpa [fieldOk] using h1

/-- Completeness of the marking pass: marking preserves closure-modulo-`P`
of the marked set and marks the root (fuel above the number of unmarked
cells always suffices, since each recursive call first marks a cell). -/
theorem markFuel_complete : ∀ (fuel : Nat) (cs : List Cell) (o : Option Nat)
    (P : Nat → Prop), heapWF cs → unmarkedCount cs < fuel → ClosedExcept cs P →
    ClosedExcept (markFuel fuel cs o) P ∧
      ∀ r, o = some r → r < cs.length → isMarked (markFuel fuel cs o) r = true := by
  intro fuel
  induction fuel with
  | zero => intro cs o P _ hfuel _; omega
  | succ fuel ih =>
    intro cs o P hwf hfuel hcl
    cases o with
    | none =>
      rw [markFuel_none]
      exact ⟨hcl, fun r hr => by cases hr⟩
    | some i =>
      cases h : cs[i]? with
      | none =>
        rw [markFuel_oor fuel cs i h]
        refine ⟨hcl, fun r hr hrlt => ?_⟩
        cases hr
        rw [List.getElem?_eq_getElem hrlt] at h
        cases h
      | some c =>
        by_cases hm : c.mark = true
        · rw [markFuel_marked fuel cs i c h hm]
          refine ⟨hcl, fun r hr _ => ?_⟩
          cases hr
          unfold isMarked
          rw [h]
          exact hm
        · have hm' : c.mark = false := by simpa using hm
          have hilt : i < cs.length := lt_of_getElem?_eq_some h
          have hcmem := mem_of_getElem?_eq_some h
          have hsf1 : SameFields cs (setMark cs i) := sameFields_setMark cs i
          have hwf1 : heapWF (setMark cs i) := heapWF_congr hsf1 hwf
          have hfuel1 : unmarkedCount (setMark cs i) < fuel := by
            have := unmarkedCount_setMark_succ cs i c h hm'
            omega
          have hmi1 : isMarked (setMark cs i) i = true :=
            (isMarked_setMark cs i i).2 (Or.inr ⟨rfl, hilt⟩)
          have hcl1 : ClosedExcept (setMark cs i) (fun k => P k ∨ k = i) := by
            intro k hk hnk j hj
            rcases (isMarked_setMark cs i k).1 hk with hk | ⟨rfl, _⟩
            · rw [succs_congr hsf1 k] at hj
              exact (isMarked_setMark cs i j).2
                (Or.inl (hcl k hk (fun hp => hnk (Or.inl hp)) j hj))
            · exact absurd (Or.inr rfl) hnk
          by_cases hpc : pairCar c.car = true
          · -- cons cell: recurse into car, then cdr
            rw [markFuel_cons fuel cs i c h hm' hpc]
            obtain ⟨hcl2, hmk2⟩ :=
              ih (setMark cs i) (fieldPtr c.car) (fun k => P k ∨ k = i) hwf1 hfuel1 hcl1
            have hsf2 : SameFields cs (markFuel fuel (setMark cs i) (fieldPtr c.car)) :=
              sameFields_trans hsf1 (sameFields_markFuel _ _ _)
            have hwf2 := heapWF_congr hsf2 hwf
            have hfuel2 :
                unmarkedCount (markFuel fuel (setMark cs i) (fieldPtr c.car)) < fuel :=
              lt_of_le_of_lt (unmarkedCount_markFuel_le _ _ _) hfuel1
            obtain ⟨hcl3, hmk3⟩ :=
              ih (markFuel fuel (setMark cs i) (fieldPtr c.car)) (fieldPtr c.cdr)
                (fun k => P k ∨ k = i) hwf2 hfuel2 hcl2
            have hsf3 : SameFields cs
                (markFuel fuel (markFuel fuel (setMark cs i) (fieldPtr c.car))
                  (fieldPtr c.cdr)) :=
              sameFields_trans hsf2 (sameFields_markFuel _ _ _)
            have hmi3 := isMarked_markFuel_mono fuel _ (fieldPtr c.cdr) i
              (isMarked_markFuel_mono fuel _ (fieldPtr c.car) i hmi1)
            have hsuccmarked : ∀ j, j ∈ succs cs i →
                isMarked (markFuel fuel (markFuel fuel (setMark cs i) (fieldPtr c.car))
                  (fieldPtr c.cdr)) j = true := by
              intro j hj
              rw [succs_some cs i c h, if_pos hpc] at hj
              rcases List.mem_append.1 hj with hj | hj
              · have hfp : fieldPtr c.car = some j := mem_ptrList.1 hj
                have hplt : j < cs.length := fieldOk_lt (hwf.1 c hcmem).1 hfp
                refine isMarked_markFuel_mono fuel _ (fieldPtr c.cdr) j ?_
                exact hmk2 j hfp (by rw [setMark_length]; exact hplt)
              · have hfp : fieldPtr c.cdr = some j := mem_ptrList.1 hj
                have hplt : j < cs.length := fieldOk_lt (hwf.1 c hcmem).2 hfp
                refine hmk3 j hfp ?_
                rw [hsf2.1]
                exact hplt
            refine ⟨?_, fun r hr _ => by cases hr; exact hmi3⟩
            intro k hk hnk j hj
            by_cases hki : k = i
            · subst hki
              rw [succs_congr hsf3 k] at hj
              exact hsuccmarked j hj
            · refine hcl3 k hk ?_ j hj
              rintro (hp | rfl)
              · exact hnk hp
              · exact hki rfl
          · -- scalar cell: the car word is a type tag
            obtain ⟨t, hcar⟩ : ∃ t, c.car = .val t := by
              cases hcv : c.car with
              | val t => exact ⟨t, rfl⟩
              | null => rw [hcv] at hpc; exact absurd rfl hpc
              | ptr p => rw [hcv] at hpc; exact absurd rfl hpc
            by_cases h1 : t = ARRAY
            · -- ARRAY: recurse into cdr
              subst h1
              rw [markFuel_array fuel cs i c h hm' hcar]
              obtain ⟨hcl2, hmk2⟩ :=
                ih (setMark cs i) (fieldPtr c.cdr) (fun k => P k ∨ k = i) hwf1 hfuel1 hcl1
              have hsf2 : SameFields cs (markFuel fuel (setMark cs i) (fieldPtr c.cdr)) :=
                sameFields_trans hsf1 (sameFields_markFuel _ _ _)
              have hmi2 := isMarked_markFuel_mono fuel _ (fieldPtr c.cdr) i hmi1
              have hsucci : ∀ j, j ∈ succs cs i →
                  isMarked (markFuel fuel (setMark cs i) (fieldPtr c.cdr)) j = true := by
                intro j hj
                rw [succs_some cs i c h, hcar] at hj
                rw [if_neg (by simp [pairCar]), if_pos rfl] at hj
                have hfp : fieldPtr c.cdr = some j := mem_ptrList.1 hj
                have hplt : j < cs.length := fieldOk_lt (hwf.1 c hcmem).2 hfp
                exact hmk2 j hfp (by rw [setMark_length]; exact hplt)
              refine ⟨?_, fun r hr _ => by cases hr; exact hmi2⟩
              intro k hk hnk j hj
              by_cases hki : k = i
              · subst hki
                rw [succs_congr hsf2 k] at hj
                exact hsucci j hj
              · refine hcl2 k hk ?_ j hj
                rintro (hp | rfl)
                · exact hnk hp
                · exact hki rfl
            · by_cases h2 : t = STRING ∨ (t = SYMBOL ∧ longnamefield c.cdr = true)
              · -- STRING or long SYMBOL: mark the whole chain
                rw [markFuel_string fuel cs i c t h hm' hcar h2]
                have hsh : isStringHead c = true := by
                  unfold isStringHead
                  rw [hcar]
                  rcases h2 with rfl | ⟨rfl, hl⟩
                  · simp [STRING, SYMBOL]
                  · simp [hl]
                have hchainok : chainOk cs cs.length (fieldPtr c.cdr) = true :=
                  hwf.2.2 c hcmem hsh
                have hsucci : succs cs i = chainListN cs cs.length (fieldPtr c.cdr) := by
                  rw [succs_some cs i c h, hcar]
                  rw [if_neg (by simp [pairCar]), if_neg (by simpa using h1), if_pos hsh]
                have hcseq : chainListN (setMark cs i) (setMark cs i).length
                    (fieldPtr c.cdr) = chainListN cs cs.length (fieldPtr c.cdr) := by
                  rw [setMark_length,
                    chainListN_congr cs.length cs (setMark cs i)
                      (fun z => fieldsAt_setMark cs i z)]
                have hmarks : ∀ x,
                    isMarked (markChain (setMark cs i) (setMark cs i).length
                      (fieldPtr c.cdr)) x = true ↔
                    isMarked (setMark cs i) x = true ∨
                      x ∈ chainListN cs cs.length (fieldPtr c.cdr) := by
                  intro x
                  rw [isMarked_markChain_iff, hcseq]
                have hsf' : SameFields cs (markChain (setMark cs i)
                    (setMark cs i).length (fieldPtr c.cdr)) :=
                  sameFields_trans hsf1 (sameFields_markChain _ _ _)
                refine ⟨?_, fun r hr _ => by cases hr; exact (hmarks i).2 (Or.inl hmi1)⟩
                intro k hk hnk j hj
                rw [succs_congr hsf' k] at hj
                rcases (hmarks k).1 hk with hk1 | hkc
                · rcases (isMarked_setMark cs i k).1 hk1 with hk2 | ⟨rfl, _⟩
                  · exact (hmarks j).2 (Or.inl ((isMarked_setMark cs i j).2
                      (Or.inl (hcl k hk2 hnk j hj))))
                  · rw [hsucci] at hj
                    exact (hmarks j).2 (Or.inr hj)
                · obtain ⟨ck, hck, hpck, ⟨v, hv⟩, hlink⟩ :=
                    chainOk_mem cs.length cs (fieldPtr c.cdr) hchainok k hkc
                  rw [succs_some cs k ck hck, if_pos hpck] at hj
                  rcases List.mem_append.1 hj with hj | hj
                  · have hfp : fieldPtr ck.car = some j := mem_ptrList.1 hj
                    exact (hmarks j).2 (Or.inr (hlink j (fieldPtr_eq_some hfp)))
                  · rw [hv] at hj
                    simp [ptrList, fieldPtr] at hj
              · -- other scalars: no children
                rw [markFuel_scalar fuel cs i c t h hm' hcar h1 h2]
                have hsucci : succs cs i = [] := by
                  have hshf : isStringHead c = false := by
                    unfold isStringHead
                    rw [hcar]
                    have hts : ¬ t = STRING := fun hh => h2 (Or.inl hh)
                    by_cases hsym : t = SYMBOL
                    · have hnl : ¬ longnamefield c.cdr = true :=
                        fun hl => h2 (Or.inr ⟨hsym, hl⟩)
                      simp [hts, hsym, hnl, SYMBOL, STRING]
                    · simp [hts, hsym]
                  rw [succs_some cs i c h, hcar]
                  rw [if_neg (by simp [pairCar]), if_neg (by simpa using h1),
                    if_neg (by simp [hshf])]
                refine ⟨?_, fun r hr _ => by cases hr; exact hmi1⟩
                intro k hk hnk j hj
                rw [succs_congr hsf1 k] at hj
                rcases (isMarked_setMark cs i k).1 hk with hk1 | ⟨rfl, _⟩
                · exact (isMarked_setMark cs i j).2 (Or.inl (hcl k hk1 hnk j hj))
                · rw [hsucci] at hj
                  cases hj

theorem allUnmarked_isMarked {cs : List Cell} (h : allUnmarked cs) (x : Nat) :
    isMarked cs x = false := by
  unfold isMarked
  cases hc : cs[x]? with
  | none => rfl
  | some c => exact h c (mem_of_getElem?_eq_some hc)

/-- The five-root mark phase of `gc` marks exactly the cells reachable from
the roots, provided the heap is well-formed and starts fully unmarked. -/
theorem markPhase_marked (cs : List Cell) (tee genv gcs form env : Option Nat)
    (hwf : heapWF cs) (hum : allUnmarked cs)
    (hroots : ∀ o ∈ [tee, genv, gcs, form, env], rootOk cs.length o) :
    ∀ x, isMarked (markobject (markobject (markobject (markobject
        (markobject cs tee) genv) gcs) form) env) x = true ↔
      RootsReach cs [tee, genv, gcs, form, env] x := by
  have hsf1 : SameFields cs (markobject cs tee) := sameFields_markFuel _ _ _
  have hsf2 : SameFields cs (markobject (markobject cs tee) genv) :=
    sameFields_trans hsf1 (sameFields_markFuel _ _ _)
  have hsf3 : SameFields cs (markobject (markobject (markobject cs tee) genv) gcs) :=
    sameFields_trans hsf2 (sameFields_markFuel _ _ _)
  have hsf4 : SameFields cs (markobject (markobject (markobject
      (markobject cs tee) genv) gcs) form) :=
    sameFields_trans hsf3 (sameFields_markFuel _ _ _)
  have hsf5 : SameFields cs (markobject (markobject (markobject (markobject
      (markobject cs tee) genv) gcs) form) env) :=
    sameFields_trans hsf4 (sameFields_markFuel _ _ _)
  intro x
  constructor
  · -- soundness
    intro hx
    unfold markobject at hx
    rcases markFuel_sound _ _ _ _ hx with hx | ⟨r, rfl, hr⟩
    · rcases markFuel_sound _ _ _ _ hx with hx | ⟨r, rfl, hr⟩
      · rcases markFuel_sound _ _ _ _ hx with hx | ⟨r, rfl, hr⟩
        · rcases markFuel_sound _ _ _ _ hx with hx | ⟨r, rfl, hr⟩
          · rcases markFuel_sound _ _ _ _ hx with hx | ⟨r, rfl, hr⟩
            · rw [allUnmarked_isMarked hum x] at hx; cases hx
            · exact ⟨r, by simp, hr⟩
          · exact ⟨r, by simp, (reach_congr hsf1 r x).1 hr⟩
        · exact ⟨r, by simp, (reach_congr hsf2 r x).1 hr⟩
      · exact ⟨r, by simp, (reach_congr hsf3 r x).1 hr⟩
    · exact ⟨r, by simp, (reach_congr hsf4 r x).1 hr⟩
  · -- completeness
    intro ⟨r, hrmem, hreach⟩
    have hcl0 : ClosedExcept cs (fun _ => False) := by
      intro k hk
      rw [allUnmarked_isMarked hum k] at hk
      cases hk
    obtain ⟨hcl1, hmk1⟩ := markFuel_complete (unmarkedCount cs + 1) cs tee
      (fun _ => False) hwf (by omega) hcl0
    obtain ⟨hcl2, hmk2⟩ := markFuel_complete
      (unmarkedCount (markobject cs tee) + 1) (markobject cs tee) genv
      (fun _ => False) (heapWF_congr hsf1 hwf) (by omega) hcl1
    obtain ⟨hcl3, hmk3⟩ := markFuel_complete
      (unmarkedCount (markobject (markobject cs tee) genv) + 1)
      (markobject (markobject cs tee) genv)
      gcs (fun _ => False) (heapWF_congr hsf2 hwf) (by omega) hcl2
    obtain ⟨hcl4, hmk4⟩ := markFuel_complete
      (unmarkedCount (markobject (markobject (markobject cs tee) genv) gcs) + 1)
      (markobject (markobject (markobject cs tee) genv) gcs) form
      (fun _ => False) (heapWF_congr hsf3 hwf) (by omega) hcl3
    obtain ⟨hcl5, hmk5⟩ := markFuel_complete
      (unmarkedCount (markobject (markobject (markobject
        (markobject cs tee) genv) gcs) form) + 1)
      (markobject (markobject (markobject (markobject cs tee) genv) gcs) form) env
      (fun _ => False) (heapWF_congr hsf4 hwf) (by omega) hcl4
    have hrlt : r < cs.length := by
      have := hroots (some r)
      simp only [List.mem_cons, List.not_mem_nil, or_false] at this hrmem
      exact this hrmem
    have hrmarked : isMarked (markobject (markobject (markobject (markobject
        (markobject cs tee) genv) gcs) form) env) r = true := by
      simp only [List.mem_cons, List.not_mem_nil, or_false] at hrmem
      rcases hrmem with rfl | rfl | rfl | rfl | rfl
      · exact isMarked_markFuel_mono _ _ _ _ (isMarked_markFuel_mono _ _ _ _
          (isMarked_markFuel_mono _ _ _ _ (isMarked_markFuel_mono _ _ _ _
            (hmk1 r rfl hrlt))))
      · exact isMarked_markFuel_mono _ _ _ _ (isMarked_markFuel_mono _ _ _ _
          (isMarked_markFuel_mono _ _ _ _ (hmk2 r rfl (by rw [hsf1.1]; exact hrlt))))
      · exact isMarked_markFuel_mono _ _ _ _ (isMarked_markFuel_mono _ _ _ _
          (hmk3 r rfl (by rw [hsf2.1]; exact hrlt)))
      · exact isMarked_markFuel_mono _ _ _ _ (hmk4 r rfl (by rw [hsf3.1]; exact hrlt))
      · exact hmk5 r rfl (by rw [hsf4.1]; exact hrlt)
    clear hrmem
    induction hreach with
    | refl => exact hrmarked
    | tail hab hbc ihm =>
      refine hcl5 _ ihm (fun hf => hf) _ ?_
      unfold Edge at hbc
      show _ ∈ succs (markobject (markobject (markobject (markobject
        (markobject cs tee) genv) gcs) form) env) _
      rwa [succs_congr hsf5]

/-- Claim C1: running a mark-and-sweep collection (`gc`) on a well-formed,
fully unmarked heap leaves every cell that was reachable from the roots
{t, GlobalEnv, GCStack, current form, current environment} allocated and
structurally unchanged (same `car` and `cdr`, mark bit clear), and places
exactly the cells that were not reachable on the rebuilt free list. -/
theorem gc_spec (ws : WState) (tee genv gcs form env : Option Nat)
    (hwf : heapWF ws.cells) (hum : allUnmarked ws.cells)
    (hroots : ∀ o ∈ [tee, genv, gcs, form, env], rootOk ws.cells.length o) :
    (∀ i, RootsReach ws.cells [tee, genv, gcs, form, env] i →
      ∃ c, ws.cells[i]? = some c ∧
        (gc tee genv gcs form env ws).cells[i]? = some { c with mark := false }) ∧
    (∃ L, FreelistIs (gc tee genv gcs form env ws).cells
        (gc tee genv gcs form env ws).freelist L ∧
      (gc tee genv gcs form env ws).freespace = L.length ∧
      (∀ i, i < ws.cells.length →
        (i ∈ L ↔ ¬ RootsReach ws.cells [tee, genv, gcs, form, env] i))) := by
  classical
  set cs := ws.cells with hcs
  set csm := markobject (markobject (markobject (markobject
      (markobject cs tee) genv) gcs) form) env with hcsm
  have hsf : SameFields cs csm := by
    rw [hcsm]
    exact sameFields_trans (sameFields_trans (sameFields_trans (sameFields_trans
      (sameFields_markFuel _ _ _) (sameFields_markFuel _ _ _))
      (sameFields_markFuel _ _ _)) (sameFields_markFuel _ _ _))
      (sameFields_markFuel _ _ _)
  have hmarks := markPhase_marked cs tee genv gcs form env hwf hum hroots
  have hgceq : gc tee genv gcs form env ws =
      sweepAux csm.length { cells := csm, freelist := none, freespace := 0 } := by
    rw [gc, sweep]
  obtain ⟨hslen, hsfl, hsfs, hshi, hsmk, hsum⟩ :=
    sweepAux_spec csm.length { cells := csm, freelist := none, freespace := 0 } []
      (le_refl _) rfl (by intro j hj; cases hj)
  constructor
  · intro i hi
    have hmi : isMarked csm i = true := (hmarks i).2 hi
    obtain ⟨c', hc', hc'm⟩ : ∃ c', csm[i]? = some c' ∧ c'.mark = true := by
      unfold isMarked at hmi
      cases hc : csm[i]? with
      | none => rw [hc] at hmi; cases hmi
      | some c' => rw [hc] at hmi; exact ⟨c', rfl, hmi⟩
    have hfa : fieldsAt cs i = fieldsAt csm i := (hsf.2 i).symm
    obtain ⟨c, hcget, hcar, hcdr⟩ := fieldsAt_some_of_some hfa hc'
    refine ⟨c, hcget, ?_⟩
    rw [hgceq]
    have hilt : i < csm.length := lt_of_getElem?_eq_some hc'
    have := hsmk i c' hilt hc' hc'm
    rw [this]
    have : ({ c' with mark := false } : Cell) = { c with mark := false } := by
      cases c
      cases c'
      simp only [Cell.mk.injEq] at hcar hcdr ⊢
      exact ⟨hcar.symm, hcdr.symm, trivial⟩
    rw [this]
  · refine ⟨(List.range csm.length).filter (fun z => !isMarked csm z), ?_, ?_, ?_⟩
    · rw [hgceq]
      simpa using hsfl
    · rw [hgceq]
      simpa using hsfs
    · intro i hilt
      have hin : i < csm.length := by rw [hsf.1]; exact hilt
      constructor
      · intro hmem hreach
        have := (List.mem_filter.1 hmem).2
        rw [(hmarks i).2 hreach] at this
        cases this
      · intro hnr
        refine List.mem_filter.2 ⟨List.mem_range.2 hin, ?_⟩
        cases hmi : isMarked csm i with
        | false => rfl
        | true => exact absurd ((hmarks i).1 hmi) hnr

theorem gc_spec_witness :
    (∀ i, RootsReach [⟨.ptr 1, .null, false⟩, ⟨.val NUMBER, .val 5, false⟩,
        ⟨.val NUMBER, .val 9, false⟩] [some 0, none, none, none, none] i →
      ∃ c, ([⟨.ptr 1, .null, false⟩, ⟨.val NUMBER, .val 5, false⟩,
          ⟨.val NUMBER, .val 9, false⟩] : List Cell)[i]? = some c ∧
        (gc (some 0) none none none none
          ⟨[⟨.ptr 1, .null, false⟩, ⟨.val NUMBER, .val 5, false⟩,
            ⟨.val NUMBER, .val 9, false⟩], none, 0⟩).cells[i]? =
          some { c with mark := false }) ∧
    (∃ L, FreelistIs (gc (some 0) none none none none
          ⟨[⟨.ptr 1, .null, false⟩, ⟨.val NUMBER, .val 5, false⟩,
            ⟨.val NUMBER, .val 9, false⟩], none, 0⟩).cells
        (gc (some 0) none none none none
          ⟨[⟨.ptr 1, .null, false⟩, ⟨.val NUMBER, .val 5, false⟩,
            ⟨.val NUMBER, .val 9, false⟩], none, 0⟩).freelist L ∧
      (gc (some 0) none none none none
          ⟨[⟨.ptr 1, .null, false⟩, ⟨.val NUMBER, .val 5, false⟩,
            ⟨.val NUMBER, .val 9, false⟩], none, 0⟩).freespace = L.length ∧
      (∀ i, i < ([⟨.ptr 1, .null, false⟩, ⟨.val NUMBER, .val 5, false⟩,
          ⟨.val NUMBER, .val 9, false⟩] : List Cell).length →
        (i ∈ L ↔ ¬ RootsReach [⟨.ptr 1, .null, false⟩, ⟨.val NUMBER, .val 5, false⟩,
          ⟨.val NUMBER, .val 9, false⟩] [some 0, none, none, none, none] i))) :=
  gc_spec ⟨[⟨.ptr 1, .null, false⟩, ⟨.val NUMBER, .val 5, false⟩,
      ⟨.val NUMBER, .val 9, false⟩], none, 0⟩
    (some 0) none none none none (by decide) (by decide) (by decide)

/-! ### Claims C5 and C6: closure capture and `let`/`let*` binding -/

/-- The environment copy keeps exactly the non-marker entries of the
defining environment, in reverse order, as the *same* binding-pair
references (no pair is re-allocated, so the cells' contents stay
shared). -/
theorem envEntries_envCopy (env acc : V) :
    envEntries (envCopy env acc)
      = ((envEntries env).filter (fun p => p ≠ V.vnil)).reverse
          ++ envEntries acc := by
  induction env generalizing acc with
  | vcons p rest ihp ihr =>
    by_cases hp : p = V.vnil
    · subst hp
      simp [envCopy, envEntries, ihr]
    · simp [envCopy, envEntries, ihr, hp]
  | _ => simp [envCopy, envEntries]

/-- **C5.** Creating a closure shallow-copies the frame chain of the
defining environment while the binding cells stay shared, and a mutation
of a captured variable after closure creation is observed: (i) evaluating
a `lambda` form in a non-empty environment yields
`cons(closure-symbol, cons(envcopy, args))` with the state unchanged
(nothing but the chain itself is copied); (ii) `envcopy` holds exactly the
non-marker binding-pair references of the defining environment (the same
mutable pairs, in reverse order); (iii) evaluating
`(let ((x 1)) (defun get-x () x) (setq x 2) (get-x))` returns `2`. -/
theorem closure_capture_spec :
    (∀ (fuel tc : Nat) (env args : V) (st : ESt),
      listpV args = true → env ≠ .vnil →
        evalV (fuel + 1) tc (.vcons (.vsym (sym LAMBDA)) args) env st
          = .ok (.vcons (.vsym (sym CLOSURE))
              (.vcons (envCopy env .vnil) args), st)) ∧
    (∀ env : V, envEntries (envCopy env .vnil)
      = ((envEntries env).filter (fun p => p ≠ V.vnil)).reverse) ∧
    (∃ st, evalV 64 0 closureEx .vnil ⟨[], .vnil⟩ = .ok (.vnum 2, st)) := by
  refine ⟨?_, ?_, ⟨_, rfl⟩⟩
  · intro fuel tc env args st h h2
    have e : evalV (fuel + 1) tc (.vcons (.vsym (sym LAMBDA)) args) env st
        = if listpV args = true then
            (if env = .vnil then .ok (.vcons (.vsym (sym LAMBDA)) args, st)
             else .ok (.vcons (.vsym (sym CLOSURE))
                 (.vcons (envCopy env .vnil) args), st))
          else .error .dottedPair := rfl
    rw [e, if_pos h, if_neg h2]
  · intro env
    simpa [envEntries] using envEntries_envCopy env .vnil

theorem closure_capture_spec_witness :
    listpV (.vcons (.vcons xSym .vnil) .vnil) = true ∧
    (V.vcons .vnil .vnil) ≠ .vnil ∧
    evalV 5 0 (.vcons (.vsym (sym LAMBDA)) (.vcons (.vcons xSym .vnil) .vnil))
        (.vcons .vnil .vnil) ⟨[], .vnil⟩
      = .ok (.vcons (.vsym (sym CLOSURE))
          (.vcons (envCopy (.vcons .vnil .vnil) .vnil)
            (.vcons (.vcons xSym .vnil) .vnil)), ⟨[], .vnil⟩) :=
  ⟨rfl, by decide,
    closure_capture_spec.1 4 0 (.vcons .vnil .vnil)
      (.vcons (.vcons xSym .vnil) .vnil) ⟨[], .vnil⟩ rfl (by decide)⟩

/-- **C6.** `let` binds its variables simultaneously (every initialiser is
evaluated in the environment outside the `let`) while `let*` binds
sequentially: in every environment and with every global environment (in
particular wherever `x` is otherwise unbound),
`(let ((x 1)) (let ((x 2)) x))` evaluates to `2` and
`(let* ((x 1) (y x)) y)` evaluates to `1`; moreover, under an outer
binding `x = 5`, the inner `(let ((x 1) (y x)) y)` still gives `y` the
outer value `5`, while `(let* ((x 1) (y x)) y)` gives it the new value
`1`. -/
theorem let_letstar_spec :
    ∀ (env genv : V),
      (∃ st, evalV 64 0 letEx1 env ⟨[], genv⟩ = .ok (.vnum 2, st)) ∧
      (∃ st, evalV 64 0 letEx2 env ⟨[], genv⟩ = .ok (.vnum 1, st)) ∧
      (∃ st, evalV 64 0 letEx3 env ⟨[], genv⟩ = .ok (.vnum 5, st)) ∧
      (∃ st, evalV 64 0 letEx4 env ⟨[], genv⟩ = .ok (.vnum 1, st)) :=
  fun _ _ => ⟨⟨_, rfl⟩, ⟨_, rfl⟩, ⟨_, rfl⟩, ⟨_, rfl⟩⟩

/-! ### Reader/printer lemmas (claim C3) -/

theorem atomAccum_append (base : Nat) (l1 l2 : List Nat) (acc : Nat) :
    atomAccum base (l1 ++ l2) acc = atomAccum base l2 (atomAccum base l1 acc) := by
  induction l1 generalizing acc with
  | nil => rfl
  | cons c cs ih => simp [atomAccum, ih]

theorem tokenOkChar_props {c : Nat} (h : tokenOkChar c = true) :
    issp c = false ∧ isbr c = false ∧ c ≠ 0 ∧ c ≤ 255 := by
  simp only [tokenOkChar, Bool.and_eq_true, Bool.not_eq_true',
    decide_eq_true_eq] at h
  exact ⟨h.1.1.1, h.1.1.2, h.1.2, h.2⟩

theorem issp_not_isbr {c : Nat} (h : issp c = true) : isbr c = false := by
  simp [issp] at h
  rcases h with h | h | h | h <;> simp [isbr, h]

theorem tokLoop_stop_sp {ch : Nat} (input buf : List Nat) (idx res : Nat)
    (isnum : Bool) (base : Nat) (h : issp ch = true) :
    tokLoop ch input buf idx res isnum base = (buf.reverse, res, isnum, input) := by
  rw [tokLoop]
  simp [h]

theorem tokLoop_stop_br {ch : Nat} (input buf : List Nat) (idx res : Nat)
    (isnum : Bool) (base : Nat) (h1 : issp ch = false) (h2 : isbr ch = true) :
    tokLoop ch input buf idx res isnum base
      = (buf.reverse, res, isnum, ch :: input) := by
  rw [tokLoop]
  simp [h1, h2]

theorem tokLoop_last {ch : Nat} (buf : List Nat) (idx res : Nat)
    (isnum : Bool) (base : Nat) (h1 : issp ch = false) (h2 : isbr ch = false)
    (h3 : idx < 21) :
    tokLoop ch [] buf idx res isnum base
      = ((ch :: buf).reverse, (res * base + digitvalue ch) % 65536,
         isnum && decide (digitvalue ch < base), []) := by
  rw [tokLoop]
  simp [h1, h2, Nat.not_le.2 h3]

theorem tokLoop_step {ch : Nat} (c : Nat) (r buf : List Nat) (idx res : Nat)
    (isnum : Bool) (base : Nat) (h1 : issp ch = false) (h2 : isbr ch = false)
    (h3 : idx < 21) :
    tokLoop ch (c :: r) buf idx res isnum base
      = tokLoop c r (ch :: buf) (idx + 1) ((res * base + digitvalue ch) % 65536)
          (isnum && decide (digitvalue ch < base)) base := by
  rw [tokLoop]
  simp [h1, h2, Nat.not_le.2 h3]

theorem tokLoop_run (tok : List Nat) : ∀ (t : Nat) (rest buf : List Nat)
    (idx res : Nat) (isnum : Bool) (base : Nat),
    tokenOkChar t = true → tok.all tokenOkChar = true →
    idx + tok.length < 21 → delimB rest = true →
    tokLoop t (tok ++ rest) buf idx res isnum base
      = (buf.reverse ++ t :: tok, atomAccum base (t :: tok) res,
         isnum && (t :: tok).all (fun c => decide (digitvalue c < base)),
         dropDelim rest) := by
  induction tok with
  | nil =>
    intro t rest buf idx res isnum base ht _ hlen hrest
    obtain ⟨hsp, hbr, _, _⟩ := tokenOkChar_props ht
    have hidx : idx < 21 := by simp at hlen; omega
    match rest with
    | [] =>
      rw [List.nil_append, tokLoop_last _ _ _ _ _ hsp hbr hidx]
      simp [atomAccum, dropDelim]
    | c :: r =>
      rw [List.nil_append, tokLoop_step c r _ _ _ _ _ hsp hbr hidx]
      simp only [delimB, Bool.or_eq_true] at hrest
      rcases hrest with hc | hc
      · rw [tokLoop_stop_sp _ _ _ _ _ _ hc]
        simp [atomAccum, dropDelim, hc]
      · by_cases hc1 : issp c = true
        · rw [tokLoop_stop_sp _ _ _ _ _ _ hc1]
          simp [atomAccum, dropDelim, hc1]
        · rw [tokLoop_stop_br _ _ _ _ _ _ (by simp [hc1]) hc]
          simp [atomAccum, dropDelim, Bool.not_eq_true _ ▸ hc1]
  | cons u us ih =>
    intro t rest buf idx res isnum base ht htok hlen hrest
    obtain ⟨hsp, hbr, _, _⟩ := tokenOkChar_props ht
    have hidx : idx < 21 := by simp at hlen; omega
    simp only [List.all_cons, Bool.and_eq_true] at htok
    rw [List.cons_append, tokLoop_step u (us ++ rest) _ _ _ _ _ hsp hbr hidx]
    rw [ih u rest (t :: buf) (idx + 1) _ _ base htok.1 (by simp [htok.2])
      (by simp at hlen ⊢; omega) hrest]
    simp [atomAccum, Bool.and_assoc]

theorem digitvalue_digit (j : Nat) (h : j < 10) : digitvalue (j + 48) = j := by
  unfold digitvalue
  rw [if_pos ⟨by omega, by omega⟩]
  omega

theorem pbLoop_cons (d : Nat) (ds : List Nat) (i : Nat) (lead : Bool) :
    pbLoop (d :: ds) i lead
      = (if (decide (i / d ≠ 0) || lead || decide (d = 1) : Bool) then
           [if i / d < 10 then i / d + 48 else i / d + 87] else [])
          ++ pbLoop ds (i - i / d * d)
              (decide (i / d ≠ 0) || lead || decide (d = 1)) := rfl

theorem pintbase10_spec (m : Nat) (hm : m < 65536) :
    pintbaseM m 10 ≠ [] ∧ (∀ c ∈ pintbaseM m 10, 48 ≤ c ∧ c ≤ 57) ∧
    atomAccum 10 (pintbaseM m 10) 0 = m ∧ (pintbaseM m 10).length ≤ 5 := by
  have e : pintbaseM m 10 = pbLoop [10000, 1000, 100, 10, 1] m false := by
    simp [pintbaseM, pbDivs]
  have h4 : m / 10000 < 10 := by omega
  have h3 : m % 10000 / 1000 < 10 := by omega
  have h2 : m % 1000 / 100 < 10 := by omega
  have h1 : m % 100 / 10 < 10 := by omega
  have h0 : m % 10 < 10 := by omega
  have r4 : m - m / 10000 * 10000 = m % 10000 := by omega
  have r3 : m % 10000 - m % 10000 / 1000 * 1000 = m % 1000 := by omega
  have r2 : m % 1000 - m % 1000 / 100 * 100 = m % 100 := by omega
  have r1 : m % 100 - m % 100 / 10 * 10 = m % 10 := by omega
  rw [e]
  rcases (by omega :
      10000 ≤ m ∨ 1000 ≤ m ∧ m < 10000 ∨ 100 ≤ m ∧ m < 1000 ∨
        10 ≤ m ∧ m < 100 ∨ m < 10) with h | h | h | h | h
  · have e4 : m / 10000 ≠ 0 := by omega
    simp only [pbLoop_cons, r4, r3, r2, r1]
    norm_num [e4, if_pos h4, if_pos h3, if_pos h2, if_pos h1, if_pos h0,
      pbLoop, atomAccum, digitvalue_digit _ h4, digitvalue_digit _ h3,
      digitvalue_digit _ h2, digitvalue_digit _ h1, digitvalue_digit _ h0]
    exact ⟨by simp, by omega, by omega⟩
  · have e4 : m / 10000 = 0 := by omega
    have e3 : m % 10000 / 1000 ≠ 0 := by omega
    simp only [pbLoop_cons, r4, r3, r2, r1]
    norm_num [e4, e3, if_pos h3, if_pos h2, if_pos h1, if_pos h0,
      pbLoop, atomAccum, digitvalue_digit _ h3,
      digitvalue_digit _ h2, digitvalue_digit _ h1, digitvalue_digit _ h0]
    exact ⟨by simp, by omega, by omega⟩
  · have e4 : m / 10000 = 0 := by omega
    have e3 : m % 10000 / 1000 = 0 := by omega
    have e2 : m % 1000 / 100 ≠ 0 := by omega
    simp only [pbLoop_cons, r4, r3, r2, r1]
    norm_num [e4, e3, e2, if_pos h2, if_pos h1, if_pos h0,
      pbLoop, atomAccum, digitvalue_digit _ h2, digitvalue_digit _ h1,
      digitvalue_digit _ h0]
    exact ⟨by simp, by omega, by omega⟩
  · have e4 : m / 10000 = 0 := by omega
    have e3 : m % 10000 / 1000 = 0 := by omega
    have e2 : m % 1000 / 100 = 0 := by omega
    have e1 : m % 100 / 10 ≠ 0 := by omega
    simp only [pbLoop_cons, r4, r3, r2, r1]
    norm_num [e4, e3, e2, e1, if_pos h1, if_pos h0, pbLoop, atomAccum,
      digitvalue_digit _ h1, digitvalue_digit _ h0]
    exact ⟨by simp, by omega, by omega⟩
  · have e4 : m / 10000 = 0 := by omega
    have e3 : m % 10000 / 1000 = 0 := by omega
    have e2 : m % 1000 / 100 = 0 := by omega
    have e1 : m % 100 / 10 = 0 := by omega
    simp only [pbLoop_cons, r4, r3, r2, r1]
    norm_num [e4, e3, e2, e1, if_pos h0, pbLoop, atomAccum,
      digitvalue_digit _ h0]
    omega

theorem digit_tokenOk {c : Nat} (h1 : 48 ≤ c) (h2 : c ≤ 57) :
    tokenOkChar c = true := by
  simp [tokenOkChar, issp, isbr]
  omega

theorem finishToken_run (t : Nat) (tok rest buf : List Nat) (idx : Nat)
    (base : Nat) (neg : Bool) (ht : tokenOkChar t = true)
    (htok : tok.all tokenOkChar = true) (hlen : idx + tok.length < 21)
    (hrest : delimB rest = true) :
    finishToken base neg buf idx t (tok ++ rest)
      = postToken base neg (buf.reverse ++ t :: tok)
          (atomAccum base (t :: tok) 0)
          ((t :: tok).all fun c => decide (digitvalue c < base))
          (dropDelim rest) := by
  unfold finishToken
  rw [tokLoop_run tok t rest buf idx 0 _ base ht htok hlen hrest]
  have : (decide (digitvalue t < base) &&
        (t :: tok).all fun c => decide (digitvalue c < base))
      = (t :: tok).all fun c => decide (digitvalue c < base) := by
    simp [List.all_cons, ← Bool.and_assoc]
  rw [this]

theorem nextitem_print_num (n : Int) (hlo : -32768 ≤ n) (hhi : n ≤ 32767)
    (rest : List Nat) (hrest : delimB rest = true) :
    nextitemM (pintM n ++ rest) = .ok (.obj (.num n), dropDelim rest) := by
  have hm : n.natAbs % 65536 = n.natAbs := by
    apply Nat.mod_eq_of_lt
    omega
  obtain ⟨hne, hdig, hacc, hfive⟩ := pintbase10_spec (n.natAbs % 65536)
    (by omega)
  match hds : pintbaseM (n.natAbs % 65536) 10 with
  | [] => exact absurd hds hne
  | d :: ds =>
    rw [hds] at hdig hacc hfive
    have hd := hdig d (by simp)
    have hdok : tokenOkChar d = true := digit_tokenOk hd.1 hd.2
    have hdsok : ds.all tokenOkChar = true := by
      simp only [List.all_eq_true]
      intro c hc
      have := hdig c (by simp [hc])
      exact digit_tokenOk this.1 this.2
    have hsp : issp d = false := (tokenOkChar_props hdok).1
    have hdn : ∀ p : Nat, 34 ≤ p → p ≤ 46 → d ≠ p := by omega
    have hlen5 : ds.length ≤ 4 := by simp at hfive; omega
    have hisnum : (d :: ds).all (fun c => decide (digitvalue c < 10)) = true := by
      simp only [List.all_eq_true]
      intro c hc
      have h := hdig c hc
      have hdv : digitvalue c = c - 48 := by
        unfold digitvalue
        rw [if_pos ⟨h.1, h.2⟩]
      simp [hdv]
      omega
    rcases (by omega : 0 ≤ n ∧ n.natAbs ≤ 32767 ∨ n < 0 ∧ 1 ≤ n.natAbs ∧
        n.natAbs ≤ 32768) with ⟨hn, habs⟩ | ⟨hn, habs1, habs⟩
    · -- no sign: pintM n = digits
      have hp : pintM n = d :: ds := by
        simp only [pintM, if_neg (by omega : ¬ n < 0), hds, List.nil_append]
      rw [hp]
      rw [show (d :: ds) ++ rest = d :: (ds ++ rest) from rfl]
      unfold nextitemM
      rw [show skipSpaces (d :: (ds ++ rest)) = some (d, ds ++ rest) by
        unfold skipSpaces; simp [hsp]]
      simp only [show d ≠ 59 by omega, show d ≠ 41 by omega,
        show d ≠ 40 by omega, show d ≠ 39 by omega, show d ≠ 46 by omega,
        show d ≠ 34 by omega, show ¬(d = 43 ∨ d = 45) by omega,
        show d ≠ 35 by omega, if_false, if_neg, reduceIte]
      rw [finishToken_run d ds rest [] 0 10 false hdok hdsok (by omega) hrest]
      unfold postToken
      rw [if_pos hisnum, hacc]
      rw [if_neg (by simp; omega)]
      have hz : toSigned16 n.natAbs = n := by
        unfold toSigned16
        rw [if_pos (by omega)]
        omega
      simp [hm, hz]
    · -- sign branch: pintM n = '-' :: digits
      have hp : pintM n = 45 :: (d :: ds) := by
        simp only [pintM, if_pos (by omega : n < 0), hds]
        rfl
      rw [hp]
      rw [show (45 :: (d :: ds)) ++ rest = 45 :: (d :: (ds ++ rest)) from rfl]
      unfold nextitemM
      rw [show skipSpaces (45 :: (d :: (ds ++ rest)))
          = some (45, d :: (ds ++ rest)) by unfold skipSpaces; simp [issp]]
      norm_num
      rw [show pull (d :: (ds ++ rest)) = (d, ds ++ rest) from rfl]
      rw [finishToken_run d ds rest [45] 1 10 true hdok hdsok (by omega) hrest]
      unfold postToken
      rw [if_pos hisnum, hacc]
      rw [if_neg (by simp; omega)]
      have hz : toSigned16 (n.natAbs * 65535) = n := by
        unfold toSigned16
        rw [show n.natAbs * 65535 % 65536 = 65536 - n.natAbs by
          have h2 : n.natAbs * 65535 = n.natAbs * 65536 - n.natAbs := by
            ring_nf
            omega
          omega]
        rw [if_neg (by omega)]
        omega
      simp [hm, hz]

theorem nextitem_print_chartok (f : Nat) (nt rest : List Nat)
    (hf : tokenOkChar f = true) (hnt : nt.all tokenOkChar = true)
    (hlen : nt.length < 21) (hrest : delimB rest = true) :
    nextitemM ((35 :: 92 :: f :: nt) ++ rest)
      = charToken (f :: nt) (dropDelim rest) := by
  obtain ⟨hsp, hbr, _, _⟩ := tokenOkChar_props hf
  unfold nextitemM
  rw [show skipSpaces ((35 :: 92 :: f :: nt) ++ rest)
      = some (35, (92 :: f :: nt) ++ rest) from by
    unfold skipSpaces
    norm_num [issp]]
  norm_num [pull, hsp, hbr]
  rw [finishToken_run f nt rest [] 0 0 false hf hnt (by omega) hrest]
  unfold postToken
  rw [show ((f :: nt).all fun c => decide (digitvalue c < 0)) = false from by
    simp]
  norm_num

theorem eqCaseB_cons_false {a b : Nat} (as bs : List Nat)
    (h : lowerB a ≠ lowerB b) : eqCaseB (a :: as) (b :: bs) = false := by
  simp [eqCaseB, h]

theorem controlIdx_digit_none (t : Nat) (ts : List Nat) (h1 : 48 ≤ t)
    (h2 : t ≤ 57) : controlIdx (t :: ts) = none := by
  unfold controlIdx
  rw [List.findIdx?_eq_none_iff]
  intro nm hnm
  have ht : lowerB t = t := by
    unfold lowerB
    rw [if_neg (by omega)]
  fin_cases hnm <;>
    exact eqCaseB_cons_false _ _ (by rw [ht]; simp [lowerB]; omega)

theorem pintbase3_digits (m : Nat) (h1 : 100 ≤ m) (h2 : m < 1000) :
    pintbaseM m 10 = [m / 100 + 48, m % 100 / 10 + 48, m % 10 + 48] := by
  have e : pintbaseM m 10 = pbLoop [10000, 1000, 100, 10, 1] m false := by
    simp [pintbaseM, pbDivs]
  have e4 : m / 10000 = 0 := by omega
  have e3 : m % 10000 / 1000 = 0 := by omega
  have e2 : m % 1000 / 100 ≠ 0 := by omega
  have h2' : m % 1000 / 100 < 10 := by omega
  have h1' : m % 100 / 10 < 10 := by omega
  have h0' : m % 10 < 10 := by omega
  have r4 : m - m / 10000 * 10000 = m % 10000 := by omega
  have r3 : m % 10000 - m % 10000 / 1000 * 1000 = m % 1000 := by omega
  have r2 : m % 1000 - m % 1000 / 100 * 100 = m % 100 := by omega
  have r1 : m % 100 - m % 100 / 10 * 10 = m % 10 := by omega
  rw [e]
  simp only [pbLoop_cons, r4, r3, r2, r1]
  norm_num [e4, e3, e2, if_pos h2', if_pos h1', if_pos h0', pbLoop]
  all_goals omega

theorem nextitem_print_chr (c : Nat) (hc : c ≤ 255) (rest : List Nat)
    (hrest : delimB rest = true) :
    ∃ rest', nextitemM (pcharacterM c ++ rest) = .ok (.obj (.chr c), rest') ∧
      (rest' = rest ∨ rest' = dropDelim rest) := by
  rcases (by omega : c ≤ 32 ∨ (33 ≤ c ∧ c ≤ 126) ∨ (127 ≤ c ∧ c ≤ 255))
    with h | ⟨h1, h2⟩ | ⟨h1, h2⟩
  · -- control-code names
    refine ⟨dropDelim rest, ?_, .inr rfl⟩
    have hx : (controlCodes.getD c []).all tokenOkChar = true ∧
        2 ≤ (controlCodes.getD c []).length ∧
        (controlCodes.getD c []).length ≤ 9 ∧
        controlIdx (controlCodes.getD c []) = some c := by
      interval_cases c <;> exact ⟨by decide, by decide, by decide, by decide⟩
    obtain ⟨hall, hlo, hhi, hidx⟩ := hx
    match hn : controlCodes.getD c [] with
    | [] => rw [hn] at hlo; simp at hlo
    | [f] => rw [hn] at hlo; simp at hlo
    | f :: g :: nt =>
      rw [hn] at hall hhi hidx
      have hp : pcharacterM c = 35 :: 92 :: f :: (g :: nt) := by
        unfold pcharacterM
        rw [if_pos h, hn]
      rw [hp]
      simp only [List.all_cons, Bool.and_eq_true] at hall
      rw [nextitem_print_chartok f (g :: nt) rest hall.1
        (by simp [hall.2.1, hall.2.2]) (by simp at hhi ⊢; omega) hrest]
      unfold charToken
      rw [hidx]
  · by_cases hb : isbr c = true
    · -- breaking character: returned immediately, rest untouched
      refine ⟨rest, ?_, .inl rfl⟩
      rw [show pcharacterM c = [35, 92, c] from by
        unfold pcharacterM
        rw [if_neg (by omega), if_pos (by omega)]]
      unfold nextitemM
      rw [show skipSpaces ([35, 92, c] ++ rest) = some (35, 92 :: c :: rest)
          from by unfold skipSpaces; norm_num [issp]]
      norm_num [pull, hb]
    · -- ordinary printable character: a one-character token
      refine ⟨dropDelim rest, ?_, .inr rfl⟩
      rw [show pcharacterM c = 35 :: 92 :: c :: [] from by
        unfold pcharacterM
        rw [if_neg (by omega), if_pos (by omega)]]
      rw [nextitem_print_chartok c [] rest
        (by simp [tokenOkChar, hb, issp]; omega) (by simp) (by norm_num)
        hrest]
      rfl
  · -- codes ≥ 127: three decimal digits
    refine ⟨dropDelim rest, ?_, .inr rfl⟩
    have hd := pintbase3_digits c (by omega) (by omega)
    have hp : pcharacterM c = 35 :: 92 :: (c / 100 + 48) ::
        [c % 100 / 10 + 48, c % 10 + 48] := by
      unfold pcharacterM pintM
      rw [if_neg (by omega), if_neg (by omega), if_neg (by simp)]
      rw [show ((c : Int)).natAbs = c from rfl, Nat.mod_eq_of_lt (by omega),
        hd]
      rfl
    rw [hp]
    rw [nextitem_print_chartok _ _ rest (digit_tokenOk (by omega) (by omega))
      (by simp [digit_tokenOk, List.all_cons]
          exact ⟨digit_tokenOk (by omega) (by omega),
            digit_tokenOk (by omega) (by omega)⟩)
      (by norm_num) hrest]
    simp only [charToken]
    rw [controlIdx_digit_none _ _ (by omega) (by omega)]
    have hnat : ((c / 100 + 48) * 10 + (c % 100 / 10 + 48)) * 10 + (c % 10 + 48)
        = c + 5328 := by omega
    have hcast : (((c / 100 + 48 : Nat) : Int) * 10 + ((c % 100 / 10 + 48 : Nat) : Int))
          * 10 + ((c % 10 + 48 : Nat) : Int) = (c : Int) + 5328 := by
      exact_mod_cast congrArg (Nat.cast (R := Int)) hnat
    have hfin : ((((c / 100 + 48 : Nat) : Int) * 10 + ((c % 100 / 10 + 48 : Nat) : Int))
          * 10 + ((c % 10 + 48 : Nat) : Int) - 5328) % 256 = (c : Int) := by
      rw [hcast]
      omega
    rw [hfin]
    simp

theorem plispstrM_id (cs : List Nat)
    (h : ∀ c ∈ cs, c ≠ 0 ∧ c ≠ 34 ∧ c ≠ 92) : plispstrM cs = cs := by
  induction cs with
  | nil => rfl
  | cons c cs ih =>
    obtain ⟨h0, h34, h92⟩ := h c (by simp)
    simp only [plispstrM, List.flatMap_cons]
    rw [if_neg (by simp [h34, h92]), if_neg h0]
    simpa [plispstrM] using ih fun x hx => h x (by simp [hx])

theorem readstrScan_print (cs : List Nat) (h : ∀ c ∈ cs, c ≠ 0) :
    ∀ rest, readstrScan (plispstrM cs ++ (34 :: rest)) = some (cs, rest) := by
  induction cs with
  | nil =>
    intro rest
    show readstrScan ([] ++ (34 :: rest)) = some ([], rest)
    rw [List.nil_append, readstrScan.eq_def]
    simp
  | cons c cs ih =>
    intro rest
    have hc : c ≠ 0 := h c (by simp)
    have ih' := ih (fun x hx => h x (by simp [hx])) rest
    by_cases h34 : c = 34 ∨ c = 92
    · have hp : plispstrM (c :: cs) = 92 :: c :: plispstrM cs := by
        simp only [plispstrM, List.flatMap_cons]
        rw [if_pos h34, if_neg hc]
        simp [plispstrM]
      rw [hp, show (92 :: c :: plispstrM cs) ++ (34 :: rest)
          = 92 :: c :: (plispstrM cs ++ (34 :: rest)) from rfl]
      rw [readstrScan.eq_def]
      simp [ih']
    · push_neg at h34
      have hp : plispstrM (c :: cs) = c :: plispstrM cs := by
        simp only [plispstrM, List.flatMap_cons]
        rw [if_neg (by simp [h34.1, h34.2]), if_neg hc]
        simp [plispstrM]
      rw [hp, show (c :: plispstrM cs) ++ (34 :: rest)
          = c :: (plispstrM cs ++ (34 :: rest)) from rfl]
      rw [readstrScan.eq_def]
      simp [h34.1, h34.2, ih']

theorem nextitem_print_str (cs rest : List Nat) (h : ∀ c ∈ cs, c ≠ 0) :
    nextitemM ((34 :: (plispstrM cs ++ [34])) ++ rest)
      = .ok (.obj (.str cs), rest) := by
  unfold nextitemM
  rw [show skipSpaces ((34 :: (plispstrM cs ++ [34])) ++ rest)
      = some (34, (plispstrM cs ++ [34]) ++ rest) from by
    unfold skipSpaces
    norm_num [issp]]
  rw [show (plispstrM cs ++ [34]) ++ rest = plispstrM cs ++ (34 :: rest) from
    by simp]
  norm_num [readstrScan_print cs h rest]

theorem postToken_symbol (cs : List Nat) (r : Nat) (neg : Bool)
    (rest : List Nat) :
    postToken 10 neg cs r false rest
      = (match lookupbuiltinM cs with
         | some 0 => .ok (.obj .snil, rest)
         | some b => .ok (.obj (.sym (.short (sym b))), rest)
         | none =>
           if cs.length ≤ 3 ∧ valid40 cs = true then
             .ok (.obj (.sym (.short (twist (pack40 cs)))), rest)
           else .ok (.obj (.sym (.longsym cs)), rest)) := by
  unfold postToken
  norm_num

theorem symTokenOk_props {cs : List Nat} (h : symTokenOk cs = true) :
    cs ≠ [] ∧ cs.length ≤ 21 ∧ cs.all tokenOkChar = true ∧
      firstCharOk (cs.headD 0) = true ∧ parsesAsNumberTok cs = false := by
  simp only [symTokenOk, Bool.and_eq_true, Bool.not_eq_true',
    decide_eq_true_eq] at h
  refine ⟨?_, h.1.1.1.2, h.1.1.2, h.1.2, h.2⟩
  intro hx
  rw [hx] at h
  simp at h

theorem digitvalue_delim {c : Nat} (h : issp c = true ∨ isbr c = true) :
    digitvalue c = 16 := by
  rcases h with h | h <;>
    simp only [issp, isbr, Bool.or_eq_true, decide_eq_true_eq] at h <;>
    rcases h with h | h | h | h <;> simp [digitvalue, h]

theorem nextitem_print_symtok (cs rest : List Nat)
    (hok : symTokenOk cs = true) (hrest : delimB rest = true) :
    ∃ neg r, nextitemM (cs ++ rest)
      = postToken 10 neg cs r false (dropDelim rest) := by
  obtain ⟨hne, hlen, hall, hfst, hnum⟩ := symTokenOk_props hok
  match cs with
  | [] => exact absurd rfl hne
  | t :: tok =>
    simp only [List.all_cons, Bool.and_eq_true] at hall
    obtain ⟨hsp, hbr, h0, h255⟩ := tokenOkChar_props hall.1
    simp only [firstCharOk, List.headD_cons, Bool.and_eq_true,
      decide_eq_true_eq] at hfst
    have hbrn : ¬(t = 41 ∨ t = 40 ∨ t = 34 ∨ t = 35) := by
      simp only [isbr, Bool.or_eq_true, decide_eq_true_eq] at hbr
      simpa using hbr
    have hskip : skipSpaces ((t :: tok) ++ rest) = some (t, tok ++ rest) := by
      unfold skipSpaces
      simp [hsp]
    by_cases hsign : t = 43 ∨ t = 45
    · -- the sign branch stores the sign and scans on
      unfold nextitemM
      rw [hskip]
      simp only [show t ≠ 59 by omega, show t ≠ 41 by omega,
        show t ≠ 40 by omega, show t ≠ 39 by omega, show t ≠ 46 by omega,
        show t ≠ 34 by omega, if_pos hsign, reduceIte]
      match tok with
      | [] =>
        -- a bare sign: the delimiter terminates the token at once
        refine ⟨decide (t = 45), 0, ?_⟩
        match rest with
        | [] =>
          rw [show pull (([] : List Nat) ++ []) = (10, []) from rfl]
          unfold finishToken
          rw [tokLoop_stop_sp _ _ _ _ _ _ (by simp [issp])]
          simp [dropDelim, digitvalue]
        | c :: r =>
          rw [show pull (([] : List Nat) ++ (c :: r)) = (c, r) from rfl]
          simp only [delimB, Bool.or_eq_true] at hrest
          unfold finishToken
          have hdv : digitvalue c = 16 := digitvalue_delim hrest
          by_cases hcsp : issp c = true
          · rw [tokLoop_stop_sp _ _ _ _ _ _ hcsp]
            simp [dropDelim, hdv, hcsp]
          · have hcsp' : issp c = false := by simpa using hcsp
            have hcbr : isbr c = true := by
              rcases hrest with h | h
              · rw [h] at hcsp'; cases hcsp'
              · exact h
            rw [tokLoop_stop_br _ _ _ _ _ _ hcsp' hcbr]
            simp [dropDelim, hdv, hcsp']
      | u :: us =>
        have hu : tokenOkChar u = true := by
          have := hall.2
          simp only [List.all_cons, Bool.and_eq_true] at this
          exact this.1
        have hus : us.all tokenOkChar = true := by
          have := hall.2
          simp only [List.all_cons, Bool.and_eq_true] at this
          exact this.2
        have hnum' : ((u :: us).all fun x => decide (digitvalue x < 10))
            = false := by
          simp only [parsesAsNumberTok] at hnum
          rw [if_pos hsign] at hnum
          simpa using hnum
        refine ⟨decide (t = 45), atomAccum 10 (u :: us) 0, ?_⟩
        rw [show pull ((u :: us) ++ rest) = (u, us ++ rest) from rfl]
        unfold finishToken
        rw [tokLoop_run us u rest [t] 1 0 _ 10 hu hus
          (by simp at hlen ⊢; omega) hrest]
        simp [hnum']
    · -- an ordinary token character
      have htok : tok.all tokenOkChar = true := hall.2
      have hnum' : ((t :: tok).all fun x => decide (digitvalue x < 10))
          = false := by
        simp only [parsesAsNumberTok] at hnum
        rw [if_neg hsign] at hnum
        simpa using hnum
      refine ⟨false, atomAccum 10 (t :: tok) 0, ?_⟩
      unfold nextitemM
      rw [hskip]
      simp only [show t ≠ 59 by omega, show t ≠ 41 by omega,
        show t ≠ 40 by omega, show t ≠ 39 by omega, show t ≠ 46 by omega,
        show t ≠ 34 by omega, if_neg hsign, show t ≠ 35 by omega, reduceIte]
      rw [finishToken_run t tok rest [] 0 10 false hall.1 htok
        (by simp at hlen ⊢; omega) hrest]
      rw [hnum']
      simp

theorem nextitem_print_sym_nil (cs rest : List Nat)
    (hok : symTokenOk cs = true) (hrest : delimB rest = true)
    (hlk : lookupbuiltinM cs = some 0) :
    nextitemM (cs ++ rest) = .ok (.obj .snil, dropDelim rest) := by
  obtain ⟨neg, r, h⟩ := nextitem_print_symtok cs rest hok hrest
  rw [h, postToken_symbol, hlk]

theorem nextitem_print_sym_builtin (cs rest : List Nat) (k : Nat)
    (hok : symTokenOk cs = true) (hrest : delimB rest = true)
    (hlk : lookupbuiltinM cs = some (k + 1)) :
    nextitemM (cs ++ rest)
      = .ok (.obj (.sym (.short (sym (k + 1)))), dropDelim rest) := by
  obtain ⟨neg, r, h⟩ := nextitem_print_symtok cs rest hok hrest
  rw [h, postToken_symbol, hlk]
  exact rfl

theorem nextitem_print_sym_packed (cs rest : List Nat)
    (hok : symTokenOk cs = true) (hrest : delimB rest = true)
    (hlk : lookupbuiltinM cs = none) (h3 : cs.length ≤ 3)
    (hv : valid40 cs = true) :
    nextitemM (cs ++ rest)
      = .ok (.obj (.sym (.short (twist (pack40 cs)))), dropDelim rest) := by
  obtain ⟨neg, r, h⟩ := nextitem_print_symtok cs rest hok hrest
  rw [h, postToken_symbol, hlk]
  simp [h3, hv]

theorem nextitem_print_sym_long (cs rest : List Nat)
    (hok : symTokenOk cs = true) (hrest : delimB rest = true)
    (hlk : lookupbuiltinM cs = none)
    (hn : ¬(cs.length ≤ 3 ∧ valid40 cs = true)) :
    nextitemM (cs ++ rest)
      = .ok (.obj (.sym (.longsym cs)), dropDelim rest) := by
  obtain ⟨neg, r, h⟩ := nextitem_print_symtok cs rest hok hrest
  rw [h, postToken_symbol, hlk]
  simp only [if_neg hn]

theorem nextitem_print_atom (x : SObj) (ha : RAtom x = true) (out : List Nat)
    (hout : printAtom1 x = .ok out) (rest : List Nat)
    (hrest : delimB rest = true) :
    ∃ rest', nextitemM (out ++ rest) = .ok (.obj x, rest') ∧
      (rest' = rest ∨ rest' = dropDelim rest) := by
  match x with
  | .snil =>
    refine ⟨dropDelim rest, ?_, .inr rfl⟩
    rw [show out = strBytes "nil" from by
      simpa [printAtom1] using hout.symm]
    rw [show strBytes "nil" = [110, 105, 108] from rfl]
    exact nextitem_print_sym_nil [110, 105, 108] rest (by decide) hrest
      (by decide)
  | .num n =>
    refine ⟨dropDelim rest, ?_, .inr rfl⟩
    simp only [RAtom, Bool.and_eq_true, decide_eq_true_eq] at ha
    rw [show out = pintM n from by simpa [printAtom1] using hout.symm]
    exact nextitem_print_num n ha.1 ha.2 rest hrest
  | .chr c =>
    simp only [RAtom, decide_eq_true_eq] at ha
    rw [show out = pcharacterM c from by simpa [printAtom1] using hout.symm]
    exact nextitem_print_chr c ha rest hrest
  | .str cs =>
    refine ⟨rest, ?_, .inl rfl⟩
    simp only [RAtom, List.all_eq_true, Bool.and_eq_true,
      decide_eq_true_eq] at ha
    rw [show out = 34 :: (plispstrM cs ++ [34]) from by
      simpa [printAtom1] using hout.symm]
    exact nextitem_print_str cs rest fun c hc => by
      have := ha c hc
      omega
  | .sym (.longsym cs) =>
    refine ⟨dropDelim rest, ?_, .inr rfl⟩
    simp only [RAtom, symReadable, Bool.and_eq_true, Bool.not_eq_true',
      decide_eq_true_eq, List.all_eq_true] at ha
    obtain ⟨⟨⟨hok, h92⟩, hnp⟩, hlk⟩ := ha
    have hout' : out = cs := by
      have : out = plispstrM cs := by simpa [printAtom1, psymbolM] using hout.symm
      rw [this]
      refine plispstrM_id cs fun c hc => ?_
      have h1 := symTokenOk_props hok
      have h2 := h1.2.2.1
      simp only [List.all_eq_true] at h2
      have := tokenOkChar_props (h2 c hc)
      refine ⟨this.2.2.1, ?_, by simpa using h92 c hc⟩
      have hb := this.2.1
      intro hx
      rw [hx] at hb
      simp [isbr] at hb
    rw [hout']
    exact nextitem_print_sym_long cs rest hok hrest hlk (by
      intro hx
      exact absurd (by simp [hx.1, hx.2] : (decide (cs.length ≤ 3) &&
        valid40 cs) = true) (by simp [hnp]))
  | .sym (.short name) =>
    simp only [RAtom] at ha
    by_cases hbv : BUILTINS ≤ untwist name
    · -- a builtin symbol
      refine ⟨dropDelim rest, ?_, .inr rfl⟩
      rw [symReadable, if_pos hbv] at ha
      simp only [Bool.and_eq_true, decide_eq_true_eq] at ha
      obtain ⟨⟨⟨⟨⟨hsymb, hb0⟩, hbn⟩, hblen⟩, hlk⟩, hok⟩ := ha
      have hnn : name ≠ sym NOTHING := by
        intro hx
        rw [hx] at hbv hb0 hbn
        exact hbn (by decide)
      have hbv' : BUILTINS ≤ untwist name := hbv
      unfold BUILTINS at hbv'
      have hout' : out = builtinNamesB.getD (untwist name - BUILTINS) [] := by
        have he : printAtom1 (SObj.sym (.short name))
            = .ok (builtinNamesB.getD (untwist name - BUILTINS) []) := by
          simp only [printAtom1, psymbolM]
          rw [if_neg hnn, if_neg (by unfold PACKEDS; omega), if_pos hbv]
        rw [he] at hout
        exact (Except.ok.injEq _ _ ▸ hout).symm
      obtain ⟨k, hk⟩ : ∃ k, untwist name - BUILTINS = k + 1 :=
        ⟨untwist name - BUILTINS - 1, by omega⟩
      have hlk' : lookupbuiltinM (builtinNamesB.getD (untwist name - BUILTINS) [])
          = some (k + 1) := by rw [hlk, hk]
      have hmain := nextitem_print_sym_builtin
        (builtinNamesB.getD (untwist name - BUILTINS) []) rest k hok hrest hlk'
      rw [hout', hmain, show sym (k + 1) = name from hk ▸ hsymb]
    · -- a packed radix-40 symbol
      refine ⟨dropDelim rest, ?_, .inr rfl⟩
      rw [symReadable, if_neg hbv] at ha
      by_cases hpv : PACKEDS ≤ untwist name
      · rw [if_pos hpv] at ha
        simp only [Bool.and_eq_true, decide_eq_true_eq] at ha
        obtain ⟨⟨⟨⟨⟨hn16, henc⟩, hv40⟩, hl3⟩, hlk⟩, hok⟩ := ha
        have hnn : name ≠ sym NOTHING := by
          intro hx
          rw [hx] at hbv
          exact hbv (by decide)
        have hout' : out = pradix40M name := by
          have he : printAtom1 (SObj.sym (.short name)) = .ok (pradix40M name) := by
            simp only [printAtom1, psymbolM]
            rw [if_neg hnn, if_neg (by omega), if_neg (by omega)]
          rw [he] at hout
          exact (Except.ok.injEq _ _ ▸ hout).symm
        rw [hout']
        rw [nextitem_print_sym_packed _ rest hok hrest hlk hl3 hv40, henc]
      · rw [if_neg hpv] at ha
        cases ha

theorem nextitemM_sp {c : Nat} (r : List Nat) (h : issp c = true) :
    nextitemM (c :: r) = nextitemM r := by
  unfold nextitemM
  rw [show skipSpaces (c :: r) = skipSpaces r from by
    rw [skipSpaces.eq_def]
    simp [h]]

theorem nextitemM_dropDelim (rest : List Nat) :
    nextitemM (dropDelim rest) = nextitemM rest := by
  match rest with
  | [] => rfl
  | c :: r =>
    by_cases h : issp c = true
    · rw [show dropDelim (c :: r) = r from by simp [dropDelim, h]]
      rw [nextitemM_sp r h]
    · rw [show dropDelim (c :: r) = c :: r from by simp [dropDelim, h]]

theorem nextitemM_restOk {rest rest' : List Nat}
    (h : rest' = rest ∨ rest' = dropDelim rest) :
    nextitemM rest' = nextitemM rest := by
  rcases h with h | h
  · rw [h]
  · rw [h, nextitemM_dropDelim]

theorem readrestM_congr (fuel : Nat) (first : Bool) {inp1 inp2 : List Nat}
    (h : nextitemM inp1 = nextitemM inp2) :
    readrestM fuel first inp1 = readrestM fuel first inp2 := by
  match fuel with
  | 0 => rfl
  | fuel + 1 =>
    rw [readrestM, readrestM, h]

theorem readrestM_ket (fuel : Nat) (first : Bool) (input rest : List Nat)
    (h : nextitemM input = .ok (.ket, rest)) :
    readrestM (fuel + 1) first input = .ok (.snil, rest) := by
  rw [readrestM, h]

theorem readrestM_obj (fuel : Nat) (first : Bool) (input rest rest1 : List Nat)
    (v tl : SObj) (h : nextitemM input = .ok (.obj v, rest))
    (h2 : readrestM fuel false rest = .ok (tl, rest1)) :
    readrestM (fuel + 1) first input = .ok (.scons v tl, rest1) := by
  rw [readrestM, h]
  simp [h2]

theorem readrestM_bra (fuel : Nat) (first : Bool)
    (input rest rest1 rest2 : List Nat) (sub tl : SObj)
    (h : nextitemM input = .ok (.bra, rest))
    (h2 : readrestM fuel true rest = .ok (sub, rest1))
    (h3 : readrestM fuel false rest1 = .ok (tl, rest2)) :
    readrestM (fuel + 1) first input = .ok (.scons sub tl, rest2) := by
  rw [readrestM, h]
  simp [h2, h3]

theorem readrestM_dot (fuel : Nat) (input rest rest1 rest2 : List Nat)
    (x : SObj) (h : nextitemM input = .ok (.dot, rest))
    (h2 : readM fuel rest = .ok (x, rest1))
    (h3 : readrestM fuel true rest1 = .ok (.snil, rest2)) :
    readrestM (fuel + 1) false input = .ok (x, rest2) := by
  rw [readrestM, h]
  simp [h2, h3]

theorem readM_obj (fuel : Nat) (input rest : List Nat) (v : SObj)
    (h : nextitemM input = .ok (.obj v, rest)) :
    readM (fuel + 1) input = .ok (v, rest) := by
  rw [readM, h]

theorem readM_bra (fuel : Nat) (input rest : List Nat) (r : SObj × List Nat)
    (h : nextitemM input = .ok (.bra, rest))
    (h2 : readrestM fuel true rest = .ok r) :
    readM (fuel + 1) input = .ok r := by
  rw [readM, h]
  simp [h2]

theorem nextitemM_bra (r : List Nat) : nextitemM (40 :: r) = .ok (.bra, r) := by
  unfold nextitemM
  rw [show skipSpaces (40 :: r) = some (40, r) from by
    rw [skipSpaces.eq_def]
    norm_num [issp]]
  norm_num

theorem nextitemM_ket (r : List Nat) : nextitemM (41 :: r) = .ok (.ket, r) := by
  unfold nextitemM
  rw [show skipSpaces (41 :: r) = some (41, r) from by
    rw [skipSpaces.eq_def]
    norm_num [issp]]
  norm_num

theorem nextitemM_dot (r : List Nat) : nextitemM (46 :: r) = .ok (.dot, r) := by
  unfold nextitemM
  rw [show skipSpaces (46 :: r) = some (46, r) from by
    rw [skipSpaces.eq_def]
    norm_num [issp]]
  norm_num

theorem plistTailM_head (d : SObj) (out : List Nat)
    (h : plistTailM d = .ok out) : delimB out = true ∧ out ≠ [] := by
  match d with
  | .snil =>
    have : out = [41] := by simpa [plistTailM] using h.symm
    subst this
    exact ⟨by decide, by simp⟩
  | .scons a d2 =>
    simp only [plistTailM] at h
    rcases hpa : printObjM a with e | pa <;> rw [hpa] at h
    · cases h
    rcases hpd : plistTailM d2 with e | pd <;> rw [hpd] at h
    · cases h
    have : out = 32 :: (pa ++ pd) := by simpa using h.symm
    subst this
    exact ⟨rfl, by simp⟩
  | .num v =>
    simp only [plistTailM] at h
    rcases hpt : printAtom1 (SObj.num v) with e | pt <;> rw [hpt] at h
    · cases h
    have : out = 32 :: 46 :: 32 :: (pt ++ [41]) := by simpa using h.symm
    subst this
    exact ⟨rfl, by simp⟩
  | .chr v =>
    simp only [plistTailM] at h
    rcases hpt : printAtom1 (SObj.chr v) with e | pt <;> rw [hpt] at h
    · cases h
    have : out = 32 :: 46 :: 32 :: (pt ++ [41]) := by simpa using h.symm
    subst this
    exact ⟨rfl, by simp⟩
  | .str v =>
    simp only [plistTailM] at h
    rcases hpt : printAtom1 (SObj.str v) with e | pt <;> rw [hpt] at h
    · cases h
    have : out = 32 :: 46 :: 32 :: (pt ++ [41]) := by simpa using h.symm
    subst this
    exact ⟨rfl, by simp⟩
  | .sym s =>
    simp only [plistTailM] at h
    rcases hpt : printAtom1 (SObj.sym s) with e | pt <;> rw [hpt] at h
    · cases h
    have : out = 32 :: 46 :: 32 :: (pt ++ [41]) := by simpa using h.symm
    subst this
    exact ⟨rfl, by simp⟩

theorem delimB_append {out : List Nat} (rest : List Nat)
    (h : delimB out = true) (hne : out ≠ []) :
    delimB (out ++ rest) = true := by
  match out with
  | [] => exact absurd rfl hne
  | c :: r => simpa [delimB] using h

theorem printAtom1_total (x : SObj) (h : RAtom x = true) :
    ∃ out, printAtom1 x = .ok out := by
  match x with
  | .snil => exact ⟨_, rfl⟩
  | .num n => exact ⟨_, rfl⟩
  | .chr c => exact ⟨_, rfl⟩
  | .str cs => exact ⟨_, rfl⟩
  | .sym (.longsym cs) => exact ⟨_, rfl⟩
  | .sym (.short name) =>
    by_cases hn : name = sym NOTHING
    · exact ⟨[], by simp [printAtom1, hn]⟩
    · have h' : symReadable (.short name) = true := h
      simp only [symReadable] at h'
      by_cases hb : BUILTINS ≤ untwist name
      · refine ⟨builtinNamesB.getD (untwist name - BUILTINS) [], ?_⟩
        simp only [printAtom1, if_neg hn, psymbolM]
        rw [if_neg (show ¬ untwist name < PACKEDS by
          unfold BUILTINS at hb; unfold PACKEDS; omega), if_pos hb]
      · rw [if_neg hb] at h'
        by_cases hp : PACKEDS ≤ untwist name
        · refine ⟨pradix40M name, ?_⟩
          simp only [printAtom1, if_neg hn, psymbolM]
          rw [if_neg (not_lt.2 hp), if_neg hb]
        · rw [if_neg hp] at h'
          cases h'

theorem print_total (x : SObj) :
    (RObj x = true → ∃ out, printObjM x = .ok out) ∧
    (RTail x = true → ∃ out, plistTailM x = .ok out) := by
  induction x with
  | snil => exact ⟨fun _ => ⟨_, rfl⟩, fun _ => ⟨_, rfl⟩⟩
  | num v =>
    refine ⟨fun h => printAtom1_total _ h, fun h => ?_⟩
    obtain ⟨pt, hp⟩ := printAtom1_total (.num v) h
    exact ⟨32 :: 46 :: 32 :: (pt ++ [41]), by simp only [plistTailM, hp]⟩
  | chr v =>
    refine ⟨fun h => printAtom1_total _ h, fun h => ?_⟩
    obtain ⟨pt, hp⟩ := printAtom1_total (.chr v) h
    exact ⟨32 :: 46 :: 32 :: (pt ++ [41]), by simp only [plistTailM, hp]⟩
  | str v =>
    refine ⟨fun h => printAtom1_total _ h, fun h => ?_⟩
    obtain ⟨pt, hp⟩ := printAtom1_total (.str v) h
    exact ⟨32 :: 46 :: 32 :: (pt ++ [41]), by simp only [plistTailM, hp]⟩
  | sym s =>
    refine ⟨fun h => printAtom1_total _ h, fun h => ?_⟩
    obtain ⟨pt, hp⟩ := printAtom1_total (.sym s) h
    exact ⟨32 :: 46 :: 32 :: (pt ++ [41]), by simp only [plistTailM, hp]⟩
  | scons a d iha ihd =>
    constructor
    · intro h
      simp only [RObj, Bool.and_eq_true, decide_eq_true_eq] at h
      obtain ⟨⟨hclos, hra⟩, hrd⟩ := h
      obtain ⟨pa, hpa⟩ := iha.1 hra
      obtain ⟨pd, hpd⟩ := ihd.2 hrd
      exact ⟨40 :: (pa ++ pd), by
        simp only [printObjM, if_neg hclos, hpa, hpd]⟩
    · intro h
      simp only [RTail, Bool.and_eq_true] at h
      obtain ⟨hra, hrd⟩ := h
      obtain ⟨pa, hpa⟩ := iha.1 hra
      obtain ⟨pd, hpd⟩ := ihd.2 hrd
      exact ⟨32 :: (pa ++ pd), by simp only [plistTailM, hpa, hpd]⟩

theorem readrestM_tail_atom (t : SObj) (pt : List Nat)
    (hr : RAtom t = true)
    (hpt : printAtom1 t = .ok pt)
    (f : Nat) (hf : 1 ≤ f)
    (inp rest : List Nat)
    (hni : nextitemM inp = nextitemM ((32 :: 46 :: 32 :: (pt ++ [41])) ++ rest)) :
    readrestM (f + 1) false inp = .ok (t, rest) := by
  match f, hf with
  | f2 + 1, _ =>
    rw [show (32 :: 46 :: 32 :: (pt ++ [41])) ++ rest
      = 32 :: 46 :: 32 :: (pt ++ (41 :: rest)) from by simp] at hni
    rw [nextitemM_sp _ (by decide), nextitemM_dot] at hni
    obtain ⟨rest', hobj, hro⟩ :=
      nextitem_print_atom t hr pt hpt (41 :: rest) rfl
    have hr41 : rest' = 41 :: rest := by
      rcases hro with h | h
      · exact h
      · rw [h, show dropDelim (41 :: rest) = 41 :: rest from by
          simp [dropDelim]
          decide]
    rw [hr41] at hobj
    have h2 : readM (f2 + 1) (32 :: (pt ++ (41 :: rest))) = .ok (t, 41 :: rest) :=
      readM_obj f2 _ _ t (by rw [nextitemM_sp _ (by decide)]; exact hobj)
    have h3 : readrestM (f2 + 1) true (41 :: rest) = .ok (.snil, rest) :=
      readrestM_ket f2 true _ rest (nextitemM_ket rest)
    exact readrestM_dot (f2 + 1) inp _ _ rest t hni h2 h3

theorem read_print_rec : ∀ n : Nat,
    (∀ x, sizeS x ≤ n → RObj x = true → ∀ out, printObjM x = .ok out →
      ∀ rest, delimB rest = true →
        ((∃ rest', nextitemM (out ++ rest) = .ok (.obj x, rest') ∧
            (rest' = rest ∨ rest' = dropDelim rest)) ∨
         (∃ mid, nextitemM (out ++ rest) = .ok (.bra, mid) ∧
            ∀ fuel, n < fuel → readrestM fuel true mid = .ok (x, rest)))) ∧
    (∀ d, sizeS d ≤ n → RTail d = true → ∀ out, plistTailM d = .ok out →
      ∀ rest fuel, n < fuel → ∀ inp,
        inp = out ++ rest ∨ inp = dropDelim (out ++ rest) →
        readrestM fuel false inp = .ok (d, rest)) := by
  intro n
  induction n with
  | zero =>
    constructor
    · intro x hx
      exact absurd hx (by cases x <;> simp [sizeS])
    · intro d hd
      exact absurd hd (by cases d <;> simp [sizeS])
  | succ n ih =>
    obtain ⟨ihI, ihT⟩ := ih
    constructor
    · -- item position
      intro x hx hr out hout rest hrest
      match x with
      | .snil => exact .inl (nextitem_print_atom _ hr out hout rest hrest)
      | .num v => exact .inl (nextitem_print_atom _ hr out hout rest hrest)
      | .chr v => exact .inl (nextitem_print_atom _ hr out hout rest hrest)
      | .str v => exact .inl (nextitem_print_atom _ hr out hout rest hrest)
      | .sym s => exact .inl (nextitem_print_atom _ hr out hout rest hrest)
      | .scons a d =>
        right
        simp only [RObj, Bool.and_eq_true, decide_eq_true_eq] at hr
        obtain ⟨⟨hclos, hra⟩, hrd⟩ := hr
        simp only [printObjM] at hout
        rw [if_neg hclos] at hout
        rcases hpa : printObjM a with e | pa <;> rw [hpa] at hout
        · cases hout
        rcases hpd : plistTailM d with e | pd <;> rw [hpd] at hout
        · cases hout
        have hout' : out = 40 :: (pa ++ pd) := by simpa using hout.symm
        refine ⟨pa ++ (pd ++ rest), ?_, ?_⟩
        · rw [hout', show (40 :: (pa ++ pd)) ++ rest
            = 40 :: (pa ++ (pd ++ rest)) from by simp]
          exact nextitemM_bra _
        · intro fuel hf
          match fuel with
          | 0 => exact absurd hf (by omega)
          | f + 1 =>
            obtain ⟨hdel, hne⟩ := plistTailM_head d pd hpd
            have hdelr : delimB (pd ++ rest) = true :=
              delimB_append rest hdel hne
            have hsa : sizeS a ≤ n := by simp [sizeS] at hx; omega
            have hsd : sizeS d ≤ n := by simp [sizeS] at hx; omega
            rcases ihI a hsa hra pa hpa (pd ++ rest) hdelr with
              ⟨rest1, hn1, hro⟩ | ⟨mid, hn1, hsub⟩
            · have htail := ihT d hsd hrd pd hpd rest f (by omega) rest1 hro
              exact readrestM_obj f true _ _ _ a d hn1 htail
            · have hsub' := hsub f (by omega)
              have htail := ihT d hsd hrd pd hpd rest f (by omega)
                (pd ++ rest) (.inl rfl)
              exact readrestM_bra f true _ _ _ _ a d hn1 hsub' htail
    · -- tail position
      intro d hd hr out hout rest fuel hfuel inp hinp
      have hni : nextitemM inp = nextitemM (out ++ rest) := nextitemM_restOk hinp
      match fuel with
      | 0 => exact absurd hfuel (by omega)
      | f + 1 =>
        match d with
        | .snil =>
          have hout' : out = [41] := by simpa [plistTailM] using hout.symm
          rw [hout'] at hni
          exact readrestM_ket f false inp rest (hni.trans (nextitemM_ket rest))
        | .scons a d2 =>
          simp only [RTail, Bool.and_eq_true] at hr
          obtain ⟨hra, hrd2⟩ := hr
          simp only [plistTailM] at hout
          rcases hpa : printObjM a with e | pa <;> rw [hpa] at hout
          · cases hout
          rcases hpd : plistTailM d2 with e | pd2 <;> rw [hpd] at hout
          · cases hout
          have hout' : out = 32 :: (pa ++ pd2) := by simpa using hout.symm
          have hn2 : nextitemM (out ++ rest) = nextitemM (pa ++ (pd2 ++ rest)) := by
            rw [hout', show (32 :: (pa ++ pd2)) ++ rest
              = 32 :: (pa ++ (pd2 ++ rest)) from by simp]
            exact nextitemM_sp _ (by simp [issp])
          obtain ⟨hdel2, hne2⟩ := plistTailM_head d2 pd2 hpd
          have hdelr : delimB (pd2 ++ rest) = true :=
            delimB_append rest hdel2 hne2
          have hsa : sizeS a ≤ n := by simp [sizeS] at hd; omega
          have hsd : sizeS d2 ≤ n := by simp [sizeS] at hd; omega
          rcases ihI a hsa hra pa hpa (pd2 ++ rest) hdelr with
            ⟨rest1, hn1, hro⟩ | ⟨mid, hn1, hsub⟩
          · have htail := ihT d2 hsd hrd2 pd2 hpd rest f (by omega) rest1 hro
            exact readrestM_obj f false inp _ _ a d2
              (by rw [hni, hn2]; exact hn1) htail
          · have hsub' := hsub f (by omega)
            have htail := ihT d2 hsd hrd2 pd2 hpd rest f (by omega)
              (pd2 ++ rest) (.inl rfl)
            exact readrestM_bra f false inp _ _ _ a d2
              (by rw [hni, hn2]; exact hn1) hsub' htail
        | .num v =>
          simp only [plistTailM] at hout
          rcases hpt : printAtom1 (SObj.num v) with e | pt <;> rw [hpt] at hout
          · cases hout
          have hout' : out = 32 :: 46 :: 32 :: (pt ++ [41]) := by
            simpa using hout.symm
          rw [hout'] at hni
          exact readrestM_tail_atom _ pt hr hpt f (by omega) inp rest hni
        | .chr v =>
          simp only [plistTailM] at hout
          rcases hpt : printAtom1 (SObj.chr v) with e | pt <;> rw [hpt] at hout
          · cases hout
          have hout' : out = 32 :: 46 :: 32 :: (pt ++ [41]) := by
            simpa using hout.symm
          rw [hout'] at hni
          exact readrestM_tail_atom _ pt hr hpt f (by omega) inp rest hni
        | .str v =>
          simp only [plistTailM] at hout
          rcases hpt : printAtom1 (SObj.str v) with e | pt <;> rw [hpt] at hout
          · cases hout
          have hout' : out = 32 :: 46 :: 32 :: (pt ++ [41]) := by
            simpa using hout.symm
          rw [hout'] at hni
          exact readrestM_tail_atom _ pt hr hpt f (by omega) inp rest hni
        | .sym s =>
          simp only [plistTailM] at hout
          rcases hpt : printAtom1 (SObj.sym s) with e | pt <;> rw [hpt] at hout
          · cases hout
          have hout' : out = 32 :: 46 :: 32 :: (pt ++ [41]) := by
            simpa using hout.symm
          rw [hout'] at hni
          exact readrestM_tail_atom _ pt hr hpt f (by omega) inp rest hni

/-- C3 counterexample: the symbol `nothing` prints as empty text in
`printsymbol`, so the list `(nothing 5)` prints in readable mode as
`( 5)`, and reading that text back yields the structurally different
list `(5)` — `read(print(x))` is not `x` for every printable
S-expression made of symbols and numbers. -/
theorem read_print_counterexample :
    printObjM (.scons (.sym (.short (sym NOTHING))) (.scons (.num 5) .snil))
      = .ok (strBytes "( 5)") ∧
    readM 10 (strBytes "( 5)") = .ok (.scons (.num 5) .snil, []) ∧
    (SObj.scons (.num 5) .snil)
      ≠ .scons (.sym (.short (sym NOTHING))) (.scons (.num 5) .snil) :=
  ⟨rfl, rfl, by simp⟩

/-- C3 (amended): for every S-expression `x` composed of in-range
numbers, byte characters, strings of nonzero bytes, readable symbols
(`symReadable`: not `nothing`, round-tripping through the builtin table
or radix-40 packing, no digit-leading/sign/delimiter/backslash names)
and nested proper or dotted lists none of whose element-position conses
is headed by the `closure` symbol — i.e. `RObj x = true` — readable-mode
printing succeeds and reading the printed text back returns exactly `x`
with the input consumed. -/
theorem read_print_spec (x : SObj) (h : RObj x = true) :
    ∃ out, printObjM x = .ok out ∧
      ∀ fuel, sizeS x + 1 < fuel → readM fuel out = .ok (x, []) := by
  obtain ⟨out, hout⟩ := (print_total x).1 h
  refine ⟨out, hout, ?_⟩
  intro fuel hf
  match fuel with
  | 0 => exact absurd hf (by omega)
  | f + 1 =>
    have hrec := (read_print_rec (sizeS x)).1 x le_rfl h out hout [] rfl
    rw [List.append_nil] at hrec
    rcases hrec with ⟨rest', hobj, hro⟩ | ⟨mid, hbra, hsub⟩
    · have h0 : rest' = [] := by
        rcases hro with h1 | h1 <;> simp [h1, dropDelim]
      rw [h0] at hobj
      exact readM_obj f out [] x hobj
    · exact readM_bra f out mid _ hbra (hsub f (by omega))

/-! ### Claim C2: `compactimage` -/

theorem fixField_mapPtr (π : Nat → Nat) (o ff : Nat) (f : Field) :
    fixField o ff (mapPtr π f) =
      mapPtr (fun i => if π i = o then ff else π i) f := by
  cases f with
  | null => rfl
  | val v => rfl
  | ptr j =>
    by_cases h : π j = o <;> simp [fixField, mapPtr, h]

theorem pairCar_mapPtr (π : Nat → Nat) (f : Field) :
    pairCar (mapPtr π f) = pairCar f := by
  cases f <;> rfl

theorem mapPtr_eq_val (π : Nat → Nat) (f : Field) (v : Nat) :
    (mapPtr π f = .val v) = (f = .val v) := by
  cases f <;> simp [mapPtr]

theorem longnamefield_mapPtr (π : Nat → Nat) (f : Field) :
    longnamefield (mapPtr π f) = longnamefield f := by
  cases f <;> rfl

theorem fieldPtr_mapPtr (π : Nat → Nat) (f : Field) :
    fieldPtr (mapPtr π f) = (fieldPtr f).map π := by
  cases f <;> rfl

theorem moveFix_mapped (π : Nat → Nat) (c : Cell) :
    moveFix { c with car := mapPtr π c.car, cdr := mapPtr π c.cdr } = moveFix c := by
  simp only [moveFix, pairCar_mapPtr, mapPtr_eq_val, longnamefield_mapPtr]

theorem moveFix_renameCell (π : Nat → Nat) (c : Cell) :
    moveFix (renameCell π c) = moveFix c := by
  unfold renameCell
  by_cases h : moveFix c
  · rw [if_pos h, moveFix_mapped]
  · rw [if_neg h]

theorem isStringHead_mapped (π : Nat → Nat) (c : Cell) :
    isStringHead { c with car := mapPtr π c.car, cdr := mapPtr π c.cdr }
      = isStringHead c := by
  simp only [isStringHead, mapPtr_eq_val, longnamefield_mapPtr]

theorem isStringHead_renameCell (π : Nat → Nat) (c : Cell) :
    isStringHead (renameCell π c) = isStringHead c := by
  unfold renameCell
  by_cases h : moveFix c
  · rw [if_pos h, isStringHead_mapped]
  · rw [if_neg h]

theorem renameCell_mark (π : Nat → Nat) (c : Cell) :
    (renameCell π c).mark = c.mark := by
  unfold renameCell
  by_cases h : moveFix c <;> simp [h]

theorem renameCell_id (c : Cell) : renameCell (fun i => i) c = c := by
  unfold renameCell
  by_cases h : moveFix c
  · rw [if_pos h]
    cases c with
    | mk car cdr mark => cases car <;> cases cdr <;> rfl
  · rw [if_neg h]

theorem renameCell_setMarkBit (π : Nat → Nat) (c : Cell) (b : Bool) :
    renameCell π { c with mark := b } = { renameCell π c with mark := b } := by
  unfold renameCell
  have : moveFix { c with mark := b } = moveFix c := rfl
  rw [this]
  by_cases h : moveFix c <;> simp [h]

theorem movepointer1_length (frm tgt : Nat) (cs : List Cell) :
    (movepointer1 frm tgt cs).length = cs.length := by
  simp [movepointer1]

theorem movepointer1_getElem (frm tgt : Nat) (cs : List Cell) (k : Nat) :
    (movepointer1 frm tgt cs)[k]? = cs[k]?.map (fun c =>
      if c.mark && moveFix c then
        { c with car := fixField frm tgt c.car, cdr := fixField frm tgt c.cdr }
      else c) := by
  simp [movepointer1]

theorem isMarked_movepointer1 (frm tgt : Nat) (cs : List Cell) (k : Nat) :
    isMarked (movepointer1 frm tgt cs) k = isMarked cs k := by
  unfold isMarked
  rw [movepointer1_getElem]
  cases cs[k]? with
  | none => rfl
  | some c =>
    simp only [Option.map_some']
    split <;> rfl

theorem movepointer2Chain_id (frm tgt : Nat) :
    ∀ (fuel : Nat) (o : Option Nat) (cs : List Cell),
      chainOk cs fuel o = true → movepointer2Chain frm tgt fuel o cs = cs := by
  intro fuel
  induction fuel with
  | zero =>
    intro o cs h
    cases o with
    | none => rfl
    | some j => simp [chainOk] at h
  | succ f ih =>
    intro o cs h
    cases o with
    | none => rfl
    | some j =>
      unfold chainOk at h
      unfold movepointer2Chain
      cases hc : cs[j]? with
      | none => rfl
      | some c =>
        simp only [hc] at h
        simp only [hc]
        cases hcar : c.car with
        | val v =>
          simp only [hcar] at h
          exact Bool.noConfusion h
        | null =>
          cases hcdr : c.cdr with
          | val v =>
            simp only [hcar, hcdr] at h
            rw [if_neg (by simp)]
            exact ih _ _ h
          | null =>
            simp only [hcar, hcdr] at h
            exact Bool.noConfusion h
          | ptr p =>
            simp only [hcar, hcdr] at h
            exact Bool.noConfusion h
        | ptr q =>
          cases hcdr : c.cdr with
          | val v =>
            simp only [hcar, hcdr] at h
            rw [if_neg (by simp)]
            exact ih _ _ h
          | null =>
            simp only [hcar, hcdr] at h
            exact Bool.noConfusion h
          | ptr p =>
            simp only [hcar, hcdr] at h
            exact Bool.noConfusion h

theorem movepointer2_id (frm tgt : Nat) (cs : List Cell)
    (h : ∀ (i : Nat) (c : Cell), cs[i]? = some c → c.mark = true →
      isStringHead c = true →
      chainOk cs cs.length (fieldPtr c.cdr) = true) :
    movepointer2 frm tgt cs = cs := by
  unfold movepointer2
  have hgen : ∀ l : List Nat,
      l.foldl (fun (acc : List Cell) (i : Nat) =>
        match acc[i]? with
        | none => acc
        | some c =>
          if c.mark && isStringHead c then
            movepointer2Chain frm tgt acc.length (fieldPtr c.cdr) acc
          else acc) cs = cs := by
    intro l
    induction l with
    | nil => rfl
    | cons a t iht =>
      have hstep : (match cs[a]? with
          | none => cs
          | some c =>
            if c.mark && isStringHead c then
              movepointer2Chain frm tgt cs.length (fieldPtr c.cdr) cs
            else cs) = cs := by
        cases hc : cs[a]? with
        | none => rfl
        | some c =>
          show (if (c.mark && isStringHead c) = true then
              movepointer2Chain frm tgt cs.length (fieldPtr c.cdr) cs
            else cs) = cs
          by_cases hm : (c.mark && isStringHead c) = true
          · rw [if_pos hm]
            have hm' := hm
            rw [Bool.and_eq_true] at hm'
            exact movepointer2Chain_id frm tgt _ _ _ (h a c hc hm'.1 hm'.2)
          · rw [if_neg hm]
      rw [List.foldl_cons, hstep, iht]
  exact hgen _

theorem countP_set (p : Cell → Bool) : ∀ (cs : List Cell) (i : Nat) (c c' : Cell),
    cs[i]? = some c →
    (cs.set i c').countP p + (if p c then 1 else 0)
      = cs.countP p + (if p c' then 1 else 0) := by
  intro cs
  induction cs with
  | nil => intro i c c' h; cases h
  | cons a t ih =>
    intro i c c' h
    match i with
    | 0 =>
      have : a = c := by simpa using h
      subst this
      simp [List.countP_cons]
      omega
    | i + 1 =>
      have ht : t[i]? = some c := by simpa using h
      have := ih i c c' ht
      simp only [List.set_cons_succ, List.countP_cons]
      omega

theorem countP_mark_map (cs : List Cell) (g : Cell → Cell)
    (hg : ∀ c, (g c).mark = c.mark) :
    (cs.map g).countP (·.mark) = cs.countP (·.mark) := by
  induction cs with
  | nil => rfl
  | cons a t ih => simp [List.countP_cons, hg, ih]

theorem markedCount_movepointer1 (frm tgt : Nat) (cs : List Cell) :
    markedCount (movepointer1 frm tgt cs) = markedCount cs := by
  unfold markedCount movepointer1
  apply countP_mark_map
  intro c
  dsimp only
  split <;> rfl

theorem nextFreeAux_le (cs : List Cell) :
    ∀ (f k : Nat), k ≤ nextFreeAux cs f k := by
  intro f
  induction f with
  | zero => intro k; exact le_refl k
  | succ f ih =>
    intro k
    unfold nextFreeAux
    by_cases h : isMarked cs k = true
    · rw [if_pos h]
      exact le_trans (by omega) (ih (k + 1))
    · rw [if_neg h]

theorem nextFreeAux_le_add (cs : List Cell) :
    ∀ (f k : Nat), nextFreeAux cs f k ≤ k + f := by
  intro f
  induction f with
  | zero => intro k; exact le_refl k
  | succ f ih =>
    intro k
    unfold nextFreeAux
    by_cases h : isMarked cs k = true
    · rw [if_pos h]
      exact le_trans (ih (k + 1)) (by omega)
    · rw [if_neg h]; omega

theorem nextFreeAux_marked (cs : List Cell) :
    ∀ (f k j : Nat), k ≤ j → j < nextFreeAux cs f k → isMarked cs j = true := by
  intro f
  induction f with
  | zero => intro k j h1 h2; unfold nextFreeAux at h2; omega
  | succ f ih =>
    intro k j h1 h2
    unfold nextFreeAux at h2
    by_cases h : isMarked cs k = true
    · rw [if_pos h] at h2
      rcases Nat.eq_or_lt_of_le h1 with rfl | h1'
      · exact h
      · exact ih (k + 1) j h1' h2
    · rw [if_neg h] at h2; omega

theorem nextFreeAux_unmarked (cs : List Cell) :
    ∀ (f k : Nat), cs.length ≤ k + f → nextFreeAux cs f k < cs.length →
      isMarked cs (nextFreeAux cs f k) = false := by
  intro f
  induction f with
  | zero =>
    intro k h1 h2
    unfold nextFreeAux at h2 ⊢
    unfold isMarked
    rw [List.getElem?_eq_none (by omega)]
  | succ f ih =>
    intro k h1 h2
    unfold nextFreeAux at h2 ⊢
    by_cases h : isMarked cs k = true
    · rw [if_pos h] at h2 ⊢
      exact ih (k + 1) (by omega) h2
    · rw [if_neg h] at h2 ⊢
      exact Bool.not_eq_true _ ▸ h

theorem nextFree_le (cs : List Cell) (k : Nat) : k ≤ nextFree cs k :=
  nextFreeAux_le cs _ k

theorem nextFree_marked (cs : List Cell) (k j : Nat) (h1 : k ≤ j)
    (h2 : j < nextFree cs k) : isMarked cs j = true :=
  nextFreeAux_marked cs _ k j h1 h2

theorem nextFree_unmarked (cs : List Cell) (k : Nat)
    (h : nextFree cs k < cs.length) : isMarked cs (nextFree cs k) = false := by
  by_cases hk : k ≤ cs.length
  · exact nextFreeAux_unmarked cs _ k (by omega) h
  · have : nextFree cs k = k := by
      unfold nextFree
      rw [show cs.length - k = 0 from by omega]
      rfl
    rw [this] at h
    omega

theorem nextFree_le_len (cs : List Cell) (k : Nat) (h : k ≤ cs.length) :
    nextFree cs k ≤ cs.length :=
  le_trans (nextFreeAux_le_add cs _ k) (by omega)

theorem nextFree_gt (cs : List Cell) (k : Nat) (h : isMarked cs k = true)
    (hk : k < cs.length) : k + 1 ≤ nextFree cs k := by
  unfold nextFree
  rw [show cs.length - k = (cs.length - k - 1) + 1 from by omega]
  unfold nextFreeAux
  rw [if_pos h]
  exact nextFreeAux_le cs _ (k + 1)

theorem ptrList_mem {f : Field} {j : Nat} (h : f = .ptr j) : j ∈ ptrList f := by
  rw [h]
  simp [ptrList, fieldPtr]

theorem ptrList_mem_eq {f : Field} {j : Nat} (h : j ∈ ptrList f) : f = .ptr j := by
  cases f with
  | null => simp [ptrList, fieldPtr] at h
  | val v => simp [ptrList, fieldPtr] at h
  | ptr p =>
    simp [ptrList, fieldPtr] at h
    rw [h]

theorem isMarked_lt {cs : List Cell} {i : Nat} (h : isMarked cs i = true) :
    i < cs.length := by
  unfold isMarked at h
  cases hc : cs[i]? with
  | none => rw [hc] at h; cases h
  | some c => exact lt_of_getElem?_eq_some hc

theorem chainListN_mem_lt (cs : List Cell) :
    ∀ (fuel : Nat) (o : Option Nat) (j : Nat),
      j ∈ chainListN cs fuel o → j < cs.length := by
  intro fuel
  induction fuel with
  | zero =>
    intro o j h
    cases o with
    | none => simp [chainListN] at h
    | some p => simp [chainListN] at h
  | succ f ih =>
    intro o j h
    cases o with
    | none => simp [chainListN] at h
    | some p =>
      unfold chainListN at h
      cases hc : cs[p]? with
      | none => simp only [hc] at h; cases h
      | some c =>
        simp only [hc, List.mem_cons] at h
        rcases h with rfl | h
        · exact lt_of_getElem?_eq_some hc
        · exact ih _ j h

theorem succs_lt (cs : List Cell) (hwf : heapWF cs) (i j : Nat)
    (h : j ∈ succs cs i) : j < cs.length := by
  unfold succs at h
  cases hc : cs[i]? with
  | none => simp only [hc] at h; cases h
  | some c =>
    simp only [hc] at h
    have hmem : c ∈ cs := mem_of_getElem?_eq_some hc
    obtain ⟨hfo1, hfo2⟩ := hwf.1 c hmem
    by_cases hpc : pairCar c.car = true
    · rw [if_pos hpc] at h
      rcases List.mem_append.1 h with h | h
      · have := ptrList_mem_eq h
        rw [this] at hfo1
        simpa [fieldOk] using hfo1
      · have := ptrList_mem_eq h
        rw [this] at hfo2
        simpa [fieldOk] using hfo2
    · rw [if_neg hpc] at h
      by_cases har : c.car = .val ARRAY
      · rw [if_pos har] at h
        have := ptrList_mem_eq h
        rw [this] at hfo2
        simpa [fieldOk] using hfo2
      · rw [if_neg har] at h
        by_cases hsh : isStringHead c = true
        · rw [if_pos hsh] at h
          exact chainListN_mem_lt cs _ _ j h
        · rw [if_neg hsh] at h
          cases h

theorem reach_lt (cs : List Cell) (hwf : heapWF cs) (r x : Nat)
    (hr : r < cs.length) (h : Reach cs r x) : x < cs.length := by
  induction h with
  | refl => exact hr
  | tail hab hbc ih => exact succs_lt cs hwf _ _ hbc

theorem marked_field_targets (cs : List Cell) (hwf : heapWF cs)
    (hcl : MarkedClosed cs) (i : Nat) (c : Cell) (hc : cs[i]? = some c)
    (hm : c.mark = true) (hfix : moveFix c = true) :
    (∀ j, c.car = .ptr j → isMarked cs j = true) ∧
    (∀ j, c.cdr = .ptr j → isMarked cs j = true) := by
  have hmi : isMarked cs i = true := by unfold isMarked; rw [hc]; exact hm
  have hs := succs_some cs i c hc
  constructor
  · intro j hcar
    have hpc : pairCar c.car = true := by rw [hcar]; rfl
    refine hcl i hmi j ?_
    rw [hs, if_pos hpc]
    exact List.mem_append_left _ (ptrList_mem hcar)
  · intro j hcdr
    refine hcl i hmi j ?_
    by_cases hpc : pairCar c.car = true
    · rw [hs, if_pos hpc]
      exact List.mem_append_right _ (ptrList_mem hcdr)
    · have hjlt : j < cs.length := by
        obtain ⟨_, hfo2⟩ := hwf.1 c (mem_of_getElem?_eq_some hc)
        rw [hcdr] at hfo2
        simpa [fieldOk] using hfo2
      obtain ⟨cj, hcj⟩ : ∃ cj, cs[j]? = some cj :=
        ⟨cs[j], List.getElem?_eq_getElem hjlt⟩
      have hchain : j ∈ chainListN cs cs.length (fieldPtr c.cdr) := by
        rw [hcdr]
        obtain ⟨m, hm'⟩ : ∃ m, cs.length = m + 1 := ⟨cs.length - 1, by omega⟩
        rw [hm', show fieldPtr (Field.ptr j) = some j from rfl,
          chainListN_some m cs j cj hcj]
        exact List.mem_cons_self j _
      unfold moveFix at hfix
      simp only [Bool.or_eq_true, Bool.and_eq_true, decide_eq_true_eq] at hfix
      rcases hfix with ((hf | hf) | hf) | ⟨hf, hl⟩
      · exact absurd hf hpc
      · rw [hs, if_neg hpc, if_pos hf]
        exact ptrList_mem hcdr
      · have hsh : isStringHead c = true := by
          simp [isStringHead, hf]
        have har : ¬ c.car = .val ARRAY := by
          rw [hf]
          simp [STRING, ARRAY]
        rw [hs, if_neg hpc, if_neg har, if_pos hsh]
        exact hchain
      · have hsh : isStringHead c = true := by
          simp [isStringHead, hf, hl]
        have har : ¬ c.car = .val ARRAY := by
          rw [hf]
          simp [SYMBOL, ARRAY]
        rw [hs, if_neg hpc, if_neg har, if_pos hsh]
        exact hchain

theorem chainOk_step (cs : List Cell) (f : Nat) (j : Nat) (c : Cell)
    (hc : cs[j]? = some c) (hcarp : pairCar c.car = true) (v : Nat)
    (hcdr : c.cdr = .val v) (hrec : chainOk cs f (fieldPtr c.car) = true) :
    chainOk cs (f + 1) (some j) = true := by
  unfold chainOk
  simp only [hc]
  cases hcv : c.car with
  | val t => rw [hcv] at hcarp; exact Bool.noConfusion hcarp
  | null =>
    rw [hcv] at hrec
    simp only [hcv, hcdr]
    exact hrec
  | ptr p =>
    rw [hcv] at hrec
    simp only [hcv, hcdr]
    exact hrec

theorem chainOk_rename (cs0 cs' : List Cell) (π : Nat → Nat)
    (hcl : MarkedClosed cs0)
    (hcell : ∀ i, isMarked cs0 i = true →
      ∃ c, cs0[i]? = some c ∧ cs'[π i]? = some (renameCell π c)) :
    ∀ (fuel : Nat) (o : Option Nat),
      chainOk cs0 fuel o = true →
      (∀ j, o = some j → isMarked cs0 j = true) →
      chainOk cs' fuel (o.map π) = true := by
  intro fuel
  induction fuel with
  | zero =>
    intro o h hmk
    cases o with
    | none => rfl
    | some j => simp [chainOk] at h
  | succ f ih =>
    intro o h hmk
    cases o with
    | none => rfl
    | some j =>
      have hjm := hmk j rfl
      obtain ⟨c, hc0, hc'⟩ := hcell j hjm
      unfold chainOk at h
      simp only [hc0] at h
      have hprops : pairCar c.car = true ∧ (∃ v, c.cdr = .val v) ∧
          chainOk cs0 f (fieldPtr c.car) = true := by
        cases hcar : c.car with
        | val v =>
          simp only [hcar] at h
          exact Bool.noConfusion h
        | null =>
          cases hcdr : c.cdr with
          | val v =>
            simp only [hcar, hcdr] at h
            exact ⟨rfl, ⟨v, rfl⟩, h⟩
          | null => simp only [hcar, hcdr] at h; exact Bool.noConfusion h
          | ptr p => simp only [hcar, hcdr] at h; exact Bool.noConfusion h
        | ptr q =>
          cases hcdr : c.cdr with
          | val v =>
            simp only [hcar, hcdr] at h
            exact ⟨rfl, ⟨v, rfl⟩, h⟩
          | null => simp only [hcar, hcdr] at h; exact Bool.noConfusion h
          | ptr p => simp only [hcar, hcdr] at h; exact Bool.noConfusion h
      obtain ⟨hpc, ⟨v, hcdrv⟩, hrec0⟩ := hprops
      have hfix : moveFix c = true := by
        unfold moveFix
        rw [hpc]
        rfl
      have hrc : renameCell π c =
          { c with car := mapPtr π c.car, cdr := mapPtr π c.cdr } := by
        unfold renameCell
        rw [if_pos hfix]
      have hnext : ∀ n, fieldPtr c.car = some n → isMarked cs0 n = true := by
        intro n hfp
        have hcarn : c.car = .ptr n := by
          cases hcv : c.car with
          | null => rw [hcv] at hfp; cases hfp
          | val t => rw [hcv] at hfp; cases hfp
          | ptr p =>
            rw [hcv] at hfp
            have : p = n := by simpa [fieldPtr] using hfp
            rw [this]
        refine hcl j hjm n ?_
        rw [succs_some cs0 j c hc0, if_pos hpc]
        exact List.mem_append_left _ (ptrList_mem hcarn)
      have hih := ih (fieldPtr c.car) hrec0 hnext
      show chainOk cs' (f + 1) (some (π j)) = true
      refine chainOk_step cs' f (π j) (renameCell π c) hc' ?_ v ?_ ?_
      · rw [hrc]
        show pairCar (mapPtr π c.car) = true
        rw [pairCar_mapPtr]
        exact hpc
      · rw [hrc]
        show mapPtr π c.cdr = .val v
        rw [hcdrv]
        rfl
      · rw [hrc]
        show chainOk cs' f (fieldPtr (mapPtr π c.car)) = true
        rw [fieldPtr_mapPtr]
        exact hih

theorem markedCount_initseg : ∀ (cs : List Cell) (n : Nat), n ≤ cs.length →
    (∀ k, k < cs.length → (isMarked cs k = true ↔ k < n)) →
    markedCount cs = n := by
  intro cs
  induction cs with
  | nil =>
    intro n h _
    unfold markedCount
    simp at h ⊢
    omega
  | cons a t ih =>
    intro n hn hiff
    have hm0 : isMarked (a :: t) 0 = a.mark := by
      unfold isMarked
      rw [List.getElem?_cons_zero]
    have hshift : ∀ k, isMarked (a :: t) (k + 1) = isMarked t k := by
      intro k
      unfold isMarked
      rw [List.getElem?_cons_succ]
    match n with
    | 0 =>
      have ht : ∀ k, k < t.length → (isMarked t k = true ↔ k < 0) := by
        intro k hk
        have h2 := hiff (k + 1) (by simp; omega)
        rw [hshift k] at h2
        constructor
        · intro hmk
          have := h2.1 hmk
          omega
        · intro hk0
          omega
      have hcount := ih 0 (by omega) ht
      have ham : a.mark = false := by
        cases hma : a.mark
        · rfl
        · have := (hiff 0 (by simp)).1 (by rw [hm0, hma])
          omega
      unfold markedCount at hcount ⊢
      rw [List.countP_cons]
      simp [ham, hcount]
    | n + 1 =>
      have ham : a.mark = true := by
        rw [← hm0]
        exact (hiff 0 (by simp)).2 (by omega)
      have ht : ∀ k, k < t.length → (isMarked t k = true ↔ k < n) := by
        intro k hk
        have h2 := hiff (k + 1) (by simp; omega)
        rw [hshift k] at h2
        constructor
        · intro hmk
          have := h2.1 hmk
          omega
        · intro hkn
          exact h2.2 (by omega)
      have hcount := ih n (by simp at hn; omega) ht
      unfold markedCount at hcount ⊢
      rw [List.countP_cons]
      simp [ham, hcount]

theorem countP_isMarked : ∀ cs : List Cell,
    (List.range cs.length).countP (fun i => isMarked cs i) = markedCount cs := by
  intro cs
  induction cs using List.reverseRecOn with
  | nil => rfl
  | append_singleton t c ih =>
    have hlen : (t ++ [c]).length = t.length + 1 := by simp
    have hagree : ∀ i ∈ List.range t.length,
        (isMarked (t ++ [c]) i = true ↔ isMarked t i = true) := by
      intro i hi
      have hi' : i < t.length := List.mem_range.1 hi
      unfold isMarked
      rw [List.getElem?_append, if_pos hi']
    have hlast : isMarked (t ++ [c]) t.length = c.mark := by
      unfold isMarked
      rw [List.getElem?_concat_length]
    rw [hlen, List.range_succ, List.countP_append,
      List.countP_congr hagree, ih]
    unfold markedCount
    rw [List.countP_append]
    simp [List.countP_cons, hlast]

theorem rootsReach_three (cs : List Cell) (a b c : Option Nat) (x : Nat) :
    RootsReach cs [a, b, c, none, none] x ↔ RootsReach cs [a, b, c] x := by
  constructor
  · rintro ⟨r, hr, hreach⟩
    refine ⟨r, ?_, hreach⟩
    simp at hr ⊢
    tauto
  · rintro ⟨r, hr, hreach⟩
    refine ⟨r, ?_, hreach⟩
    simp at hr ⊢
    tauto

theorem markPhase3_marked (cs : List Cell) (tee genv gcs : Option Nat)
    (hwf : heapWF cs) (hum : allUnmarked cs)
    (hroots : ∀ o ∈ [tee, genv, gcs], rootOk cs.length o) :
    ∀ x, isMarked (markobject (markobject (markobject cs tee) genv) gcs) x
        = true ↔ RootsReach cs [tee, genv, gcs] x := by
  have hroots5 : ∀ o ∈ [tee, genv, gcs, none, none], rootOk cs.length o := by
    intro o ho
    simp at ho
    rcases ho with rfl | rfl | rfl | rfl
    · exact hroots _ (by simp)
    · exact hroots _ (by simp)
    · exact hroots _ (by simp)
    · trivial
  have h5 := markPhase_marked cs tee genv gcs none none hwf hum hroots5
  have hnone : markobject (markobject (markobject (markobject
      (markobject cs tee) genv) gcs) none) none
      = markobject (markobject (markobject cs tee) genv) gcs := by
    unfold markobject
    rw [markFuel_none, markFuel_none]
  rw [hnone] at h5
  intro x
  rw [h5 x]
  exact rootsReach_three cs tee genv gcs x

theorem markPhase3_closed (cs : List Cell) (tee genv gcs : Option Nat)
    (hwf : heapWF cs) (hum : allUnmarked cs)
    (hroots : ∀ o ∈ [tee, genv, gcs], rootOk cs.length o) :
    MarkedClosed (markobject (markobject (markobject cs tee) genv) gcs) := by
  intro i hi j hj
  have hsf : SameFields cs
      (markobject (markobject (markobject cs tee) genv) gcs) :=
    sameFields_trans (sameFields_trans (sameFields_markFuel _ _ _)
      (sameFields_markFuel _ _ _)) (sameFields_markFuel _ _ _)
  rw [markPhase3_marked cs tee genv gcs hwf hum hroots] at hi ⊢
  obtain ⟨r, hrm, hreach⟩ := hi
  refine ⟨r, hrm, hreach.tail ?_⟩
  show Edge cs i j
  unfold Edge
  rwa [succs_congr hsf] at hj

theorem cell_eta_mark (c : Cell) (h : c.mark = true) :
    ({ car := c.car, cdr := c.cdr, mark := true } : Cell) = c := by
  cases c with
  | mk a b m =>
    simp only at h
    rw [h]

theorem compactMove_eq (st : CompactSt) (o ff : Nat) (c : Cell)
    (h : st.cells[o]? = some c) :
    compactMove st o ff =
      { cells := movepointer o ff ((st.cells.set ff
          { car := c.car, cdr := c.cdr, mark := true }).set o
            { c with mark := false })
        genv := if st.genv = some o then some ff else st.genv
        gcstack := if st.gcstack = some o then some ff else st.gcstack
        arg := if st.arg = some o then some ff else st.arg } := by
  unfold compactMove
  rw [h]

theorem movepointer1_at (o ff : Nat) (cs : List Cell) (k : Nat) (c : Cell)
    (hk : cs[k]? = some c) (hm : c.mark = true) :
    (movepointer1 o ff cs)[k]? = some (if moveFix c then
      { c with car := fixField o ff c.car, cdr := fixField o ff c.cdr }
    else c) := by
  rw [movepointer1_getElem, hk]
  simp only [Option.map_some']
  congr 1
  by_cases hfix : moveFix c = true
  · rw [if_pos hfix, if_pos (by rw [hm, hfix]; rfl)]
  · rw [if_neg hfix, if_neg (by rw [hm, Bool.true_and]; exact hfix)]

theorem fix_renameCell (π : Nat → Nat) (o ff : Nat) (c : Cell) :
    (if moveFix (renameCell π c) then
      { renameCell π c with
        car := fixField o ff (renameCell π c).car,
        cdr := fixField o ff (renameCell π c).cdr }
    else renameCell π c)
    = renameCell (fun i => if π i = o then ff else π i) c := by
  by_cases hfix : moveFix c = true
  · rw [if_pos (by rw [moveFix_renameCell]; exact hfix)]
    have hrc : renameCell π c =
        { c with car := mapPtr π c.car, cdr := mapPtr π c.cdr } := by
      unfold renameCell
      rw [if_pos hfix]
    have hrc' : renameCell (fun i => if π i = o then ff else π i) c =
        { c with
          car := mapPtr (fun i => if π i = o then ff else π i) c.car,
          cdr := mapPtr (fun i => if π i = o then ff else π i) c.cdr } := by
      unfold renameCell
      rw [if_pos hfix]
    rw [hrc, hrc']
    show Cell.mk (fixField o ff (mapPtr π c.car)) (fixField o ff (mapPtr π c.cdr))
        c.mark
      = Cell.mk (mapPtr (fun i => if π i = o then ff else π i) c.car)
        (mapPtr (fun i => if π i = o then ff else π i) c.cdr) c.mark
    rw [fixField_mapPtr, fixField_mapPtr]
  · rw [if_neg (by rw [moveFix_renameCell]; exact hfix)]
    unfold renameCell
    rw [if_neg hfix, if_neg hfix]

theorem moveFix_of_stringHead (c : Cell) (h : isStringHead c = true) :
    moveFix c = true := by
  unfold moveFix isStringHead at *
  simp only [Bool.or_eq_true, Bool.and_eq_true] at h ⊢
  tauto

theorem rootMapped_step (cs0 : List Cell) (π : Nat → Nat) (o ff : Nat)
    (hoMark : isMarked cs0 (o + 1) = true)
    (r0 r : Option Nat) (h : rootMapped cs0 π r0 r) :
    rootMapped cs0 (fun i => if π i = o + 1 then ff else π i) r0
      (if r = some (o + 1) then some ff else r) := by
  obtain ⟨hnone, hsome⟩ := h
  constructor
  · intro h0
    rw [hnone h0]
    simp
  · intro x hx
    obtain ⟨hxm, hxu⟩ := hsome x hx
    constructor
    · intro hmx
      rw [hxm hmx]
      by_cases hc2 : π x = o + 1
      · rw [if_pos (by rw [hc2])]
        simp [hc2]
      · rw [if_neg (by simp [hc2])]
        simp [hc2]
    · intro hux
      have hxne : x ≠ o + 1 := by
        intro hxe
        rw [hxe] at hux
        rw [hoMark] at hux
        cases hux
      rw [hxu hux, if_neg (by simp [hxne])]

theorem compactStep_inv (cs0 : List Cell) (st0 : CompactSt)
    (hwf : heapWF cs0) (hcl : MarkedClosed cs0)
    (π : Nat → Nat) (o ff : Nat) (st : CompactSt)
    (hinv : CompactInv cs0 st0 π (o + 1) ff st)
    (hlt : ff < o + 1) (hmk : isMarked st.cells (o + 1) = true) :
    CompactInv cs0 st0 (fun i => if π i = o + 1 then ff else π i) o
      (nextFree (compactMove st (o + 1) ff).cells ff)
      (compactMove st (o + 1) ff) := by
  obtain ⟨hlen, hcell, hinj, hiff, hcount, hmov, hbelow, hffm, hffle, habove,
    hrg, hrs, hra⟩ := hinv
  obtain ⟨i₀, hmi₀, hπi₀⟩ := (hiff (o + 1)).1 hmk
  obtain ⟨hπ0lt, c₀, hc₀, hcR⟩ := hcell i₀ hmi₀
  rw [hπi₀] at hcR
  have hc₀m : c₀.mark = true := by
    unfold isMarked at hmi₀
    simp only [hc₀] at hmi₀
    exact hmi₀
  have hcRm : (renameCell π c₀).mark = true := by
    rw [renameCell_mark]
    exact hc₀m
  have holt : o + 1 < st.cells.length := isMarked_lt hmk
  have hfflt : ff < st.cells.length := by omega
  have hffunm : isMarked st.cells ff = false := hffm hfflt
  have hπne_ff : ∀ i, isMarked cs0 i = true → π i ≠ ff := by
    intro i hi heq
    have hmkff : isMarked st.cells ff = true := (hiff ff).2 ⟨i, hi, heq⟩
    rw [hmkff] at hffunm
    cases hffunm
  have hself : π i₀ = i₀ := by
    by_contra hne
    have := hmov i₀ hmi₀ hne
    omega
  have hi₀eq : i₀ = o + 1 := by rw [← hself, hπi₀]
  have hoMark0 : isMarked cs0 (o + 1) = true := by
    rw [← hi₀eq]
    exact hmi₀
  rw [compactMove_eq st (o + 1) ff (renameCell π c₀) hcR,
    cell_eta_mark (renameCell π c₀) hcRm]
  set cs1 : List Cell := (st.cells.set ff (renameCell π c₀)).set (o + 1)
    { renameCell π c₀ with mark := false } with hcs1
  have hcs1len : cs1.length = st.cells.length := by
    rw [hcs1]
    simp
  have hcs1_other : ∀ k, k ≠ ff → k ≠ o + 1 → cs1[k]? = st.cells[k]? := by
    intro k h1 h2
    rw [hcs1, List.getElem?_set_ne (Ne.symm h2), List.getElem?_set_ne (Ne.symm h1)]
  have hcs1_ff : cs1[ff]? = some (renameCell π c₀) := by
    rw [hcs1, List.getElem?_set_ne (show o + 1 ≠ ff from by omega)]
    exact List.getElem?_set_eq_of_lt _ hfflt
  have hcs1_o : cs1[o + 1]? = some { renameCell π c₀ with mark := false } := by
    rw [hcs1]
    exact List.getElem?_set_eq_of_lt _ (by rw [List.length_set]; exact holt)
  have hm1ff : isMarked cs1 ff = true := by
    unfold isMarked
    simp only [hcs1_ff]
    exact hcRm
  have hm1o : isMarked cs1 (o + 1) = false := by
    unfold isMarked
    simp only [hcs1_o]
  have hm1other : ∀ k, k ≠ ff → k ≠ o + 1 →
      isMarked cs1 k = isMarked st.cells k := by
    intro k h1 h2
    unfold isMarked
    rw [hcs1_other k h1 h2]
  have hm1 : ∀ k, isMarked cs1 k =
      if k = ff then true else if k = o + 1 then false
      else isMarked st.cells k := by
    intro k
    by_cases h1 : k = ff
    · rw [if_pos h1, h1]
      exact hm1ff
    · rw [if_neg h1]
      by_cases h2 : k = o + 1
      · rw [if_pos h2, h2]
        exact hm1o
      · rw [if_neg h2]
        exact hm1other k h1 h2
  have hms2 : ∀ k, isMarked (movepointer1 (o + 1) ff cs1) k = isMarked cs1 k :=
    fun k => isMarked_movepointer1 _ _ _ k
  have hcellnew : ∀ i, isMarked cs0 i = true →
      ∃ c, cs0[i]? = some c ∧
        (movepointer1 (o + 1) ff cs1)[(fun i => if π i = o + 1 then ff
          else π i) i]?
          = some (renameCell (fun i => if π i = o + 1 then ff else π i) c) := by
    intro i hi
    obtain ⟨hπlt, c, hc, hcold⟩ := hcell i hi
    have hcm : c.mark = true := by
      unfold isMarked at hi
      simp only [hc] at hi
      exact hi
    refine ⟨c, hc, ?_⟩
    show (movepointer1 (o + 1) ff cs1)[if π i = o + 1 then ff else π i]?
      = some (renameCell (fun i => if π i = o + 1 then ff else π i) c)
    by_cases hcase : π i = o + 1
    · have hii₀ : i = i₀ := hinj i i₀ hi hmi₀ (by rw [hcase, hπi₀])
      have hcc₀ : c = c₀ := by
        rw [hii₀] at hc
        rw [hc] at hc₀
        exact Option.some_inj.mp hc₀
      rw [if_pos hcase]
      rw [movepointer1_at (o + 1) ff cs1 ff (renameCell π c)
        (by rw [hcc₀]; exact hcs1_ff)
        (by rw [renameCell_mark]; exact hcm)]
      rw [fix_renameCell]
    · rw [if_neg hcase]
      rw [movepointer1_at (o + 1) ff cs1 (π i) (renameCell π c)
        (by rw [hcs1_other (π i) (hπne_ff i hi) hcase]; exact hcold)
        (by rw [renameCell_mark]; exact hcm)]
      rw [fix_renameCell]
  have hmarked2_inv : ∀ k, isMarked (movepointer1 (o + 1) ff cs1) k = true →
      ∃ i, isMarked cs0 i = true ∧
        (fun i => if π i = o + 1 then ff else π i) i = k := by
    intro k hk
    rw [hms2 k, hm1 k] at hk
    by_cases h1 : k = ff
    · refine ⟨i₀, hmi₀, ?_⟩
      show (if π i₀ = o + 1 then ff else π i₀) = k
      rw [if_pos hπi₀, h1]
    · rw [if_neg h1] at hk
      by_cases h2 : k = o + 1
      · rw [if_pos h2] at hk
        cases hk
      · rw [if_neg h2] at hk
        obtain ⟨i, hi, hπik⟩ := (hiff k).1 hk
        refine ⟨i, hi, ?_⟩
        show (if π i = o + 1 then ff else π i) = k
        rw [if_neg (by rw [hπik]; exact h2), hπik]
  have hmarked2_fwd : ∀ i, isMarked cs0 i = true →
      isMarked (movepointer1 (o + 1) ff cs1)
        ((fun i => if π i = o + 1 then ff else π i) i) = true := by
    intro i hi
    show isMarked (movepointer1 (o + 1) ff cs1)
      (if π i = o + 1 then ff else π i) = true
    by_cases hc2 : π i = o + 1
    · rw [if_pos hc2, hms2 ff, hm1 ff]
      simp
    · rw [if_neg hc2, hms2 (π i), hm1 (π i),
        if_neg (hπne_ff i hi), if_neg hc2]
      exact (hiff (π i)).2 ⟨i, hi, rfl⟩
  have hchains : ∀ (k : Nat) (c : Cell),
      (movepointer1 (o + 1) ff cs1)[k]? = some c → c.mark = true →
      isStringHead c = true →
      chainOk (movepointer1 (o + 1) ff cs1)
        (movepointer1 (o + 1) ff cs1).length (fieldPtr c.cdr) = true := by
    intro k c hk hcm hsh
    have hkm : isMarked (movepointer1 (o + 1) ff cs1) k = true := by
      unfold isMarked
      simp only [hk]
      exact hcm
    obtain ⟨i, hi, hπ'i⟩ := hmarked2_inv k hkm
    obtain ⟨ci, hci, hci2⟩ := hcellnew i hi
    rw [hπ'i, hk] at hci2
    have hceq : c = renameCell (fun i => if π i = o + 1 then ff else π i) ci :=
      Option.some_inj.mp hci2
    have hshi : isStringHead ci = true := by
      rw [hceq, isStringHead_renameCell] at hsh
      exact hsh
    have hfixi : moveFix ci = true := moveFix_of_stringHead ci hshi
    have hcim : ci.mark = true := by
      unfold isMarked at hi
      simp only [hci] at hi
      exact hi
    have hwfchain : chainOk cs0 cs0.length (fieldPtr ci.cdr) = true :=
      hwf.2.2 ci (mem_of_getElem?_eq_some hci) hshi
    have hstart : ∀ j, fieldPtr ci.cdr = some j → isMarked cs0 j = true := by
      intro j hj
      exact (marked_field_targets cs0 hwf hcl i ci hci hcim hfixi).2 j
        (fieldPtr_eq_some hj)
    have htrans := chainOk_rename cs0 (movepointer1 (o + 1) ff cs1)
      (fun i => if π i = o + 1 then ff else π i) hcl hcellnew cs0.length
      (fieldPtr ci.cdr) hwfchain hstart
    rw [hceq]
    have hcdr2 : (renameCell (fun i => if π i = o + 1 then ff else π i) ci).cdr
        = mapPtr (fun i => if π i = o + 1 then ff else π i) ci.cdr := by
      unfold renameCell
      rw [if_pos hfixi]
    rw [hcdr2, fieldPtr_mapPtr]
    rw [show (movepointer1 (o + 1) ff cs1).length = cs0.length from by
      rw [movepointer1_length, hcs1len, hlen]]
    exact htrans
  have hid : movepointer (o + 1) ff cs1 = movepointer1 (o + 1) ff cs1 := by
    unfold movepointer
    exact movepointer2_id (o + 1) ff _ hchains
  rw [hid]
  obtain ⟨cf, hcf⟩ : ∃ cf, st.cells[ff]? = some cf :=
    ⟨st.cells[ff], List.getElem?_eq_getElem hfflt⟩
  have hcfm : cf.mark = false := by
    unfold isMarked at hffunm
    simp only [hcf] at hffunm
    exact hffunm
  have he1 := countP_set (·.mark) st.cells ff cf (renameCell π c₀) hcf
  have he2 := countP_set (·.mark) (st.cells.set ff (renameCell π c₀)) (o + 1)
    (renameCell π c₀) { renameCell π c₀ with mark := false }
    (by rw [List.getElem?_set_ne (show ff ≠ o + 1 from by omega)]; exact hcR)
  simp only [hcfm, hcRm] at he1 he2
  have hmcs1 : markedCount cs1 = markedCount st.cells := by
    unfold markedCount
    rw [hcs1]
    show ((st.cells.set ff (renameCell π c₀)).set (o + 1)
        { car := (renameCell π c₀).car,
          cdr := (renameCell π c₀).cdr,
          mark := false }).countP (·.mark)
      = st.cells.countP (·.mark)
    simp at he1 he2
    omega
  have hffgt : ff + 1 ≤ nextFree (movepointer1 (o + 1) ff cs1) ff :=
    nextFree_gt _ ff (by rw [hms2 ff]; exact hm1ff)
      (by rw [movepointer1_length, hcs1len]; omega)
  have hffle2 : ff ≤ (movepointer1 (o + 1) ff cs1).length := by
    rw [movepointer1_length, hcs1len]
    omega
  unfold CompactInv
  refine ⟨?_, ?_, ?_, ?_, ?_, ?_, ?_, ?_, ?_, ?_, ?_, ?_, ?_⟩
  · show (movepointer1 (o + 1) ff cs1).length = cs0.length
    rw [movepointer1_length, hcs1len, hlen]
  · intro i hi
    obtain ⟨c, hc, hnew⟩ := hcellnew i hi
    refine ⟨?_, c, hc, hnew⟩
    show (if π i = o + 1 then ff else π i) < cs0.length
    by_cases hc2 : π i = o + 1
    · rw [if_pos hc2]
      omega
    · rw [if_neg hc2]
      exact (hcell i hi).1
  · intro i j hi hj he
    show i = j
    have hei : (if π i = o + 1 then ff else π i)
        = (if π j = o + 1 then ff else π j) := he
    by_cases hci : π i = o + 1 <;> by_cases hcj : π j = o + 1
    · exact hinj i j hi hj (by rw [hci, hcj])
    · rw [if_pos hci, if_neg hcj] at hei
      exact absurd hei.symm (hπne_ff j hj)
    · rw [if_neg hci, if_pos hcj] at hei
      exact absurd hei (hπne_ff i hi)
    · rw [if_neg hci, if_neg hcj] at hei
      exact hinj i j hi hj hei
  · intro k
    exact ⟨hmarked2_inv k, fun ⟨i, hi, he⟩ => he ▸ hmarked2_fwd i hi⟩
  · show markedCount (movepointer1 (o + 1) ff cs1) = markedCount cs0
    rw [markedCount_movepointer1, hmcs1, hcount]
  · intro i hi hne
    show (if π i = o + 1 then ff else π i)
      < nextFree (movepointer1 (o + 1) ff cs1) ff
    by_cases hc2 : π i = o + 1
    · rw [if_pos hc2]
      omega
    · rw [if_neg hc2]
      have hne' : π i ≠ i := by
        intro he
        apply hne
        show (if π i = o + 1 then ff else π i) = i
        rw [if_neg hc2]
        exact he
      have h1 := hmov i hi hne'
      have h2 := nextFree_le (movepointer1 (o + 1) ff cs1) ff
      omega
  · intro j hj
    by_cases hjff : j < ff
    · rw [hms2 j, hm1 j, if_neg (by omega), if_neg (by omega)]
      exact hbelow j hjff
    · exact nextFree_marked _ ff j (by omega) hj
  · intro hlt2
    exact nextFree_unmarked _ ff hlt2
  · exact nextFree_le_len _ ff hffle2
  · intro j hj
    rw [hms2 j, hm1 j, if_neg (by omega)]
    by_cases h2 : j = o + 1
    · rw [if_pos h2]
    · rw [if_neg h2]
      exact habove j (by omega)
  · exact rootMapped_step cs0 π o ff hoMark0 st0.genv st.genv hrg
  · exact rootMapped_step cs0 π o ff hoMark0 st0.gcstack st.gcstack hrs
  · exact rootMapped_step cs0 π o ff hoMark0 st0.arg st.arg hra

theorem compactInv_seg (cs0 : List Cell) (st0 : CompactSt) (π : Nat → Nat)
    (obj ff : Nat) (st : CompactSt) (hinv : CompactInv cs0 st0 π obj ff st)
    (hexit : obj ≤ ff) :
    ∀ k, isMarked st.cells k = true ↔ k < ff := by
  obtain ⟨hlen, hcell, hinj, hiff, hcount, hmov, hbelow, hffm, hffle, habove,
    _, _, _⟩ := hinv
  intro k
  constructor
  · intro hk
    have hkobj : k ≤ obj := by
      by_contra h
      have := habove k (by omega)
      rw [this] at hk
      cases hk
    have hklen : k < st.cells.length := isMarked_lt hk
    by_cases hkff : k = ff
    · have hffu := hffm (by omega)
      rw [hkff, hffu] at hk
      cases hk
    · omega
  · exact hbelow k

theorem compactAux_post (cs0 : List Cell) (st0 : CompactSt)
    (hwf : heapWF cs0) (hcl : MarkedClosed cs0) :
    ∀ (obj : Nat) (ff : Nat) (st : CompactSt) (π : Nat → Nat),
      CompactInv cs0 st0 π obj ff st →
      ∃ π' : Nat → Nat,
        (compactAux obj ff st).2.cells.length = cs0.length ∧
        (∀ i, isMarked cs0 i = true → π' i < cs0.length ∧
          ∃ c, cs0[i]? = some c ∧
            (compactAux obj ff st).2.cells[π' i]? = some (renameCell π' c)) ∧
        (∀ i j, isMarked cs0 i = true → isMarked cs0 j = true →
          π' i = π' j → i = j) ∧
        markedCount (compactAux obj ff st).2.cells = markedCount cs0 ∧
        (∀ k, isMarked (compactAux obj ff st).2.cells k = true ↔
          ∃ i, isMarked cs0 i = true ∧ π' i = k) ∧
        (∀ k, isMarked (compactAux obj ff st).2.cells k = true ↔
          k < (compactAux obj ff st).1) ∧
        (compactAux obj ff st).1 ≤ cs0.length ∧
        rootMapped cs0 π' st0.genv (compactAux obj ff st).2.genv ∧
        rootMapped cs0 π' st0.gcstack (compactAux obj ff st).2.gcstack ∧
        rootMapped cs0 π' st0.arg (compactAux obj ff st).2.arg := by
  intro obj
  induction obj with
  | zero =>
    intro ff st π hinv
    have hseg := compactInv_seg cs0 st0 π 0 ff st hinv (by omega)
    obtain ⟨hlen, hcell, hinj, hiff, hcount, hmov, hbelow, hffm, hffle,
      habove, hrg, hrs, hra⟩ := hinv
    exact ⟨π, hlen, hcell, hinj, hcount, hiff, hseg,
      by show ff ≤ cs0.length; omega, hrg, hrs, hra⟩
  | succ o iho =>
    intro ff st π hinv
    by_cases hguard : ff < o + 1
    · by_cases hm : isMarked st.cells (o + 1) = true
      · have hstep := compactStep_inv cs0 st0 hwf hcl π o ff st hinv hguard hm
        have hrec := iho (nextFree (compactMove st (o + 1) ff).cells ff)
          (compactMove st (o + 1) ff)
          (fun i => if π i = o + 1 then ff else π i) hstep
        have hred : compactAux (o + 1) ff st
            = compactAux o (nextFree (compactMove st (o + 1) ff).cells ff)
              (compactMove st (o + 1) ff) := by
          rw [compactAux, if_pos hguard, if_pos hm]
        rw [hred]
        exact hrec
      · rw [Bool.not_eq_true] at hm
        have hinv' : CompactInv cs0 st0 π o ff st := by
          obtain ⟨h1, h2, h3, h4, h5, h6, h7, h8, h9, h10, h11, h12, h13⟩ :=
            hinv
          refine ⟨h1, h2, h3, h4, h5, h6, h7, h8, h9, ?_, h11, h12, h13⟩
          intro j hj
          by_cases hje : j = o + 1
          · rw [hje]
            exact hm
          · exact h10 j (by omega)
        have hrec := iho ff st π hinv'
        have hred : compactAux (o + 1) ff st = compactAux o ff st := by
          rw [compactAux, if_pos hguard, if_neg (by rw [hm]; simp)]
        rw [hred]
        exact hrec
    · have hred : compactAux (o + 1) ff st = (ff, st) := by
        rw [compactAux, if_neg hguard]
      have hseg := compactInv_seg cs0 st0 π (o + 1) ff st hinv (by omega)
      obtain ⟨hlen, hcell, hinj, hiff, hcount, hmov, hbelow, hffm, hffle,
        habove, hrg, hrs, hra⟩ := hinv
      rw [hred]
      exact ⟨π, hlen, hcell, hinj, hcount, hiff, hseg,
        by show ff ≤ cs0.length; omega, hrg, hrs, hra⟩

theorem renameCell_fields_mark (π : Nat → Nat) (c c' : Cell)
    (hcar : c'.car = c.car) (hcdr : c'.cdr = c.cdr) :
    renameCell π c' = { renameCell π c with mark := c'.mark } := by
  have hfix : moveFix c' = moveFix c := by
    unfold moveFix
    rw [hcar, hcdr]
  unfold renameCell
  by_cases h : moveFix c = true
  · rw [if_pos h, if_pos (by rw [hfix]; exact h)]
    show Cell.mk (mapPtr π c'.car) (mapPtr π c'.cdr) c'.mark
      = Cell.mk (mapPtr π c.car) (mapPtr π c.cdr) c'.mark
    rw [hcar, hcdr]
  · rw [if_neg (by rw [hfix]; exact h), if_neg h]
    show Cell.mk c'.car c'.cdr c'.mark = Cell.mk c.car c.cdr c'.mark
    rw [hcar, hcdr]

theorem compactInv_init (csm : List Cell) (st : CompactSt) :
    CompactInv csm { st with cells := csm } (fun i => i)
      (csm.length - 1) (nextFree csm 0) { st with cells := csm } := by
  refine ⟨rfl, ?_, ?_, ?_, rfl, ?_, ?_, ?_, ?_, ?_, ?_, ?_, ?_⟩
  · intro i hi
    have hlt := isMarked_lt hi
    refine ⟨hlt, ?_⟩
    obtain ⟨c, hc⟩ : ∃ c, csm[i]? = some c :=
      ⟨csm[i], List.getElem?_eq_getElem hlt⟩
    exact ⟨c, hc, by rw [renameCell_id]; exact hc⟩
  · intro i j _ _ h
    exact h
  · intro k
    exact ⟨fun h => ⟨k, h, rfl⟩, fun ⟨i, hi, he⟩ => he ▸ hi⟩
  · intro i _ h
    exact absurd rfl h
  · intro j hj
    exact nextFree_marked csm 0 j (by omega) hj
  · intro h
    exact nextFree_unmarked csm 0 h
  · exact nextFree_le_len csm 0 (by omega)
  · intro j hj
    show isMarked csm j = false
    unfold isMarked
    rw [List.getElem?_eq_none (by omega)]
  · exact ⟨fun h => h, fun x hx => ⟨fun _ => hx, fun _ => hx⟩⟩
  · exact ⟨fun h => h, fun x hx => ⟨fun _ => hx, fun _ => hx⟩⟩
  · exact ⟨fun h => h, fun x hx => ⟨fun _ => hx, fun _ => hx⟩⟩

/-- C2 (amended): `compactimage(&R)` marks from `{t, GlobalEnv, GCStack}`
only — the root argument `R` is *not* marked.  On a well-formed, fully
unmarked heap with in-range root variables there is a relocation map `π`
with: the returned count is the number of cells reachable from
`{t, GlobalEnv, GCStack}` (cells reachable only from `R` are not
counted); `π` maps the reachable cells injectively onto the arena slots
`[0, count)`, each relocated cell holding its original fields with every
collector-visible pointer renamed by `π` and the mark bit clear; the
slots `[count, size)` are exactly the rebuilt free list; `GlobalEnv`,
`GCStack` are rewritten to `π` of their old values, and `*R` is rewritten
to `π R` when `R` was reachable from the three marked roots but is left
dangling at its old address otherwise. -/
theorem compactimage_spec (tee : Option Nat) (st : CompactSt)
    (hwf : heapWF st.cells) (hum : allUnmarked st.cells)
    (hroots : ∀ o ∈ [tee, st.genv, st.gcstack], rootOk st.cells.length o) :
    ∃ π : Nat → Nat,
      (∃ live : List Nat, live.Nodup ∧
        (∀ i, i ∈ live ↔ i < st.cells.length ∧
          RootsReach st.cells [tee, st.genv, st.gcstack] i) ∧
        (compactimage tee st).count = live.length) ∧
      (compactimage tee st).heap.cells.length = st.cells.length ∧
      (compactimage tee st).count ≤ st.cells.length ∧
      (∀ i, RootsReach st.cells [tee, st.genv, st.gcstack] i →
        π i < (compactimage tee st).count ∧
        ∃ c, st.cells[i]? = some c ∧
          (compactimage tee st).heap.cells[π i]?
            = some { renameCell π c with mark := false }) ∧
      (∀ i j, RootsReach st.cells [tee, st.genv, st.gcstack] i →
        RootsReach st.cells [tee, st.genv, st.gcstack] j →
        π i = π j → i = j) ∧
      (∀ k, k < (compactimage tee st).count →
        ∃ i, RootsReach st.cells [tee, st.genv, st.gcstack] i ∧ π i = k) ∧
      (∃ L, FreelistIs (compactimage tee st).heap.cells
          (compactimage tee st).heap.freelist L ∧
        (compactimage tee st).heap.freespace = L.length ∧
        (∀ k, k ∈ L ↔ (compactimage tee st).count ≤ k ∧
          k < st.cells.length)) ∧
      ((st.genv = none → (compactimage tee st).genv = none) ∧
        ∀ x, st.genv = some x → (compactimage tee st).genv = some (π x)) ∧
      ((st.gcstack = none → (compactimage tee st).gcstack = none) ∧
        ∀ x, st.gcstack = some x →
          (compactimage tee st).gcstack = some (π x)) ∧
      ((st.arg = none → (compactimage tee st).arg = none) ∧
        (∀ x, st.arg = some x →
          RootsReach st.cells [tee, st.genv, st.gcstack] x →
          (compactimage tee st).arg = some (π x)) ∧
        (∀ x, st.arg = some x →
          ¬ RootsReach st.cells [tee, st.genv, st.gcstack] x →
          (compactimage tee st).arg = some x)) := by
  set csm := markobject (markobject (markobject st.cells tee) st.genv)
    st.gcstack with hcsm
  have hsf : SameFields st.cells csm := by
    rw [hcsm]
    exact sameFields_trans (sameFields_trans (sameFields_markFuel _ _ _)
      (sameFields_markFuel _ _ _)) (sameFields_markFuel _ _ _)
  have hcsmlen : csm.length = st.cells.length := hsf.1
  have hmarkiff := markPhase3_marked st.cells tee st.genv st.gcstack hwf hum
    hroots
  rw [← hcsm] at hmarkiff
  have hclosed : MarkedClosed csm := by
    rw [hcsm]
    exact markPhase3_closed st.cells tee st.genv st.gcstack hwf hum hroots
  have hwfm : heapWF csm := heapWF_congr hsf hwf
  obtain ⟨πF, hLlen, hLcell, hLinj, hLcount, hLiff, hLseg, hLle, hLg, hLs,
    hLa⟩ := compactAux_post csm { st with cells := csm } hwfm hclosed
      (csm.length - 1) (nextFree csm 0) { st with cells := csm }
      (fun i => i) (compactInv_init csm st)
  set r := compactAux (csm.length - 1) (nextFree csm 0)
    { st with cells := csm } with hrdef
  have hci : compactimage tee st =
      { count := r.1,
        heap := sweep { cells := r.2.cells, freelist := none, freespace := 0 },
        genv := r.2.genv,
        gcstack := r.2.gcstack,
        arg := r.2.arg } := rfl
  rw [hci]
  have hswe : sweep { cells := r.2.cells, freelist := none, freespace := 0 }
      = sweepAux r.2.cells.length
        { cells := r.2.cells, freelist := none, freespace := 0 } := rfl
  obtain ⟨hswlen, hswfl, hswfs, hswhi, hswmk, hswum⟩ :=
    sweepAux_spec r.2.cells.length
      { cells := r.2.cells, freelist := none, freespace := 0 } []
      (le_refl _) rfl (fun j hj => absurd hj (List.not_mem_nil j))
  have hrlen : r.2.cells.length = st.cells.length := by
    rw [hLlen, hcsmlen]
  have hcount1 : markedCount r.2.cells = r.1 :=
    markedCount_initseg r.2.cells r.1 (by rw [hLlen]; exact hLle)
      (fun k _ => hLseg k)
  have hcounteq : r.1 = markedCount csm := by
    rw [← hcount1]
    exact hLcount
  refine ⟨πF, ⟨(List.range st.cells.length).filter (fun i => isMarked csm i),
    (List.nodup_range st.cells.length).filter _, ?_, ?_⟩, ?_, ?_, ?_, ?_,
    ?_, ?_, ⟨?_, ?_⟩, ⟨?_, ?_⟩, ⟨?_, ?_, ?_⟩⟩
  · intro i
    rw [List.mem_filter, List.mem_range]
    constructor
    · rintro ⟨h1, h2⟩
      exact ⟨h1, (hmarkiff i).1 h2⟩
    · rintro ⟨h1, h2⟩
      exact ⟨h1, (hmarkiff i).2 h2⟩
  · show r.1 = ((List.range st.cells.length).filter
      (fun i => isMarked csm i)).length
    have hcp := countP_isMarked csm
    rw [hcsmlen] at hcp
    rw [← List.countP_eq_length_filter, hcp]
    exact hcounteq
  · show (sweep { cells := r.2.cells, freelist := none, freespace := 0 }).cells.length = st.cells.length
    rw [hswe, hswlen]
    exact hrlen
  · show r.1 ≤ st.cells.length
    omega
  · intro i hreach
    have hi : isMarked csm i = true := (hmarkiff i).2 hreach
    obtain ⟨hπlt, cm, hcm, hcell2⟩ := hLcell i hi
    have hmkpos : isMarked r.2.cells (πF i) = true :=
      (hLiff (πF i)).2 ⟨i, hi, rfl⟩
    have hπcount : πF i < r.1 := (hLseg (πF i)).1 hmkpos
    refine ⟨hπcount, ?_⟩
    obtain ⟨c, hc, hcar, hcdr⟩ := fieldsAt_some_of_some (hsf.2 i).symm hcm
    refine ⟨c, hc, ?_⟩
    have hrc : renameCell πF cm = { renameCell πF c with mark := cm.mark } :=
      renameCell_fields_mark πF c cm hcar.symm hcdr.symm
    have hπlen2 : πF i < r.2.cells.length := isMarked_lt hmkpos
    have hcmm : cm.mark = true := by
      unfold isMarked at hi
      simp only [hcm] at hi
      exact hi
    have hfin := hswmk (πF i) (renameCell πF cm) hπlen2 hcell2
      (by rw [renameCell_mark]; exact hcmm)
    show (sweep { cells := r.2.cells, freelist := none, freespace := 0 }).cells[πF i]? = some { renameCell πF c with mark := false }
    rw [hswe, hfin, hrc]
  · intro i j hi hj he
    exact hLinj i j ((hmarkiff i).2 hi) ((hmarkiff j).2 hj) he
  · intro k hk
    have hmk2 : isMarked r.2.cells k = true := (hLseg k).2 hk
    obtain ⟨i, hi, he⟩ := (hLiff k).1 hmk2
    exact ⟨i, (hmarkiff i).1 hi, he⟩
  · refine ⟨(List.range r.2.cells.length).filter
      (fun i => !isMarked r.2.cells i), ?_, ?_, ?_⟩
    · show FreelistIs (sweep { cells := r.2.cells, freelist := none, freespace := 0 }).cells (sweep { cells := r.2.cells, freelist := none, freespace := 0 }).freelist _
      rw [hswe]
      have hfl := hswfl
      rwa [List.append_nil] at hfl
    · show (sweep { cells := r.2.cells, freelist := none, freespace := 0 }).freespace = _
      rw [hswe, hswfs]
      exact Nat.zero_add _
    · intro k
      show k ∈ _ ↔ r.1 ≤ k ∧ k < st.cells.length
      rw [List.mem_filter, List.mem_range]
      constructor
      · rintro ⟨h1, h2⟩
        refine ⟨?_, by omega⟩
        by_contra h
        have hm3 := (hLseg k).2 (by omega)
        rw [hm3] at h2
        simp at h2
      · rintro ⟨h1, h2⟩
        refine ⟨by omega, ?_⟩
        have hm3 : isMarked r.2.cells k = false := by
          cases hval : isMarked r.2.cells k
          · rfl
          · have := (hLseg k).1 hval
            omega
        rw [hm3]
        rfl
  · intro h
    exact hLg.1 h
  · intro x hx
    have hxr : RootsReach st.cells [tee, st.genv, st.gcstack] x :=
      ⟨x, by simp [hx], Relation.ReflTransGen.refl⟩
    exact (hLg.2 x hx).1 ((hmarkiff x).2 hxr)
  · intro h
    exact hLs.1 h
  · intro x hx
    have hxr : RootsReach st.cells [tee, st.genv, st.gcstack] x :=
      ⟨x, by simp [hx], Relation.ReflTransGen.refl⟩
    exact (hLs.2 x hx).1 ((hmarkiff x).2 hxr)
  · intro h
    exact hLa.1 h
  · intro x hx hreach
    exact (hLa.2 x hx).1 ((hmarkiff x).2 hreach)
  · intro x hx hun
    have hxm : isMarked csm x = false := by
      cases hval : isMarked csm x
      · rfl
      · exact absurd ((hmarkiff x).1 hval) hun
    exact (hLa.2 x hx).2 hxm

/-- Witness for C2 (amended): a two-cell heap whose second cell is a cons
pointing at the first (a number), with `GlobalEnv` as the only root. -/
theorem compactimage_spec_witness :
    heapWF numAndCons ∧
    allUnmarked numAndCons ∧
    (∀ o ∈ [(none : Option Nat), some 1, none], rootOk numAndCons.length o) ∧
    (∃ π : Nat → Nat,
      (∃ live : List Nat, live.Nodup ∧
        (∀ i, i ∈ live ↔ i < numAndCons.length ∧
          RootsReach numAndCons [none, some 1, none] i) ∧
        (compactimage none { cells := numAndCons, genv := some 1, gcstack := none, arg := none }).count = live.length) ∧
      (compactimage none { cells := numAndCons, genv := some 1, gcstack := none, arg := none }).heap.cells.length = numAndCons.length ∧
      (compactimage none { cells := numAndCons, genv := some 1, gcstack := none, arg := none }).count ≤ numAndCons.length) := by
  refine ⟨by decide, by decide, by decide, ?_⟩
  obtain ⟨π, h1, h2, h3, _⟩ := compactimage_spec none
    { cells := numAndCons, genv := some 1, gcstack := none, arg := none }
    (by decide) (by decide) (by decide)
  exact ⟨π, h1, h2, h3⟩

/-- C2 counterexample: `compactimage` never marks `*arg`, so on a heap
whose only populated cell is reachable solely through the argument the
returned count is 0 — not 1, the number of cells reachable from
`{R, GlobalEnv, GCStack, t}` — and both cells are swept onto the free
list (`freespace = 2`) while `*arg` is left pointing at the freed
slot 0. -/
theorem compactimage_counterexample :
    (compactimage none { cells := twoNums, genv := none, gcstack := none, arg := some 0 }).count = 0 ∧
    RootsReach twoNums [some 0, none, none, none] 0 ∧
    (compactimage none { cells := twoNums, genv := none, gcstack := none, arg := some 0 }).heap.freespace = 2 ∧
    (compactimage none { cells := twoNums, genv := none, gcstack := none, arg := some 0 }).arg = some 0 :=
  ⟨rfl, ⟨0, by simp, Relation.ReflTransGen.refl⟩, rfl, rfl⟩

/-- Witness for C3 (amended): the list `(1 2)` is readable, prints, and
reads back as itself. -/
theorem read_print_spec_witness :
    RObj (.scons (.num 1) (.scons (.num 2) .snil)) = true ∧
    ∃ out, printObjM (.scons (.num 1) (.scons (.num 2) .snil)) = .ok out ∧
      ∀ fuel, sizeS (.scons (.num 1) (.scons (.num 2) .snil)) + 1 < fuel →
        readM fuel out = .ok (.scons (.num 1) (.scons (.num 2) .snil), []) :=
  ⟨by decide, read_print_spec _ (by decide)⟩

end ULisp







